import Mathlib

/-!
# Find-references engine (`cppfindreferences.cpp`)

A shallow embedding of the symbol matcher, the reference visitor and the
cross-file search of `src/plugins/cpptools/cppfindreferences.cpp`.

Pointers are addresses (`Nat`); a nullable pointer is an `Option`.  The objects
behind the pointers live in the C++ front-end library, which the file only
uses through accessors; they are represented by records of the accessor
results.  Recursion along pointer chains is bounded by a fuel argument and
returns `none` when the fuel runs out.

The replacement of the occurrences (`applyChanges`, `onReplaceButtonClicked`)
works on a `QTextDocument` through `QTextCursor`s of the Qt library.  The text
of a document is a list of characters with its blocks divided by newlines, and
the adjustment of the cursors of a document at an edit follows the behaviour
of `QTextCursor`: a cursor behind an edit moves along with it, and a cursor at
the place of an insertion moves behind the inserted text.  The editors and the
file system are parameters.

The traversal of the levels of a tree (`forChildrenAtLevel`,
`findChildAtLevel`) is that of `src/libs/utils/treemodel.h`.
-/

namespace CppFindReferences

/-! ## Symbols -/

/-- The address of a `Symbol` object. -/
abbrev SymPtr := Nat

/-- The address of a `Scope` object. -/
abbrev ScopePtr := Nat

/-- The value of a `Name`, as far as `Name::isEqualTo` looks at it. -/
abbrev NameVal := Nat

/-- The address of an interned `Identifier`. -/
abbrev IdPtr := Nat

/-- Modelled from the spec: the `Symbol` class of the C++ front-end is declared
outside the two source files; this record holds what the accessors used by
`Process` and `find_helper` return for one symbol: `scope()`, `name()`,
`enclosingSymbol()`, `line()`, `column()`, `fileName()`, `isClass()`,
`isForwardClassDeclaration()` and `identifier()` (its spelling, when
present). -/
structure Symbol where
  scope : Option ScopePtr
  name : Option NameVal
  enclosingSymbol : Option SymPtr
  line : Nat
  column : Nat
  fileName : String
  isClass : Bool
  isForwardClassDeclaration : Bool
  identifier : Option String
  deriving DecidableEq

/-- The symbol heap: what each symbol address points to. -/
abbrev Heap := SymPtr → Symbol

/-- Comparison of two character sequences, as `strcmp` does it: the sign of
the first difference, zero when there is none. -/
def strcmpChars : List Char → List Char → Int
  | [], [] => 0
  | [], _ :: _ => -1
  | _ :: _, [] => 1
  | a :: as, b :: bs =>
    if a = b then strcmpChars as bs else if a.toNat < b.toNat then -1 else 1

/-- The C string comparison `qstrcmp`. -/
def qstrcmp (a b : String) : Int :=
  strcmpChars a.data b.data

/-- The matcher part of `Process`: the heap its symbol pointers point into,
`Name::isEqualTo`, `LookupContext::canonicalSymbol` (already applied to the
global namespace binding) and the member `_declSymbol`. -/
structure Matcher where
  heap : Heap
  isEqualTo : NameVal → NameVal → Bool
  canonicalSymbol : List (Option SymPtr) → Option SymPtr
  declSymbol : SymPtr

/-- The method `Process::checkScope`.  The fuel bounds the recursive calls along the
enclosing-symbol chains; `none` is returned when it runs out. -/
def checkScope (heap : Heap) (isEqualTo : NameVal → NameVal → Bool) :
    Nat → Option SymPtr → Option SymPtr → Option Bool
  | fuel, some symbol, some otherSymbol =>
    if (heap symbol).scope = (heap otherSymbol).scope then
      some true
    else
      let namesDiffer : Bool :=
        match (heap symbol).name, (heap otherSymbol).name with
        | some n, some m => ! isEqualTo n m
        | none, none => false
        | _, _ => true
      if namesDiffer then
        some false
      else
        match fuel with
        | 0 => none
        | fuel + 1 =>
          checkScope heap isEqualTo fuel (heap symbol).enclosingSymbol
            (heap otherSymbol).enclosingSymbol
  | _, _, _ => some false

/-- The method `Process::isDeclSymbol`. -/
def isDeclSymbol (m : Matcher) (fuel : Nat) (symbol : Option SymPtr) : Option Bool :=
  match symbol with
  | none => some false
  | some symbol =>
    if symbol = m.declSymbol then
      some true
    else if (m.heap symbol).line = (m.heap m.declSymbol).line
        ∧ (m.heap symbol).column = (m.heap m.declSymbol).column then
      if qstrcmp (m.heap symbol).fileName (m.heap m.declSymbol).fileName = 0 then
        some true
      else
        some false
    else if (m.heap symbol).isForwardClassDeclaration
        && ((m.heap m.declSymbol).isClass || (m.heap m.declSymbol).isForwardClassDeclaration) then
      checkScope m.heap m.isEqualTo fuel (some symbol) (some m.declSymbol)
    else if (m.heap m.declSymbol).isForwardClassDeclaration
        && ((m.heap symbol).isClass || (m.heap symbol).isForwardClassDeclaration) then
      checkScope m.heap m.isEqualTo fuel (some symbol) (some m.declSymbol)
    else
      some false

/-- The method `Process::checkCandidates`. -/
def checkCandidates (m : Matcher) (fuel : Nat) (candidates : List (Option SymPtr)) :
    Option Bool :=
  match m.canonicalSymbol candidates with
  | some canonicalSymbol => isDeclSymbol m fuel (some canonicalSymbol)
  | none => some false

/-! ## The reference visitor -/

/-- A syntax tree node, by the shapes `Process` tells apart.  Every node carries
the result of its `firstToken()`; the other fields are the members the visitor
reads.  A nullable child pointer is an `Option`; a linked list of nodes is a
`List`.  `other` stands for every node class without a `visit` overload in
`Process`, and `declarator` is such a class too, listed for the use
`visit(ParameterDeclarationAST *)` makes of its members. -/
inductive AST where
  | simpleName (firstToken identifier_token : Nat) (name : Option NameVal)
  | destructorName (firstToken identifier_token : Nat) (name : Option NameVal)
  | templateId (firstToken identifier_token : Nat) (name : Option NameVal)
      (template_arguments : List (Option AST))
  | qualifiedName (firstToken : Nat) (nested_name_specifier : List (Option AST))
      (unqualified_name : Option AST)
  | memInitializer (firstToken : Nat) (name : Option AST) (expression : Option AST)
  | postfixExpression (firstToken : Nat) (base_expression : Option AST)
      (postfix_expressions : List AST)
  | memberAccess (firstToken : Nat) (member_name : Option AST)
  | enumerator (firstToken identifier_token : Nat) (expression : Option AST)
  | declarator (firstToken : Nat) (attributes ptr_operators : List AST)
      (core_declarator : Option AST) (postfix_declarators post_attributes : List AST)
      (initializer : Option AST)
  | parameterDeclaration (firstToken : Nat) (type_specifier : List AST)
      (declarator : Option AST) (expression : Option AST)
  | expressionOrDeclarationStatement (firstToken : Nat) (expression declaration : Option AST)
  | functionDeclarator (firstToken : Nat) (parameters : Option AST)
      (cv_qualifier_seq : List AST) (exception_specification : Option AST)
  | other (firstToken : Nat) (children : List (Option AST))

/-- The virtual method `AST::firstToken`. -/
def AST.first : AST → Nat
  | .simpleName t _ _ => t
  | .destructorName t _ _ => t
  | .templateId t _ _ _ => t
  | .qualifiedName t _ _ => t
  | .memInitializer t _ _ => t
  | .postfixExpression t _ _ => t
  | .memberAccess t _ => t
  | .enumerator t _ _ => t
  | .declarator t _ _ _ _ _ _ => t
  | .parameterDeclaration t _ _ _ => t
  | .expressionOrDeclarationStatement t _ _ => t
  | .functionDeclarator t _ _ _ => t
  | .other t _ => t

/-- A token, as far as `Process` reads it: `offset` and `f.length`. -/
structure Token where
  offset : Nat
  length : Nat
  deriving DecidableEq

/-- The method `Token::begin`. -/
def Token.begin (tk : Token) : Nat := tk.offset

/-- The method `Token::end`, named after what it returns. -/
def Token.endOffset (tk : Token) : Nat := tk.offset + tk.length

/-- A `LookupContext`, as far as `Process` tells two of them apart: the symbol
it was built from (the scratch document, the document and the snapshot are the
same for all contexts of one `Process`). -/
structure LookupContext where
  symbol : Option SymPtr
  deriving DecidableEq

/-- The record `Utils::FileSearchResult`. -/
structure FileSearchResult where
  fileName : String
  lineNumber : Nat
  matchingLine : List Char
  matchStart : Nat
  matchLength : Nat
  deriving DecidableEq

/-- The members of `Process` that stay fixed during a traversal, and the
front-end functions it calls: `tokenAt`, `identifier`, `getTokenStartPosition`
of the translation unit, `Document::findSymbolAt`, `LookupContext::resolve`,
`Control::nameId`, `Semantic::check` on a name node, `TypeOfExpression`
(the symbols of its results) and `QDir::toNativeSeparators`. -/
structure Process where
  matcher : Matcher
  id : Option IdPtr
  future : Bool
  docFileName : String
  source : List Char
  tokenAt : Nat → Token
  identifier : Nat → Option IdPtr
  getTokenStartPosition : Nat → Nat × Nat
  findSymbolAt : Nat → Nat → Option SymPtr
  resolve : LookupContext → Option NameVal → List (Option SymPtr)
  nameId : Option IdPtr → Option NameVal
  semCheck : AST → Option NameVal
  typeofExpression : List Char → Option SymPtr → List (Option SymPtr)
  toNativeSeparators : String → String

/-- The members of `Process` that change during a traversal: `_references`,
the results reported to `_future`, `_postfixExpressionStack` and
`_previousContext`. -/
structure State where
  references : List Nat
  results : List FileSearchResult
  postfixExpressionStack : List AST
  previousContext : LookupContext

/-- How a traversal ends without returning: the assertion in
`visit(MemberAccessAST *)` fails, or the fuel of `checkScope` runs out. -/
inductive Failure where
  | assertionFailed
  | outOfFuel
  deriving DecidableEq

/-- The byte at an index of the source buffer; the buffer ends with a NUL and
is read as NUL behind it. -/
def byteAt (source : List Char) (i : Nat) : Char :=
  source.getD i (Char.ofNat 0)

/-- The first loop of `matchingLine` followed by `++cp`: from the index `i`
downwards to the first newline, one past it; the start of the buffer when
there is none. -/
def lineBegin (source : List Char) : Nat → Nat
  | 0 => if byteAt source 0 = '\n' then 1 else 0
  | i + 1 => if byteAt source (i + 1) = '\n' then i + 2 else lineBegin source i

/-- The second loop of `matchingLine` on the bytes from `lineEnd` onwards: the
number of bytes before the first NUL or newline. -/
def scanLine : List Char → Nat
  | [] => 0
  | c :: rest => if c = Char.ofNat 0 ∨ c = '\n' then 0 else scanLine rest + 1

/-- The method `Process::matchingLine`. -/
def matchingLine (source : List Char) (tk : Token) : List Char :=
  let cp := lineBegin source tk.offset
  let lineEnd := (cp + 1) + scanLine (source.drop (cp + 1))
  (source.drop cp).take (lineEnd - cp)

/-- The method `QByteArray::mid` for a position and a length. -/
def mid (source : List Char) (pos len : Nat) : List Char :=
  (source.drop pos).take len

/-- The `Utils::FileSearchResult` that `Process::reportResult(unsigned
tokenIndex)` builds for a token. -/
def searchResultAt (P : Process) (tokenIndex : Nat) : FileSearchResult :=
  let tk := P.tokenAt tokenIndex
  let lineText := matchingLine P.source tk
  let line := (P.getTokenStartPosition tokenIndex).1
  let col := (P.getTokenStartPosition tokenIndex).2
  let col := if col ≠ 0 then col - 1 else col
  let len := tk.length
  { fileName := P.toNativeSeparators P.docFileName, lineNumber := line
    matchingLine := lineText, matchStart := col, matchLength := len }

/-- The method `Process::reportResult(unsigned tokenIndex)`. -/
def reportResultAt (P : Process) (tokenIndex : Nat) (st : State) : State :=
  let results :=
    if P.future then st.results ++ [searchResultAt P tokenIndex] else st.results
  { st with results := results, references := st.references ++ [tokenIndex] }

/-- The method `Process::reportResult(unsigned tokenIndex, const QList<Symbol *> &candidates)`. -/
def reportResult (P : Process) (fuel : Nat) (tokenIndex : Nat)
    (candidates : List (Option SymPtr)) (st : State) : Except Failure State :=
  match checkCandidates P.matcher fuel candidates with
  | none => .error .outOfFuel
  | some isStrongResult =>
    if isStrongResult then .ok (reportResultAt P tokenIndex st) else .ok st

/-- The method `Process::currentContext`, for a node with the given first token: the
context and the state with `_previousContext` updated. -/
def currentContext (P : Process) (firstToken : Nat) (st : State) : LookupContext × State :=
  let pos := P.getTokenStartPosition firstToken
  let lastVisibleSymbol := P.findSymbolAt pos.1 pos.2
  if lastVisibleSymbol ≠ none ∧ lastVisibleSymbol = st.previousContext.symbol then
    (st.previousContext, st)
  else
    let ctx : LookupContext := { symbol := lastVisibleSymbol }
    (ctx, { st with previousContext := ctx })

/-- The candidates `Process::checkExpression` collects for the expression from
`startToken` to `endToken`. -/
def expressionCandidates (P : Process) (startToken endToken : Nat) : List (Option SymPtr) :=
  let begin := (P.tokenAt startToken).begin
  let endOffset := (P.tokenAt endToken).endOffset
  let expression := mid P.source begin (endOffset - begin)
  let pos := P.getTokenStartPosition startToken
  let lastVisibleSymbol := P.findSymbolAt pos.1 pos.2
  P.typeofExpression expression lastVisibleSymbol

/-- The method `Process::checkExpression`. -/
def checkExpression (P : Process) (fuel : Nat) (startToken endToken : Nat) (st : State) :
    Except Failure State :=
  reportResult P fuel endToken (expressionCandidates P startToken endToken) st

/-- The step shared by the `visit` overloads for names and enumerators: when
the token is the searched identifier, resolve the name in the current context
and report the token. -/
def resolveAndReport (P : Process) (fuel : Nat) (firstToken identifier_token : Nat)
    (name : Option NameVal) (st : State) : Except Failure State :=
  if P.identifier identifier_token = P.id then
    let (context, st) := currentContext P firstToken st
    reportResult P fuel identifier_token (P.resolve context name) st
  else .ok st

/-- The identifier token `visit(QualifiedNameAST *)` takes from one
`class_or_namespace_name`: that of a simple name or of a template-id. -/
def nestedIdentifierToken : Option AST → Option Nat
  | some (.simpleName _ identifier_token _) => some identifier_token
  | some (.templateId _ identifier_token _ _) => some identifier_token
  | _ => none

/-- The `identifier_token` that `visit(QualifiedNameAST *)` ends up with for
the unqualified name: that of a simple name or a destructor name when it is
not 0, else that of a template-id, else 0. -/
def unqualifiedIdentifierToken : AST → Nat
  | .simpleName _ identifier_token _ => identifier_token
  | .destructorName _ identifier_token _ => identifier_token
  | .templateId _ identifier_token _ _ => identifier_token
  | _ => 0

/-- The identifier token of a member name that is a simple name, as
`visit(MemberAccessAST *)` and `visit(MemInitializerAST *)` take it. -/
def simpleNameToken : Option AST → Option Nat
  | some (.simpleName _ identifier_token _) => some identifier_token
  | _ => none

/-- The method `Process::ensureNameIsValid` followed by the read of `simple->name`: the
name of the node, set by `Semantic::check` when it was null. -/
def ensureNameIsValid (P : Process) : AST → Option NameVal
  | .simpleName t identifier_token none => P.semCheck (.simpleName t identifier_token none)
  | .simpleName _ _ (some n) => some n
  | _ => none

/-- The first part of `visit(MemInitializerAST *)`: the check of a name that
is a simple name. -/
def checkMemInitializerName (P : Process) (fuel : Nat) (firstToken : Nat)
    (name : Option AST) (st : State) : Except Failure State :=
  match name, simpleNameToken name with
  | some simple, some identifier_token =>
    resolveAndReport P fuel firstToken identifier_token (ensureNameIsValid P simple) st
  | _, _ => .ok st

/-- The last part of `visit(QualifiedNameAST *)`: the check of the unqualified
name, after its template arguments were visited. -/
def checkUnqualifiedName (P : Process) (fuel : Nat) (firstToken : Nat)
    (unqualified_name : Option AST) (st : State) : Except Failure State :=
  match unqualified_name with
  | none => .ok st
  | some unqualified =>
    let identifier_token := unqualifiedIdentifierToken unqualified
    if identifier_token ≠ 0 ∧ P.identifier identifier_token = P.id then
      checkExpression P fuel firstToken identifier_token st
    else .ok st

/-- The check of one `class_or_namespace_name` in the first loop of
`visit(QualifiedNameAST *)`, after its template arguments were visited. -/
def checkNestedName (P : Process) (fuel : Nat) (firstToken : Nat)
    (class_or_namespace_name : Option AST) (st : State) : Except Failure State :=
  match nestedIdentifierToken class_or_namespace_name with
  | some identifier_token =>
    if P.identifier identifier_token = P.id then
      checkExpression P fuel firstToken identifier_token st
    else .ok st
  | none => .ok st

mutual

/-- The method `ASTVisitor::accept` on a node: the `visit` overload of `Process` for the
node, the children when it returns true, and `endVisit`. -/
def accept (P : Process) (fuel : Nat) : AST → State → Except Failure State
  | .simpleName firstToken identifier_token name, st =>
    resolveAndReport P fuel firstToken identifier_token name st
  | .destructorName firstToken identifier_token name, st =>
    resolveAndReport P fuel firstToken identifier_token name st
  | .templateId firstToken identifier_token name template_arguments, st => do
    let st ← resolveAndReport P fuel firstToken identifier_token name st
    acceptPtrList P fuel template_arguments st
  | .qualifiedName firstToken nested_name_specifier unqualified_name, st => do
    let st ← visitNestedNameSpecifier P fuel firstToken nested_name_specifier st
    let st ← acceptTemplateArguments P fuel unqualified_name st
    checkUnqualifiedName P fuel firstToken unqualified_name st
  | .memInitializer firstToken name expression, st => do
    let st ← checkMemInitializerName P fuel firstToken name st
    acceptPtr P fuel expression st
  | .postfixExpression firstToken base_expression postfix_expressions, st => do
    let st := { st with postfixExpressionStack :=
      st.postfixExpressionStack ++ [.postfixExpression firstToken base_expression postfix_expressions] }
    let st ← acceptPtr P fuel base_expression st
    let st ← acceptList P fuel postfix_expressions st
    .ok { st with postfixExpressionStack := st.postfixExpressionStack.dropLast }
  | .memberAccess _ member_name, st =>
    match simpleNameToken member_name with
    | some identifier_token =>
      if P.identifier identifier_token = P.id then
        match st.postfixExpressionStack.getLast? with
        | none => .error .assertionFailed
        | some last => checkExpression P fuel last.first identifier_token st
      else acceptPtr P fuel member_name st
    | none => acceptPtr P fuel member_name st
  | .enumerator firstToken identifier_token expression, st => do
    let st ← resolveAndReport P fuel firstToken identifier_token
      (P.nameId (P.identifier identifier_token)) st
    acceptPtr P fuel expression st
  | .declarator _ attributes ptr_operators core_declarator postfix_declarators
      post_attributes initializer, st => do
    let st ← acceptList P fuel attributes st
    let st ← acceptList P fuel ptr_operators st
    let st ← acceptPtr P fuel core_declarator st
    let st ← acceptList P fuel postfix_declarators st
    let st ← acceptList P fuel post_attributes st
    acceptPtr P fuel initializer st
  | .parameterDeclaration _ type_specifier declarator expression, st => do
    let st ← acceptList P fuel type_specifier st
    let st ← acceptParameterDeclarator P fuel declarator st
    acceptPtr P fuel expression st
  | .expressionOrDeclarationStatement _ _ declaration, st =>
    acceptPtr P fuel declaration st
  | .functionDeclarator _ parameters cv_qualifier_seq exception_specification, st => do
    let st ← acceptPtr P fuel parameters st
    let st ← acceptList P fuel cv_qualifier_seq st
    acceptPtr P fuel exception_specification st
  | .other _ children, st =>
    acceptPtrList P fuel children st

/-- The method `ASTVisitor::accept` on a nullable pointer. -/
def acceptPtr (P : Process) (fuel : Nat) : Option AST → State → Except Failure State
  | none, st => .ok st
  | some ast, st => accept P fuel ast st

/-- The loop `for (it = list; it; it = it->next) accept(it)`. -/
def acceptList (P : Process) (fuel : Nat) : List AST → State → Except Failure State
  | [], st => .ok st
  | ast :: next, st => do
    let st ← accept P fuel ast st
    acceptList P fuel next st

/-- The loop `for (it = list; it; it = it->next) accept(it->value)` over a
list of nullable children. -/
def acceptPtrList (P : Process) (fuel : Nat) : List (Option AST) → State → Except Failure State
  | [], st => .ok st
  | ast :: next, st => do
    let st ← acceptPtr P fuel ast st
    acceptPtrList P fuel next st

/-- The first loop of `visit(QualifiedNameAST *)`, over the nested name
specifiers; `firstToken` is that of the qualified name. -/
def visitNestedNameSpecifier (P : Process) (fuel : Nat) (firstToken : Nat) :
    List (Option AST) → State → Except Failure State
  | [], st => .ok st
  | class_or_namespace_name :: next, st => do
    let st ← acceptTemplateArguments P fuel class_or_namespace_name st
    let st ← checkNestedName P fuel firstToken class_or_namespace_name st
    visitNestedNameSpecifier P fuel firstToken next st

/-- The loop of `visit(QualifiedNameAST *)` over the template arguments of a
name that is a template-id; nothing for another name. -/
def acceptTemplateArguments (P : Process) (fuel : Nat) :
    Option AST → State → Except Failure State
  | some (.templateId _ _ _ template_arguments), st =>
    acceptPtrList P fuel template_arguments st
  | _, st => .ok st

/-- The part of `visit(ParameterDeclarationAST *)` on the declarator: its
attributes, pointer operators, postfix declarators, post attributes and
initializer, and not its core declarator; nothing without a declarator. -/
def acceptParameterDeclarator (P : Process) (fuel : Nat) :
    Option AST → State → Except Failure State
  | some (.declarator _ attributes ptr_operators _ postfix_declarators
      post_attributes initializer), st => do
    let st ← acceptList P fuel attributes st
    let st ← acceptList P fuel ptr_operators st
    let st ← acceptList P fuel postfix_declarators st
    let st ← acceptList P fuel post_attributes st
    acceptPtr P fuel initializer st
  | _, st => .ok st

end

/-- The assignments `_declSymbol = symbol; _id = id;` of `Process::operator()`. -/
def Process.setTarget (P : Process) (symbol : SymPtr) (id : Option IdPtr) : Process :=
  { P with id := id, matcher := { P.matcher with declSymbol := symbol } }

/-- The call operator `Process::operator()`: the traversal of `ast` for the symbol and the
identifier, from the members left by earlier calls; the returned list is
`_references`. -/
def operatorCall (P : Process) (fuel : Nat) (symbol : SymPtr) (id : Option IdPtr)
    (ast : Option AST) (st : State) : Except Failure (List Nat × State) := do
  let st ← acceptPtr (P.setTarget symbol id) fuel ast { st with references := [] }
  .ok (st.references, st)

/-! ## The search over the files of a snapshot -/

/-- Modelled from the spec: the `Document` class is declared outside the two
source files; this record holds what `find_helper` reads of a document: its
`fileName()`, its source and the identifier table of its `control()`, as the
list of the interned spellings. -/
structure Document where
  fileName : String
  source : List Char
  identifiers : List String
  deriving DecidableEq

/-- The method `Control::findIdentifier` on the control of a document: the interned
identifier with the spelling (its place in the table), null when the table
has none. -/
def findIdentifier (doc : Document) (chars : String) : Option IdPtr :=
  if chars ∈ doc.identifiers then some (doc.identifiers.indexOf chars) else none

/-- What `find_helper` is given and what it calls: the snapshot as the map
from file names to documents in iteration order, `Snapshot::dependsOn`, the
working copy `wl`, the file system (`QFile::open` and `readAll`, `none` when
the file cannot be opened), `Snapshot::preprocessedCode`, the identifier table
`Document::tokenize` builds from a source, the results a `Process` run on a
parsed and checked document reports to the future, `QFileInfo::fileName`, and
what `isCanceled` returns at the start of each iteration. -/
structure SearchEnv where
  snapshot : List (String × Document)
  dependsOn : String → List String
  wl : List (String × String)
  readFile : String → Option String
  preprocessedCode : String → String → List Char
  tokenize : List Char → List String
  process : Document → IdPtr → List FileSearchResult
  fileInfoFileName : String → String
  isCanceled : Nat → Bool

/-- The method `Snapshot::value`: the document under a file name, null when there is none. -/
def SearchEnv.snapshotValue (env : SearchEnv) (fileName : String) : Option Document :=
  env.snapshot.lookup fileName

/-- The method `Snapshot::documentFromSource` followed by `Document::tokenize`. -/
def SearchEnv.documentFromSource (env : SearchEnv) (source : List Char) (fileName : String) :
    Document :=
  { fileName := fileName, source := source, identifiers := env.tokenize source }

/-- What `find_helper` does, in the order it does it: the calls on the
future, the opening of a file, the tokenizing of a source read for a file,
the run of a `Process` on the document built from it, and each result the run
reports, with the file of the iteration. -/
inductive Event where
  | setProgressRange (minimum maximum : Nat)
  | setProgressValueAndText (value : Nat) (text : String)
  | openFile (fileName : String) (opened : Bool)
  | tokenize (fileName : String) (source : List Char)
  | runProcess (fileName : String) (source : List Char)
  | reportResult (fileName : String) (result : FileSearchResult)
  | setProgressValue (value : Nat)
  deriving DecidableEq

/-- The `foreach` loop of `find_helper` over the documents of the snapshot,
appending to `files`. -/
def appendDocumentsWithIdentifier (sourceFile symbolId : String) :
    List (String × Document) → List String → List String
  | [], files => files
  | (_, doc) :: rest, files =>
    if doc.fileName = sourceFile then
      appendDocumentsWithIdentifier sourceFile symbolId rest files
    else if (findIdentifier doc symbolId).isSome then
      appendDocumentsWithIdentifier sourceFile symbolId rest (files ++ [doc.fileName])
    else
      appendDocumentsWithIdentifier sourceFile symbolId rest files

/-- The list `files` of `find_helper` when its loop starts. -/
def candidateFiles (env : SearchEnv) (symbol : Symbol) (symbolId : String) : List String :=
  let sourceFile := symbol.fileName
  let files := [sourceFile]
  if symbol.isClass || symbol.isForwardClassDeclaration then
    appendDocumentsWithIdentifier sourceFile symbolId env.snapshot files
  else
    files ++ env.dependsOn sourceFile

/-- The candidate files in the words of the specification: the declaring file,
followed for a class or a class forward declaration by the file names of the
snapshot documents other than the declaring file whose identifier table has
the spelling, and for another symbol by the files depending on the declaring
file. -/
def candidateFilesSpec (env : SearchEnv) (symbol : Symbol) (symbolId : String) : List String :=
  symbol.fileName ::
    (if symbol.isClass = true ∨ symbol.isForwardClassDeclaration = true then
      ((env.snapshot.map Prod.snd).filter
        (fun doc => decide (doc.fileName ≠ symbol.fileName ∧ symbolId ∈ doc.identifiers))).map
        Document.fileName
    else env.dependsOn symbol.fileName)

/-- The source `find_helper` reads for a file: the preprocessed working copy
when there is one, else the preprocessed content of the file; `none` when the
file cannot be opened. -/
def readSource (env : SearchEnv) (fileName : String) : Option (List Char) :=
  match env.wl.lookup fileName with
  | some contents => some (env.preprocessedCode contents fileName)
  | none =>
    match env.readFile fileName with
    | none => none
    | some contents => some (env.preprocessedCode contents fileName)

/-- One iteration of the loop of `find_helper`, after the test of
`isCanceled`, for the file at index `i`. -/
def processFile (env : SearchEnv) (symbolId : String) (i : Nat) (fileName : String) :
    List Event :=
  let progress := Event.setProgressValueAndText i (env.fileInfoFileName fileName)
  let skip : Bool :=
    match env.snapshotValue fileName with
    | some previousDoc => (findIdentifier previousDoc symbolId).isNone
    | none => false
  if skip then
    [progress]
  else
    let opening :=
      match env.wl.lookup fileName with
      | some _ => []
      | none => [Event.openFile fileName (env.readFile fileName).isSome]
    match readSource env fileName with
    | none => progress :: opening
    | some source =>
      let doc := env.documentFromSource source fileName
      match findIdentifier doc symbolId with
      | some id =>
        progress :: opening ++ [Event.tokenize fileName source, Event.runProcess fileName source]
          ++ (env.process doc id).map (Event.reportResult fileName)
      | none => progress :: opening ++ [Event.tokenize fileName source]

/-- The loop of `find_helper` from the index `i` on, over the files that are
left.  The wait in `waitForResume` while the future is paused changes nothing
that is recorded here. -/
def searchLoop (env : SearchEnv) (symbolId : String) : Nat → List String → List Event
  | _, [] => []
  | i, fileName :: rest =>
    if env.isCanceled i then []
    else processFile env symbolId i fileName ++ searchLoop env symbolId (i + 1) rest

/-- What a run of `find_helper` leaves: its list `files` and what it did. -/
structure SearchRun where
  files : List String
  events : List Event
  deriving DecidableEq

/-- The function `find_helper`; `none` when the assertion `symbolId != 0`
fails. -/
def find_helper (env : SearchEnv) (symbol : Symbol) : Option SearchRun :=
  match symbol.identifier with
  | none => none
  | some symbolId =>
    let files := candidateFiles env symbol symbolId
    some
      { files := files
        events := Event.setProgressRange 0 files.length :: searchLoop env symbolId 0 files
          ++ [Event.setProgressValue files.length] }

/-! ## The entry points -/

/-- The enumeration `Find::SearchResultWindow::SearchMode`. -/
inductive SearchMode where
  | SearchOnly
  | SearchAndReplace
  deriving DecidableEq

/-- What `findUsages`, `renameUsages` and `findAll_helper` do to the result
window, the watcher and the progress manager, in the order they do it. -/
inductive UiAction where
  | startNewSearch (mode : SearchMode)
  | setTextToReplace (text : String)
  | connectActivated
  | connectReplaceButtonClicked
  | popup
  | runFindHelper (symbol : SymPtr)
  | setFuture
  | addTask
  | connectClicked
  deriving DecidableEq

/-- The method `CppFindReferences::findAll_helper`. -/
def findAll_helper (symbol : SymPtr) : List UiAction :=
  [.popup, .runFindHelper symbol, .setFuture, .addTask, .connectClicked]

/-- The method `CppFindReferences::findUsages`. -/
def findUsages (symbol : SymPtr) : List UiAction :=
  [.startNewSearch .SearchOnly, .connectActivated] ++ findAll_helper symbol

/-- The method `CppFindReferences::renameUsages`. -/
def renameUsages (heap : Heap) (symbol : SymPtr) : List UiAction :=
  match (heap symbol).identifier with
  | some id =>
    [.startNewSearch .SearchAndReplace, .setTextToReplace id, .connectActivated,
      .connectReplaceButtonClicked] ++ findAll_helper symbol
  | none => []

/-- The searches in the background a list of actions starts: the symbols
`find_helper` is run on. -/
def startedSearches : List UiAction → List SymPtr
  | [] => []
  | .runFindHelper symbol :: rest => symbol :: startedSearches rest
  | _ :: rest => startedSearches rest

/-! ## What the statements below speak of -/

/-- A resolution of the visitor: the token it resolves and the candidate
list it resolves for the token. -/
abbrev Resolution := Nat × List (Option SymPtr)

/-- The candidate list `context.resolve(name)` of a `visit` overload for a
name, with `context = currentContext(ast)`: the context of the symbol visible
at the first token of the node. -/
def resolveCandidates (P : Process) (firstToken : Nat) (name : Option NameVal) :
    List (Option SymPtr) :=
  let pos := P.getTokenStartPosition firstToken
  P.resolve { symbol := P.findSymbolAt pos.1 pos.2 } name

/-- The resolution of a `visit` overload for a name or an enumerator: one for
the identifier token when it is the searched identifier, with the candidates
resolved for the name at the node; none for another identifier. -/
def resolveSite (P : Process) (firstToken identifier_token : Nat) (name : Option NameVal) :
    List Resolution :=
  if P.identifier identifier_token = P.id then
    [(identifier_token, resolveCandidates P firstToken name)]
  else []

/-- The resolution of `visit(MemInitializerAST *)` for a name that is a
simple name. -/
def memInitializerSite (P : Process) (firstToken : Nat) (name : Option AST) :
    List Resolution :=
  match name, simpleNameToken name with
  | some simple, some identifier_token =>
    resolveSite P firstToken identifier_token (ensureNameIsValid P simple)
  | _, _ => []

/-- The resolution of `visit(QualifiedNameAST *)` for the unqualified name:
the candidates of the expression from the first token of the qualified name
to the identifier token. -/
def unqualifiedSite (P : Process) (firstToken : Nat) (unqualified_name : Option AST) :
    List Resolution :=
  match unqualified_name with
  | none => []
  | some unqualified =>
    let identifier_token := unqualifiedIdentifierToken unqualified
    if identifier_token ≠ 0 ∧ P.identifier identifier_token = P.id then
      [(identifier_token, expressionCandidates P firstToken identifier_token)]
    else []

/-- The resolution of `visit(QualifiedNameAST *)` for one
`class_or_namespace_name`: the candidates of the expression from the first
token of the qualified name to the identifier token. -/
def nestedSite (P : Process) (firstToken : Nat) (class_or_namespace_name : Option AST) :
    List Resolution :=
  match nestedIdentifierToken class_or_namespace_name with
  | some identifier_token =>
    if P.identifier identifier_token = P.id then
      [(identifier_token, expressionCandidates P firstToken identifier_token)]
    else []
  | none => []

/-- The resolution of `visit(MemberAccessAST *)` for a member name with the
searched identifier: the candidates of the expression from the first token of
the innermost postfix expression around the member access to the identifier
token; none outside a postfix expression, where the assertion fails. -/
def memberAccessSite (P : Process) (enclosing : List AST) (identifier_token : Nat) :
    List Resolution :=
  match enclosing.getLast? with
  | none => []
  | some last => [(identifier_token, expressionCandidates P last.first identifier_token)]

mutual

/-- The resolutions the visitor makes in a tree, in the order of the
traversal: for each token it resolves, the candidate list it resolves at the
node of the token.  `enclosing` is the list of the postfix expressions around
the node, the outermost first. -/
def resolutions (P : Process) : List AST → AST → List Resolution
  | _, .simpleName firstToken identifier_token name =>
    resolveSite P firstToken identifier_token name
  | _, .destructorName firstToken identifier_token name =>
    resolveSite P firstToken identifier_token name
  | enclosing, .templateId firstToken identifier_token name template_arguments =>
    resolveSite P firstToken identifier_token name
      ++ resolutionsPtrList P enclosing template_arguments
  | enclosing, .qualifiedName firstToken nested_name_specifier unqualified_name =>
    nestedResolutions P firstToken enclosing nested_name_specifier
      ++ (templateArgumentResolutions P enclosing unqualified_name
        ++ unqualifiedSite P firstToken unqualified_name)
  | enclosing, .memInitializer firstToken name expression =>
    memInitializerSite P firstToken name ++ resolutionsPtr P enclosing expression
  | enclosing, .postfixExpression firstToken base_expression postfix_expressions =>
    resolutionsPtr P
        (enclosing ++ [.postfixExpression firstToken base_expression postfix_expressions])
        base_expression
      ++ resolutionsList P
        (enclosing ++ [.postfixExpression firstToken base_expression postfix_expressions])
        postfix_expressions
  | enclosing, .memberAccess _ member_name =>
    match simpleNameToken member_name with
    | some identifier_token =>
      if P.identifier identifier_token = P.id then
        memberAccessSite P enclosing identifier_token
      else resolutionsPtr P enclosing member_name
    | none => resolutionsPtr P enclosing member_name
  | enclosing, .enumerator firstToken identifier_token expression =>
    resolveSite P firstToken identifier_token (P.nameId (P.identifier identifier_token))
      ++ resolutionsPtr P enclosing expression
  | enclosing, .declarator _ attributes ptr_operators core_declarator postfix_declarators
      post_attributes initializer =>
    resolutionsList P enclosing attributes
      ++ (resolutionsList P enclosing ptr_operators
        ++ (resolutionsPtr P enclosing core_declarator
          ++ (resolutionsList P enclosing postfix_declarators
            ++ (resolutionsList P enclosing post_attributes
              ++ resolutionsPtr P enclosing initializer))))
  | enclosing, .parameterDeclaration _ type_specifier declarator expression =>
    resolutionsList P enclosing type_specifier
      ++ (parameterDeclaratorResolutions P enclosing declarator
        ++ resolutionsPtr P enclosing expression)
  | enclosing, .expressionOrDeclarationStatement _ _ declaration =>
    resolutionsPtr P enclosing declaration
  | enclosing, .functionDeclarator _ parameters cv_qualifier_seq exception_specification =>
    resolutionsPtr P enclosing parameters
      ++ (resolutionsList P enclosing cv_qualifier_seq
        ++ resolutionsPtr P enclosing exception_specification)
  | enclosing, .other _ children =>
    resolutionsPtrList P enclosing children
termination_by structural _ x => x

/-- The resolutions in a nullable child. -/
def resolutionsPtr (P : Process) : List AST → Option AST → List Resolution
  | _, none => []
  | enclosing, some ast => resolutions P enclosing ast
termination_by structural _ x => x

/-- The resolutions in a list of nodes. -/
def resolutionsList (P : Process) : List AST → List AST → List Resolution
  | _, [] => []
  | enclosing, ast :: next =>
    resolutions P enclosing ast ++ resolutionsList P enclosing next
termination_by structural _ x => x

/-- The resolutions in a list of nullable children. -/
def resolutionsPtrList (P : Process) : List AST → List (Option AST) → List Resolution
  | _, [] => []
  | enclosing, ast :: next =>
    resolutionsPtr P enclosing ast ++ resolutionsPtrList P enclosing next
termination_by structural _ x => x

/-- The resolutions of the first loop of `visit(QualifiedNameAST *)`: for each
`class_or_namespace_name` those in its template arguments, then that of the
name itself. -/
def nestedResolutions (P : Process) (firstToken : Nat) :
    List AST → List (Option AST) → List Resolution
  | _, [] => []
  | enclosing, class_or_namespace_name :: next =>
    templateArgumentResolutions P enclosing class_or_namespace_name
      ++ (nestedSite P firstToken class_or_namespace_name
        ++ nestedResolutions P firstToken enclosing next)
termination_by structural _ x => x

/-- The resolutions in the template arguments of a name that is a
template-id. -/
def templateArgumentResolutions (P : Process) : List AST → Option AST → List Resolution
  | enclosing, some (.templateId _ _ _ template_arguments) =>
    resolutionsPtrList P enclosing template_arguments
  | _, _ => []
termination_by structural _ x => x

/-- The resolutions in the declarator of a parameter declaration, without its
core declarator. -/
def parameterDeclaratorResolutions (P : Process) : List AST → Option AST → List Resolution
  | enclosing, some (.declarator _ attributes ptr_operators _ postfix_declarators
      post_attributes initializer) =>
    resolutionsList P enclosing attributes
      ++ (resolutionsList P enclosing ptr_operators
        ++ (resolutionsList P enclosing postfix_declarators
          ++ (resolutionsList P enclosing post_attributes
            ++ resolutionsPtr P enclosing initializer)))
  | _, _ => []
termination_by structural _ x => x

end

/-- The tokens of the resolutions whose candidate list `checkCandidates`
accepts. -/
def acceptedTokens (P : Process) (fuel : Nat) (rs : List Resolution) : List Nat :=
  (rs.filter (fun r => decide (checkCandidates P.matcher fuel r.2 = some true))).map Prod.fst

/-- The state `st2` continues `st1` by the resolutions `rs`: the tokens of
the accepted resolutions were appended to the references, in their order, the
results reported are those of the appended tokens when there is a future, none
when there is not, and the stack of postfix expressions is as it was. -/
def Reports (P : Process) (fuel : Nat) (rs : List Resolution) (st1 st2 : State) : Prop :=
  st2.references = st1.references ++ acceptedTokens P fuel rs
    ∧ st2.results
      = st1.results ++ (if P.future then (acceptedTokens P fuel rs).map (searchResultAt P)
          else [])
    ∧ st2.postfixExpressionStack = st1.postfixExpressionStack

/-- Whether an event is work of `find_helper` on the file: opening it,
tokenizing its source, running the visitor on its document, or reporting a
result for it. -/
def Event.isWorkOn (fileName : String) : Event → Bool
  | .openFile f _ => f = fileName
  | .tokenize f _ => f = fileName
  | .runProcess f _ => f = fileName
  | .reportResult f _ => f = fileName
  | _ => false

/-- Whether an event is a run of the visitor on a document of the file or a
result reported for the file. -/
def Event.isVisitOf (fileName : String) : Event → Bool
  | .runProcess f _ => f = fileName
  | .reportResult f _ => f = fileName
  | _ => false

/-! ### Sample symbols -/

/-- A forward declaration `class Foo;` at `a.h:1:7`. -/
def fwdFoo : Symbol :=
  { scope := some 100, name := some 7, enclosingSymbol := some 9, line := 1, column := 7
    fileName := "a.h", isClass := false, isForwardClassDeclaration := true
    identifier := some "Foo" }

/-- A definition `class Foo {};` at `a.h:5:7`, in the scope of `fwdFoo`. -/
def classFoo : Symbol :=
  { fwdFoo with line := 5, isClass := true, isForwardClassDeclaration := false }

/-- A definition `class Foo {};` at `b.h:1:7`, in the scope of `fwdFoo`: the
same line and column as `fwdFoo`, under another file name. -/
def classFooOther : Symbol :=
  { fwdFoo with fileName := "b.h", isClass := true, isForwardClassDeclaration := false }

/-- A function `helper` at `a.h:10:6`. -/
def helperA : Symbol :=
  { scope := some 200, name := some 8, enclosingSymbol := some 9, line := 10, column := 6
    fileName := "a.h", isClass := false, isForwardClassDeclaration := false
    identifier := some "helper" }

/-- A function `helper` at `a.h:20:6`, in another scope. -/
def helperB : Symbol :=
  { helperA with scope := some 201, line := 20 }

/-- The function `helper` of `helperA` as another document holds it: another
scope and another name value, at the position `a.h:10:6` of `helperA`. -/
def helperCopy : Symbol :=
  { helperA with scope := some 300, name := some 18, enclosingSymbol := none }

/-- The enclosing namespace symbol, without a name and without an enclosing
symbol. -/
def globalNs : Symbol :=
  { scope := none, name := none, enclosingSymbol := none, line := 0, column := 0
    fileName := "a.h", isClass := false, isForwardClassDeclaration := false
    identifier := none }

/-- A heap with the sample symbols at the addresses 1 to 5. -/
def sampleHeap : Heap := fun p =>
  match p with
  | 1 => fwdFoo
  | 2 => classFoo
  | 3 => classFooOther
  | 4 => helperA
  | 5 => helperB
  | 6 => helperCopy
  | _ => globalNs

/-- A matcher over `sampleHeap` whose canonical symbol is the first candidate
that is not null. -/
def sampleMatcher (declSymbol : SymPtr) : Matcher :=
  { heap := sampleHeap
    isEqualTo := fun a b => a == b
    canonicalSymbol := fun cs => cs.findSome? id
    declSymbol := declSymbol }


/-! ### A sample document -/

/-- The source of a sample document of three lines. -/
def sampleSource : List Char := "class Foo;\nFoo *p;\np->Foo();\n".data

/-- The tokens of the sample document, from index 1. -/
def sampleTokenAt : Nat → Token
  | 1 => { offset := 0, length := 5 }
  | 2 => { offset := 6, length := 3 }
  | 3 => { offset := 9, length := 1 }
  | 4 => { offset := 11, length := 3 }
  | 5 => { offset := 15, length := 1 }
  | 6 => { offset := 16, length := 1 }
  | 7 => { offset := 17, length := 1 }
  | 8 => { offset := 19, length := 1 }
  | 9 => { offset := 20, length := 2 }
  | 10 => { offset := 22, length := 3 }
  | _ => { offset := 28, length := 0 }

/-- The identifiers of the tokens of the sample document: `Foo` is 1 and `p`
is 2. -/
def sampleIdentifier : Nat → Option IdPtr
  | 2 => some 1
  | 4 => some 1
  | 10 => some 1
  | 6 => some 2
  | 8 => some 2
  | _ => none

/-- The line and the column of each token of the sample document. -/
def samplePosition : Nat → Nat × Nat
  | 1 => (1, 1)
  | 2 => (1, 7)
  | 3 => (1, 10)
  | 4 => (2, 1)
  | 5 => (2, 5)
  | 6 => (2, 6)
  | 7 => (2, 7)
  | 8 => (3, 1)
  | 9 => (3, 2)
  | 10 => (3, 4)
  | _ => (4, 0)

/-- A visitor on the sample document: the name 7 resolves to the forward
declaration at the address 1, and the type of every expression is the symbol
at the address 4. -/
def sampleProcess : Process :=
  { matcher := sampleMatcher 4
    id := none
    future := true
    docFileName := "a.h"
    source := sampleSource
    tokenAt := sampleTokenAt
    identifier := sampleIdentifier
    getTokenStartPosition := samplePosition
    findSymbolAt := fun _ _ => none
    resolve := fun _ name => if name = some 7 then [some 1] else []
    nameId := fun id => id.map (fun i => i + 6)
    semCheck := fun _ => none
    typeofExpression := fun _ _ => [some 4]
    toNativeSeparators := id }

/-- The syntax tree of the sample document, with a null child. -/
def sampleAST : AST :=
  .other 1
    [some (.simpleName 2 2 (some 7)), none, some (.simpleName 4 4 (some 7)),
      some (.simpleName 6 6 (some 8)),
      some (.postfixExpression 8 (some (.simpleName 8 8 (some 8)))
        [.memberAccess 9 (some (.simpleName 10 10 (some 7)))])]

/-- A state before a call, with a reference left by an earlier call. -/
def sampleState : State :=
  { references := [99], results := [], postfixExpressionStack := []
    previousContext := { symbol := none } }

/-- The state `Process::operator()` leaves on the sample document. -/
def sampleFinalState : State :=
  { references := [2, 4]
    results := [searchResultAt sampleProcess 2, searchResultAt sampleProcess 4]
    postfixExpressionStack := []
    previousContext := { symbol := none } }

/-! ### A sample snapshot -/

/-- A document `a.h` with the identifiers `Foo` and `helper`. -/
def docA : Document :=
  { fileName := "a.h", source := "class Foo; void helper();".data
    identifiers := ["Foo", "helper"] }

/-- A document `b.cpp` with the identifiers `Foo` and `f`. -/
def docB : Document :=
  { fileName := "b.cpp", source := "Foo f;".data, identifiers := ["Foo", "f"] }

/-- A document `c.cpp`, parsed when it had the identifier `g` only. -/
def docC : Document :=
  { fileName := "c.cpp", source := "int g;".data, identifiers := ["g"] }

/-- A lexer for the samples: the identifiers of the three texts used. -/
def sampleTokenize (source : List Char) : List String :=
  if source = "Foo f;".data then ["Foo", "f"]
  else if source = "int g; helper();".data then ["g", "helper"]
  else if source = "class Foo; void helper();".data then ["Foo", "helper"]
  else []

/-- A search environment: a snapshot of `a.h`, `b.cpp` and `c.cpp`, where
`b.cpp` and `c.cpp` depend on `a.h`; `c.cpp` is open in an editor and calls
`helper` there, which the document of the snapshot does not have yet; `a.h`
and `b.cpp` are on disk; the visitor reports one result for every document; the
search is never cancelled. -/
def sampleEnv : SearchEnv :=
  { snapshot := [("a.h", docA), ("b.cpp", docB), ("c.cpp", docC)]
    dependsOn := fun f => if f = "a.h" then ["b.cpp", "c.cpp"] else []
    wl := [("c.cpp", "int g; helper();")]
    readFile := fun f =>
      if f = "a.h" then some "class Foo; void helper();"
      else if f = "b.cpp" then some "Foo f;" else none
    preprocessedCode := fun contents _ => contents.data
    tokenize := sampleTokenize
    process := fun doc _ =>
      [{ fileName := doc.fileName, lineNumber := 1, matchingLine := doc.source
         matchStart := 0, matchLength := 3 }]
    fileInfoFileName := id
    isCanceled := fun _ => false }

/-! ### Cancellation -/

/-- The results reported in a list of events, in their order. -/
def occurrences : List Event → List FileSearchResult
  | [] => []
  | .reportResult _ result :: rest => result :: occurrences rest
  | _ :: rest => occurrences rest

/-- The environment in which `isCanceled` never returns true. -/
def SearchEnv.neverCanceled (env : SearchEnv) : SearchEnv :=
  { env with isCanceled := fun _ => false }

/-- The events of the iterations of the loop of `find_helper` for the files of
a list, one after the other, the first file having the index `i`. -/
def iterations (env : SearchEnv) (symbolId : String) (i : Nat) (files : List String) :
    List Event :=
  (files.enumFrom i).flatMap (fun p => processFile env symbolId p.1 p.2)

/-- A search environment with five candidate files for `helper`, cancelled
after the first iteration. -/
def sampleEnvCancelled : SearchEnv :=
  { sampleEnv with
    snapshot := []
    dependsOn := fun f => if f = "a.h" then ["b.cpp", "a.h", "b.cpp", "a.h"] else []
    tokenize := fun _ => ["helper"]
    isCanceled := fun i => decide (1 ≤ i) }

/-! ### Chains of enclosing symbols -/

/-- The `k`-th enclosing symbol of a symbol: the symbol itself for 0, null
behind a null. -/
def enclosing (heap : Heap) : Nat → Option SymPtr → Option SymPtr
  | 0, symbol => symbol
  | _ + 1, none => none
  | k + 1, some symbol => enclosing heap k (heap symbol).enclosingSymbol

/-- Two symbols have equal names, or both have none. -/
def namesMatch (heap : Heap) (isEqualTo : NameVal → NameVal → Bool) (a b : SymPtr) : Bool :=
  match (heap a).name, (heap b).name with
  | some n, some m => isEqualTo n m
  | none, none => true
  | _, _ => false

/-- The chains of two symbols meet: at some level `k` the `k`-th enclosing
symbols of both exist and have the identical scope, and at every level below
`k` the enclosing symbols have equal names or are both without a name. -/
def ChainsMeet (heap : Heap) (isEqualTo : NameVal → NameVal → Bool)
    (a b : Option SymPtr) : Prop :=
  ∃ k x y, enclosing heap k a = some x ∧ enclosing heap k b = some y
    ∧ (heap x).scope = (heap y).scope
    ∧ ∀ j, j < k → ∀ u v, enclosing heap j a = some u → enclosing heap j b = some v →
        namesMatch heap isEqualTo u v = true

/-- A heap of classes nested in namespaces: the classes at 1 and 2 are in
the namespaces 3 and 4 of two documents, of the same name, which are in the
global namespaces 5 and 6, whose scope is null; the class at 7 is in a
namespace 8 of another name. -/
def nestedHeap : Heap := fun p =>
  match p with
  | 1 => { fwdFoo with scope := some 31, enclosingSymbol := some 3 }
  | 2 => { classFoo with scope := some 41, enclosingSymbol := some 4 }
  | 3 => { globalNs with scope := some 51, name := some 20, enclosingSymbol := some 5 }
  | 4 => { globalNs with scope := some 61, name := some 20, enclosingSymbol := some 6 }
  | 7 => { classFoo with scope := some 81, enclosingSymbol := some 8 }
  | 8 => { globalNs with scope := some 91, name := some 21, enclosingSymbol := some 6 }
  | _ => globalNs



/-! ## The tree items of `treemodel.h` -/

/-- A `TreeItem` of `treemodel.h`, as far as the traversals by level read it:
its children `m_children`, in their order; the number tells items apart. -/
inductive TreeItem where
  | mk (id : Nat) (m_children : List TreeItem)

/-- The member `m_children` of a `TreeItem`. -/
def TreeItem.children : TreeItem → List TreeItem
  | .mk _ m_children => m_children

/-- The least value of the type `int`, of 32 bits. -/
def INT_MIN : Int := -2147483648

/-- The greatest value of the type `int`, of 32 bits. -/
def INT_MAX : Int := 2147483647

/-- The expression `level - 1` on an `int`: `none` at `INT_MIN`, where the
subtraction overflows and the behaviour is undefined. -/
def levelMinusOne (level : Int) : Option Int :=
  if level = INT_MIN then none else some (level - 1)

mutual

/-- The method `TreeItem::forChildrenAtLevel`: the items `pred` is applied
to, in the order of the calls; `none` when a subtraction `level - 1`
overflows. -/
def forChildrenAtLevel : TreeItem → Int → Option (List TreeItem)
  | .mk _ m_children, level =>
    if level = 1 then some m_children
    else forChildrenAtLevelEach m_children level

/-- The loop `foreach (TreeItem *item, m_children)
item->forChildrenAtLevel(level - 1, pred)`, where `level - 1` is computed for
each child. -/
def forChildrenAtLevelEach : List TreeItem → Int → Option (List TreeItem)
  | [], _ => some []
  | item :: rest, level =>
    match levelMinusOne level with
    | none => none
    | some below =>
      match forChildrenAtLevel item below with
      | none => none
      | some applied =>
        match forChildrenAtLevelEach rest level with
        | none => none
        | some others => some (applied ++ others)

end

mutual

/-- The method `TreeItem::findChildAtLevel`: the item it returns, `some none`
for the null it returns when it finds none; `none` when a subtraction
`level - 1` overflows. -/
def findChildAtLevel (pred : TreeItem → Bool) : TreeItem → Int → Option (Option TreeItem)
  | .mk _ m_children, level =>
    if level = 1 then some (m_children.find? pred)
    else findChildAtLevelEach pred m_children level

/-- The loop of `findChildAtLevel` over the children, which returns what the
first child finds; `level - 1` is computed for each child. -/
def findChildAtLevelEach (pred : TreeItem → Bool) :
    List TreeItem → Int → Option (Option TreeItem)
  | [], _ => some none
  | item :: rest, level =>
    match levelMinusOne level with
    | none => none
    | some below =>
      match findChildAtLevel pred item below with
      | none => none
      | some (some found) => some (some found)
      | some none => findChildAtLevelEach pred rest level

end

mutual

/-- The height of the tree below an item: 0 for an item without children. -/
def TreeItem.height : TreeItem → Nat
  | .mk _ m_children => heightEach m_children

/-- The height of the trees of a list of children, counted from their
parent. -/
def heightEach : List TreeItem → Nat
  | [] => 0
  | item :: rest => max (item.height + 1) (heightEach rest)

end

/-- The descendants of an item at a depth below it, from left to right: the
item itself at the depth 0, the descendants at the depth `k` of its children,
child after child, at the depth `k + 1`. -/
def descendantsAt : Nat → TreeItem → List TreeItem
  | 0, item => [item]
  | k + 1, item => item.children.flatMap (descendantsAt k)

/-- A tree of depth 3: the root 0 with the children 1 and 2, where 1 has the
children 3 and 4 and 2 has the child 5, and 4 has the child 6. -/
def sampleTree : TreeItem :=
  .mk 0 [.mk 1 [.mk 3 [], .mk 4 [.mk 6 []]], .mk 2 [.mk 5 []]]

/-- The number of a tree item. -/
def TreeItem.id : TreeItem → Nat
  | .mk id _ => id



/-! ## The postfix expressions around a node -/

/-- The state with another `_postfixExpressionStack`. -/
def State.withStack (stack : List AST) (st : State) : State :=
  { st with postfixExpressionStack := stack }

mutual

/-- The traversal of `accept`, told the postfix expressions that are being
visited instead of keeping them on `_postfixExpressionStack`: `enclosing` is
the list of the postfix expressions around the node, the outermost first,
behind those around the root.  A postfix expression visits its children with
itself added to the list, and a member access takes the last of the list, the
innermost postfix expression around it. -/
def acceptEnclosed (P : Process) (fuel : Nat) :
    List AST → AST → State → Except Failure State
  | _, .simpleName firstToken identifier_token name, st =>
    resolveAndReport P fuel firstToken identifier_token name st
  | _, .destructorName firstToken identifier_token name, st =>
    resolveAndReport P fuel firstToken identifier_token name st
  | enclosing, .templateId firstToken identifier_token name template_arguments, st => do
    let st ← resolveAndReport P fuel firstToken identifier_token name st
    acceptPtrListEnclosed P fuel enclosing template_arguments st
  | enclosing, .qualifiedName firstToken nested_name_specifier unqualified_name, st => do
    let st ← visitNestedNameSpecifierEnclosed P fuel firstToken enclosing
      nested_name_specifier st
    let st ← acceptTemplateArgumentsEnclosed P fuel enclosing unqualified_name st
    checkUnqualifiedName P fuel firstToken unqualified_name st
  | enclosing, .memInitializer firstToken name expression, st => do
    let st ← checkMemInitializerName P fuel firstToken name st
    acceptPtrEnclosed P fuel enclosing expression st
  | enclosing, .postfixExpression firstToken base_expression postfix_expressions, st => do
    let st ← acceptPtrEnclosed P fuel
      (enclosing ++ [.postfixExpression firstToken base_expression postfix_expressions])
      base_expression st
    acceptListEnclosed P fuel
      (enclosing ++ [.postfixExpression firstToken base_expression postfix_expressions])
      postfix_expressions st
  | enclosing, .memberAccess _ member_name, st =>
    match simpleNameToken member_name with
    | some identifier_token =>
      if P.identifier identifier_token = P.id then
        match enclosing.getLast? with
        | none => .error .assertionFailed
        | some last => checkExpression P fuel last.first identifier_token st
      else acceptPtrEnclosed P fuel enclosing member_name st
    | none => acceptPtrEnclosed P fuel enclosing member_name st
  | enclosing, .enumerator firstToken identifier_token expression, st => do
    let st ← resolveAndReport P fuel firstToken identifier_token
      (P.nameId (P.identifier identifier_token)) st
    acceptPtrEnclosed P fuel enclosing expression st
  | enclosing, .declarator _ attributes ptr_operators core_declarator postfix_declarators
      post_attributes initializer, st => do
    let st ← acceptListEnclosed P fuel enclosing attributes st
    let st ← acceptListEnclosed P fuel enclosing ptr_operators st
    let st ← acceptPtrEnclosed P fuel enclosing core_declarator st
    let st ← acceptListEnclosed P fuel enclosing postfix_declarators st
    let st ← acceptListEnclosed P fuel enclosing post_attributes st
    acceptPtrEnclosed P fuel enclosing initializer st
  | enclosing, .parameterDeclaration _ type_specifier declarator expression, st => do
    let st ← acceptListEnclosed P fuel enclosing type_specifier st
    let st ← acceptParameterDeclaratorEnclosed P fuel enclosing declarator st
    acceptPtrEnclosed P fuel enclosing expression st
  | enclosing, .expressionOrDeclarationStatement _ _ declaration, st =>
    acceptPtrEnclosed P fuel enclosing declaration st
  | enclosing, .functionDeclarator _ parameters cv_qualifier_seq exception_specification,
      st => do
    let st ← acceptPtrEnclosed P fuel enclosing parameters st
    let st ← acceptListEnclosed P fuel enclosing cv_qualifier_seq st
    acceptPtrEnclosed P fuel enclosing exception_specification st
  | enclosing, .other _ children, st =>
    acceptPtrListEnclosed P fuel enclosing children st
termination_by structural _ x => x

/-- The traversal of `acceptPtr` with the postfix expressions around the
node. -/
def acceptPtrEnclosed (P : Process) (fuel : Nat) :
    List AST → Option AST → State → Except Failure State
  | _, none, st => .ok st
  | enclosing, some ast, st => acceptEnclosed P fuel enclosing ast st
termination_by structural _ x => x

/-- The traversal of `acceptList` with the postfix expressions around the
nodes. -/
def acceptListEnclosed (P : Process) (fuel : Nat) :
    List AST → List AST → State → Except Failure State
  | _, [], st => .ok st
  | enclosing, ast :: next, st => do
    let st ← acceptEnclosed P fuel enclosing ast st
    acceptListEnclosed P fuel enclosing next st
termination_by structural _ x => x

/-- The traversal of `acceptPtrList` with the postfix expressions around the
nodes. -/
def acceptPtrListEnclosed (P : Process) (fuel : Nat) :
    List AST → List (Option AST) → State → Except Failure State
  | _, [], st => .ok st
  | enclosing, ast :: next, st => do
    let st ← acceptPtrEnclosed P fuel enclosing ast st
    acceptPtrListEnclosed P fuel enclosing next st
termination_by structural _ x => x

/-- The traversal of `visitNestedNameSpecifier` with the postfix expressions
around the qualified name. -/
def visitNestedNameSpecifierEnclosed (P : Process) (fuel : Nat) (firstToken : Nat) :
    List AST → List (Option AST) → State → Except Failure State
  | _, [], st => .ok st
  | enclosing, class_or_namespace_name :: next, st => do
    let st ← acceptTemplateArgumentsEnclosed P fuel enclosing class_or_namespace_name st
    let st ← checkNestedName P fuel firstToken class_or_namespace_name st
    visitNestedNameSpecifierEnclosed P fuel firstToken enclosing next st
termination_by structural _ x => x

/-- The traversal of `acceptTemplateArguments` with the postfix expressions
around the name. -/
def acceptTemplateArgumentsEnclosed (P : Process) (fuel : Nat) :
    List AST → Option AST → State → Except Failure State
  | enclosing, some (.templateId _ _ _ template_arguments), st =>
    acceptPtrListEnclosed P fuel enclosing template_arguments st
  | _, _, st => .ok st
termination_by structural _ x => x

/-- The traversal of `acceptParameterDeclarator` with the postfix expressions
around the declarator. -/
def acceptParameterDeclaratorEnclosed (P : Process) (fuel : Nat) :
    List AST → Option AST → State → Except Failure State
  | enclosing, some (.declarator _ attributes ptr_operators _ postfix_declarators
      post_attributes initializer), st => do
    let st ← acceptListEnclosed P fuel enclosing attributes st
    let st ← acceptListEnclosed P fuel enclosing ptr_operators st
    let st ← acceptListEnclosed P fuel enclosing postfix_declarators st
    let st ← acceptListEnclosed P fuel enclosing post_attributes st
    acceptPtrEnclosed P fuel enclosing initializer st
  | _, _, st => .ok st
termination_by structural _ x => x

end

mutual

/-- Every member access of the tree is beneath a postfix expression of the
tree, or beneath one around the root when `inside` is true. -/
def memberAccessInside : Bool → AST → Bool
  | _, .simpleName _ _ _ => true
  | _, .destructorName _ _ _ => true
  | inside, .templateId _ _ _ template_arguments =>
    memberAccessInsidePtrList inside template_arguments
  | inside, .qualifiedName _ nested_name_specifier unqualified_name =>
    memberAccessInsidePtrList inside nested_name_specifier
      && memberAccessInsidePtr inside unqualified_name
  | inside, .memInitializer _ name expression =>
    memberAccessInsidePtr inside name && memberAccessInsidePtr inside expression
  | _, .postfixExpression _ base_expression postfix_expressions =>
    memberAccessInsidePtr true base_expression
      && memberAccessInsideList true postfix_expressions
  | inside, .memberAccess _ member_name =>
    inside && memberAccessInsidePtr inside member_name
  | inside, .enumerator _ _ expression => memberAccessInsidePtr inside expression
  | inside, .declarator _ attributes ptr_operators core_declarator postfix_declarators
      post_attributes initializer =>
    memberAccessInsideList inside attributes && memberAccessInsideList inside ptr_operators
      && memberAccessInsidePtr inside core_declarator
      && memberAccessInsideList inside postfix_declarators
      && memberAccessInsideList inside post_attributes
      && memberAccessInsidePtr inside initializer
  | inside, .parameterDeclaration _ type_specifier declarator expression =>
    memberAccessInsideList inside type_specifier && memberAccessInsidePtr inside declarator
      && memberAccessInsidePtr inside expression
  | inside, .expressionOrDeclarationStatement _ expression declaration =>
    memberAccessInsidePtr inside expression && memberAccessInsidePtr inside declaration
  | inside, .functionDeclarator _ parameters cv_qualifier_seq exception_specification =>
    memberAccessInsidePtr inside parameters && memberAccessInsideList inside cv_qualifier_seq
      && memberAccessInsidePtr inside exception_specification
  | inside, .other _ children => memberAccessInsidePtrList inside children

/-- The property `memberAccessInside` for a nullable child. -/
def memberAccessInsidePtr : Bool → Option AST → Bool
  | _, none => true
  | inside, some ast => memberAccessInside inside ast

/-- The property `memberAccessInside` for the nodes of a list. -/
def memberAccessInsideList : Bool → List AST → Bool
  | _, [] => true
  | inside, ast :: next => memberAccessInside inside ast && memberAccessInsideList inside next

/-- The property `memberAccessInside` for the nullable nodes of a list. -/
def memberAccessInsidePtrList : Bool → List (Option AST) → Bool
  | _, [] => true
  | inside, ast :: next =>
    memberAccessInsidePtr inside ast && memberAccessInsidePtrList inside next

end

/-! ## The replacement of the occurrences -/

/-- The record `Find::SearchResultItem`, the members `applyChanges` and
`onReplaceButtonClicked` read.  The members are of type `int`; the values held
here are those of results of a search, which are not negative. -/
structure SearchResultItem where
  fileName : String
  lineNumber : Nat
  searchTermStart : Nat
  searchTermLength : Nat
  deriving DecidableEq

/-- A `QTextCursor` on a document: its anchor and its position.  The text of
the document is a list of characters, its blocks divided by newlines. -/
structure TextCursor where
  anchor : Nat
  position : Nat
  deriving DecidableEq

/-- The position of the block with the number `blockNumber` in a text that
begins at the position `pos`; `none` when the text has fewer blocks. -/
def blockPositionFrom : List Char → Nat → Nat → Option Nat
  | _, pos, 0 => some pos
  | [], _, _ + 1 => none
  | c :: rest, pos, blockNumber + 1 =>
    if c = '\n' then blockPositionFrom rest (pos + 1) blockNumber
    else blockPositionFrom rest (pos + 1) (blockNumber + 1)

/-- The position of `QTextDocument::findBlockByNumber(blockNumber)`; `none`
for the invalid block it returns when the document has no such block. -/
def findBlockByNumber (text : List Char) (blockNumber : Nat) : Option Nat :=
  blockPositionFrom text 0 blockNumber

/-- The method `QTextCursor::setPosition` in a document with a text of the
given length: a position behind the end of the text is refused with a warning
and the cursor stays as it is; `MoveAnchor` moves the anchor too and
`KeepAnchor` does not. -/
def TextCursor.setPosition (textLength : Nat) (tc : TextCursor) (pos : Nat)
    (keepAnchor : Bool) : TextCursor :=
  if textLength < pos then tc
  else if keepAnchor then { tc with position := pos }
  else { anchor := pos, position := pos }

/-- The cursor the first loop of `applyChanges` makes for an item; `none` is
the null cursor of an invalid block, which the line 0 and a line behind the
last one give. -/
def cursorForItem (text : List Char) (item : SearchResultItem) : Option TextCursor :=
  if item.lineNumber = 0 then none
  else
    match findBlockByNumber text (item.lineNumber - 1) with
    | none => none
    | some blockPosition =>
      let tc : TextCursor := { anchor := blockPosition, position := blockPosition }
      let tc := tc.setPosition text.length (tc.position + item.searchTermStart) false
      let tc := tc.setPosition text.length (tc.position + item.searchTermLength) true
      some tc

/-- The adjustment Qt makes to the anchor or the position `x` of a cursor of
the document when `len` characters are removed at `pos`: behind the removed
characters it moves back by `len`, inside them it moves to `pos`. -/
def adjustRemoved (pos len x : Nat) : Nat :=
  if x < pos then x else if x < pos + len then pos else x - len

/-- The adjustment Qt makes to the anchor or the position `x` of a cursor of
the document when `len` characters are inserted at `pos`: at `pos` and behind
it moves along with the inserted characters. -/
def adjustInserted (pos len x : Nat) : Nat :=
  if x < pos then x else x + len

/-- The adjustment of the cursors of the document by `insertText` on a cursor
whose selection begins at `start` and has `len` characters, for a text of
`newLen` characters: the removal of the selection, then the insertion. -/
def adjustReplaced (start len newLen x : Nat) : Nat :=
  adjustInserted start newLen (adjustRemoved start len x)

/-- A cursor with anchor and position adjusted. -/
def TextCursor.adjust (f : Nat → Nat) (tc : TextCursor) : TextCursor :=
  { anchor := f tc.anchor, position := f tc.position }

/-- The start of the selection of a cursor. -/
def TextCursor.selectionStart (tc : TextCursor) : Nat := min tc.anchor tc.position

/-- The number of characters selected by a cursor. -/
def TextCursor.selectionLength (tc : TextCursor) : Nat :=
  max tc.anchor tc.position - min tc.anchor tc.position

/-- The text after `QTextCursor::insertText` on a cursor: the selection is
removed and the new text is put at its start. -/
def insertText (text new : List Char) (tc : TextCursor) : List Char :=
  text.take tc.selectionStart ++ new ++ text.drop (tc.selectionStart + tc.selectionLength)

/-- The second loop of `applyChanges`: `insertText` on one cursor after the
other.  The cursors were made on the first text; Qt adjusts every cursor of
the document at every edit, and `adjust` is the adjustment by the edits made
so far, which a cursor undergoes before its turn. -/
def applyCursors (new : List Char) :
    List Char → (Nat → Nat) → List TextCursor → List Char
  | text, _, [] => text
  | text, adjust, tc :: rest =>
    let current := tc.adjust adjust
    applyCursors new (insertText text new current)
      (fun x => adjustReplaced current.selectionStart current.selectionLength new.length
        (adjust x))
      rest

/-- The function `applyChanges` on the text of the document.  A null cursor
does nothing in `insertText`, so the cursors kept are those that are not
null. -/
def applyChanges (text new : List Char) (items : List SearchResultItem) : List Char :=
  applyCursors new text id (items.filterMap (cursorForItem text))

/-- The span of an item in the text: the start of the line `lineNumber - 1`
plus `searchTermStart`, and `searchTermLength`; `none` without such a line. -/
def itemSpan (text : List Char) (item : SearchResultItem) : Option (Nat × Nat) :=
  if item.lineNumber = 0 then none
  else
    (findBlockByNumber text (item.lineNumber - 1)).map
      (fun blockPosition => (blockPosition + item.searchTermStart, item.searchTermLength))

/-- Whether a span of the list starts at the index. -/
def startsAt (spans : List (Nat × Nat)) (i : Nat) : Bool :=
  spans.any (fun s => decide (s.1 = i))

/-- Whether the index is inside a span of the list. -/
def covers (spans : List (Nat × Nat)) (i : Nat) : Bool :=
  spans.any (fun s => decide (s.1 ≤ i ∧ i < s.1 + s.2))

/-- The characters of a text that begins at the index `i`, with the spans
replaced: the new text is put where a span starts, a character inside a span
is left out, and every other character is kept. -/
def replacedBody (new : List Char) (spans : List (Nat × Nat)) : Nat → List Char → List Char
  | _, [] => []
  | i, c :: rest =>
    (if startsAt spans i then new else []) ++ (if covers spans i then [] else [c])
      ++ replacedBody new spans (i + 1) rest

/-- The text with every span of the list replaced by the new text and every
other character unchanged; a span may start at the end of the text. -/
def replaced (text new : List Char) (spans : List (Nat × Nat)) : List Char :=
  replacedBody new spans 0 text ++ (if startsAt spans text.length then new else [])

/-- Two spans are apart: one ends before the other starts, with at least one
character between them. -/
def Apart (a b : Nat × Nat) : Prop :=
  a.1 + a.2 < b.1 ∨ b.1 + b.2 < a.1

/-- An item with the line, the start and the length given, in `a.cpp`. -/
def itemAt (lineNumber searchTermStart searchTermLength : Nat) : SearchResultItem :=
  { fileName := "a.cpp", lineNumber := lineNumber, searchTermStart := searchTermStart
    searchTermLength := searchTermLength }

/-- The characters of a text that begins at the index `i`, with the spans
replaced, and the new text of a span that starts at the end of the text. -/
def replacedFrom (new : List Char) (spans : List (Nat × Nat)) (i : Nat) (cs : List Char) :
    List Char :=
  replacedBody new spans i cs ++ (if startsAt spans (i + cs.length) then new else [])

/-- A span after the replacement of the span from `a` with `l` characters by
`m` characters: as it is before `a`, moved by the difference behind. -/
def shiftSpan (a l m : Nat) (r : Nat × Nat) : Nat × Nat :=
  if r.1 + r.2 < a then r else (r.1 - l + m, r.2)

/-- The cursor that selects a span: the anchor at its start and the position
at its end. -/
def toCursor (s : Nat × Nat) : TextCursor :=
  { anchor := s.1, position := s.1 + s.2 }

/-- A text of two lines for the examples. -/
def sampleText : List Char := "ab cd ab\nab".data

/-- Three occurrences of `ab` in `sampleText`, the last of the first line
first. -/
def sampleOccurrences : List SearchResultItem :=
  [itemAt 1 6 2, itemAt 2 0 2, itemAt 1 0 2]


/-! ## The occurrences after a replacement -/

/-- The occurrence that corresponds to `item` once the occurrences `items` of
a spelling of the length `oldLen` are replaced by a text of the length
`newLen`: the same line, the start moved by the length difference of the
replacements of the line that start before it, the length `newLen`. -/
def shiftItem (oldLen newLen : Nat) (items : List SearchResultItem)
    (item : SearchResultItem) : SearchResultItem :=
  let earlier := items.countP (fun other =>
    decide (other.lineNumber = item.lineNumber
      ∧ other.searchTermStart < item.searchTermStart))
  { item with
    searchTermStart := item.searchTermStart + earlier * newLen - earlier * oldLen
    searchTermLength := newLen }

/-- An occurrence of the spelling `old` in its line: the line of the item
exists, no line break stands between the start of the line and the start of
the occurrence, and the span of the item lies inside the text and spells
`old`. -/
def Occurrence (text old : List Char) (item : SearchResultItem) : Prop :=
  item.lineNumber ≠ 0
    ∧ ∃ blockPosition, findBlockByNumber text (item.lineNumber - 1) = some blockPosition
      ∧ (∀ j, blockPosition ≤ j → j < blockPosition + item.searchTermStart →
          text[j]? ≠ some '\n')
      ∧ blockPosition + item.searchTermStart + item.searchTermLength ≤ text.length
      ∧ (text.drop (blockPosition + item.searchTermStart)).take item.searchTermLength = old

/-- The position in the edited text of the position `p` of the text, for
spans in ascending order that are replaced by texts of the length `m`; `i` is
a position of the text before the spans and `j` its position in the edited
text. -/
def movedPos (m : Nat) : Nat → Nat → List (Nat × Nat) → Nat → Nat
  | j, i, [], p => j + (p - i)
  | j, i, s :: R, p =>
    if p ≤ s.1 then j + (p - i) else movedPos m (j + (s.1 - i) + m) (s.1 + s.2) R p

/-- The spans of the replacements in the edited text, for spans in ascending
order that are replaced by texts of the length `m`. -/
def movedAsc (m : Nat) : Nat → Nat → List (Nat × Nat) → List (Nat × Nat)
  | _, _, [] => []
  | j, i, s :: R => (j + (s.1 - i), m) :: movedAsc m (j + (s.1 - i) + m) (s.1 + s.2) R

/-- The span `y` starts behind the end of the span `x`, with at least one
character between them. -/
def Behind (x y : Nat × Nat) : Prop :=
  x.1 + x.2 < y.1

/-- The number of the spans that start before the position `p`. -/
def startsBefore (spans : List (Nat × Nat)) (p : Nat) : Nat :=
  spans.countP (fun s => decide (s.1 < p))


/-! ## The replace button -/

/-- What `onReplaceButtonClicked` reads of the editors and of the file system:
the text of the document of the first text editor that is open on a file, the
text that `readAll` gives for a file that `QFile::open(QFile::ReadOnly)` opens,
and whether `QFile::open(QFile::WriteOnly)` opens the file. -/
structure ReplaceEnv where
  editorDocument : String → Option (List Char)
  readAll : String → Option (List Char)
  writable : String → Bool

/-- What `onReplaceButtonClicked` does: the documents of editors it edits, the
files it writes, each with the new text, the file names it passes to
`updateSourceFiles`, if it calls it, and whether it hides the result
window. -/
structure ReplaceOutcome where
  edited : List (String × List Char)
  written : List (String × List Char)
  updated : Option (List String)
  hidden : Bool

/-- The statement `changes[item.fileName].append(item)`: the item joins the
items of its file name, and a file name that has no items yet gets an entry.
The hash is held as a list of entries, one for each key, in the order of the
first item of each key. -/
def appendChange :
    List (String × List SearchResultItem) → SearchResultItem →
      List (String × List SearchResultItem)
  | [], item => [(item.fileName, [item])]
  | (fileName, items) :: rest, item =>
    if fileName = item.fileName then (fileName, items ++ [item]) :: rest
    else (fileName, items) :: appendChange rest item

/-- The first loop of `onReplaceButtonClicked`: the items by file name. -/
def groupChanges (items : List SearchResultItem) : List (String × List SearchResultItem) :=
  items.foldl appendChange []

/-- The body of the second loop of `onReplaceButtonClicked` for one entry of
`changes`: the document of an open text editor is edited; else the file is
read, when it can be opened for reading, and the edited text is written, when
it can be opened for writing. -/
def replaceInFile (env : ReplaceEnv) (text : List Char) (out : ReplaceOutcome)
    (entry : String × List SearchResultItem) : ReplaceOutcome :=
  match env.editorDocument entry.1 with
  | some document =>
    { out with edited := out.edited ++ [(entry.1, applyChanges document text entry.2)] }
  | none =>
    match env.readAll entry.1 with
    | none => out
    | some plainText =>
      if env.writable entry.1 then
        { out with written := out.written ++ [(entry.1, applyChanges plainText text entry.2)] }
      else out

/-- The slot `CppFindReferences::onReplaceButtonClicked`. -/
def onReplaceButtonClicked (env : ReplaceEnv) (text : List Char)
    (items : List SearchResultItem) : ReplaceOutcome :=
  if text.isEmpty then { edited := [], written := [], updated := none, hidden := false }
  else
    let changes := groupChanges items
    let out := changes.foldl (replaceInFile env text)
      { edited := [], written := [], updated := none, hidden := false }
    { out with updated := some (changes.map Prod.fst), hidden := true }

/-- The keys of `changes`. -/
def changeKeys (changes : List (String × List SearchResultItem)) : List String :=
  changes.map Prod.fst

/-- An environment with no open editor in which `a.cpp` cannot be opened and
`b.cpp` holds the text `abcdef`. -/
def sampleReplaceEnv : ReplaceEnv :=
  { editorDocument := fun _ => none
    readAll := fun fileName => if fileName = "b.cpp" then some "abcdef".data else none
    writable := fun fileName => decide (fileName = "b.cpp") }

/-- An occurrence in the file `fileName`. -/
def itemIn (fileName : String) (lineNumber searchTermStart searchTermLength : Nat) :
    SearchResultItem :=
  { fileName := fileName, lineNumber := lineNumber, searchTermStart := searchTermStart,
    searchTermLength := searchTermLength }

/-- Whether the second loop writes the file: no text editor is open on it and
it can be opened for reading and for writing. -/
def canRewrite (env : ReplaceEnv) (fileName : String) : Bool :=
  (env.editorDocument fileName).isNone && (env.readAll fileName).isSome
    && env.writable fileName

/-- Whether a text editor is open on the file. -/
def hasEditor (env : ReplaceEnv) (fileName : String) : Bool :=
  (env.editorDocument fileName).isSome

/-! ## Properties of the matcher -/

theorem strcmpChars_eq_zero_iff (a b : List Char) : strcmpChars a b = 0 ↔ a = b := by
  induction a generalizing b with
  | nil => cases b <;> simp [strcmpChars]
  | cons x xs ih =>
    cases b with
    | nil => simp [strcmpChars]
    | cons y ys =>
      by_cases hxy : x = y
      · simp [strcmpChars, hxy, ih]
      · by_cases hlt : x.toNat < y.toNat <;> simp [strcmpChars, hxy, hlt]

theorem qstrcmp_eq_zero_iff (a b : String) : qstrcmp a b = 0 ↔ a = b := by
  unfold qstrcmp
  rw [strcmpChars_eq_zero_iff]
  constructor
  · intro h
    exact String.ext h
  · intro h
    rw [h]

/-- Two symbols with the same scope pass `checkScope` with any fuel. -/
theorem checkScope_same_scope (heap : Heap) (isEqualTo : NameVal → NameVal → Bool)
    (fuel : Nat) (a b : SymPtr) (h : (heap a).scope = (heap b).scope) :
    checkScope heap isEqualTo fuel (some a) (some b) = some true := by
  cases fuel <;> simp [checkScope, h]

/-- The matcher accepts a class forward declaration against a class or a class
forward declaration of the same scope, in both directions, when the two
differ in line or column. -/
theorem isDeclSymbol_forward_of_position_ne (m : Matcher) (fuel : Nat) (symbol : SymPtr)
    (hscope : (m.heap symbol).scope = (m.heap m.declSymbol).scope)
    (hpos : (m.heap symbol).line ≠ (m.heap m.declSymbol).line
      ∨ (m.heap symbol).column ≠ (m.heap m.declSymbol).column)
    (hkind : ((m.heap symbol).isForwardClassDeclaration = true
        ∧ ((m.heap m.declSymbol).isClass = true
          ∨ (m.heap m.declSymbol).isForwardClassDeclaration = true))
      ∨ ((m.heap m.declSymbol).isForwardClassDeclaration = true
        ∧ ((m.heap symbol).isClass = true
          ∨ (m.heap symbol).isForwardClassDeclaration = true))) :
    isDeclSymbol m fuel (some symbol) = some true := by
  have hcs := checkScope_same_scope m.heap m.isEqualTo fuel symbol m.declSymbol hscope
  have hnot : ¬ ((m.heap symbol).line = (m.heap m.declSymbol).line
      ∧ (m.heap symbol).column = (m.heap m.declSymbol).column) := by
    rintro ⟨h1, h2⟩
    rcases hpos with h | h
    · exact h h1
    · exact h h2
  unfold isDeclSymbol
  by_cases heq : symbol = m.declSymbol
  · simp [heq]
  · simp only [heq, if_false, hnot, hcs]
    rcases hkind with ⟨h1, h2⟩ | ⟨h1, h2⟩
    · rcases h2 with h2 | h2 <;> simp [h1, h2]
    · rcases h2 with h2 | h2 <;> simp [h1, h2]

/-- C1, evaluated on the code: a class forward declaration at `a.h:1:7` and a
class definition of the same scope at `b.h:1:7` are two symbols of one scope,
one a forward declaration and the other a class, and `isDeclSymbol` rejects
each of them when the other is the target, with any fuel: the test of line
and column is entered, the file names differ, and the branches for forward
declarations are not reached. -/
theorem isDeclSymbol_forward_same_position_rejected :
    (sampleHeap 1).scope = (sampleHeap 3).scope
      ∧ (sampleHeap 1).isForwardClassDeclaration = true
      ∧ (sampleHeap 3).isClass = true
      ∧ ∀ fuel, isDeclSymbol (sampleMatcher 1) fuel (some 3) = some false
          ∧ isDeclSymbol (sampleMatcher 3) fuel (some 1) = some false := by
  refine ⟨by decide, by decide, by decide, ?_⟩
  intro fuel
  constructor <;> rfl

/-- C2: the matcher accepts the target itself, and `checkCandidates` accepts
every candidate list whose canonical symbol is the target. -/
theorem checkCandidates_target (m : Matcher) (fuel : Nat) :
    isDeclSymbol m fuel (some m.declSymbol) = some true
      ∧ ∀ candidates, m.canonicalSymbol candidates = some m.declSymbol →
          checkCandidates m fuel candidates = some true := by
  have h : isDeclSymbol m fuel (some m.declSymbol) = some true := by
    simp [isDeclSymbol]
  refine ⟨h, ?_⟩
  intro candidates hc
  simp [checkCandidates, hc, h]

theorem checkCandidates_target_witness :
    checkCandidates (sampleMatcher 4) 0 [none, some 4, some 5] = some true :=
  (checkCandidates_target (sampleMatcher 4) 0).2 [none, some 4, some 5] (by decide)

/-- C3: a candidate that is not the target, that differs from it in line,
column or file name, is rejected when neither of the two is a class forward
declaration; so is a candidate list without a canonical symbol, and a list
whose canonical symbol is such a candidate. -/
theorem isDeclSymbol_unrelated (m : Matcher) (fuel : Nat) :
    (∀ symbol : SymPtr, symbol ≠ m.declSymbol →
        ((m.heap symbol).line ≠ (m.heap m.declSymbol).line
          ∨ (m.heap symbol).column ≠ (m.heap m.declSymbol).column
          ∨ (m.heap symbol).fileName ≠ (m.heap m.declSymbol).fileName) →
        (m.heap symbol).isForwardClassDeclaration = false →
        (m.heap m.declSymbol).isForwardClassDeclaration = false →
        isDeclSymbol m fuel (some symbol) = some false
          ∧ ∀ candidates, m.canonicalSymbol candidates = some symbol →
              checkCandidates m fuel candidates = some false)
      ∧ ∀ candidates, m.canonicalSymbol candidates = none →
          checkCandidates m fuel candidates = some false := by
  constructor
  · intro symbol hne hpos hf1 hf2
    have h : isDeclSymbol m fuel (some symbol) = some false := by
      unfold isDeclSymbol
      simp only [hne, if_false, hf1, hf2]
      by_cases hlc : (m.heap symbol).line = (m.heap m.declSymbol).line
          ∧ (m.heap symbol).column = (m.heap m.declSymbol).column
      · have hfile : (m.heap symbol).fileName ≠ (m.heap m.declSymbol).fileName := by
          rcases hpos with h | h | h
          · exact absurd hlc.1 h
          · exact absurd hlc.2 h
          · exact h
        have hq : ¬ qstrcmp (m.heap symbol).fileName (m.heap m.declSymbol).fileName = 0 := by
          rw [qstrcmp_eq_zero_iff]
          exact hfile
        simp [hlc, hq]
      · simp [hlc]
    refine ⟨h, ?_⟩
    intro candidates hc
    simp [checkCandidates, hc, h]
  · intro candidates hc
    simp [checkCandidates, hc]

theorem isDeclSymbol_unrelated_witness :
    isDeclSymbol (sampleMatcher 4) 3 (some 5) = some false
      ∧ checkCandidates (sampleMatcher 4) 3 [some 5] = some false
      ∧ checkCandidates (sampleMatcher 4) 3 [none] = some false :=
  ⟨((isDeclSymbol_unrelated (sampleMatcher 4) 3).1 5 (by decide) (by decide) (by decide)
      (by decide)).1,
    ((isDeclSymbol_unrelated (sampleMatcher 4) 3).1 5 (by decide) (by decide) (by decide)
      (by decide)).2 [some 5] (by decide),
    (isDeclSymbol_unrelated (sampleMatcher 4) 3).2 [none] (by decide)⟩

/-- C4: a candidate with the line, the column and the file name of the target
is accepted, whatever the two symbols are otherwise. -/
theorem isDeclSymbol_same_position (m : Matcher) (fuel : Nat) (symbol : SymPtr)
    (hline : (m.heap symbol).line = (m.heap m.declSymbol).line)
    (hcolumn : (m.heap symbol).column = (m.heap m.declSymbol).column)
    (hfile : (m.heap symbol).fileName = (m.heap m.declSymbol).fileName) :
    isDeclSymbol m fuel (some symbol) = some true := by
  have hq : qstrcmp (m.heap symbol).fileName (m.heap m.declSymbol).fileName = 0 := by
    rw [qstrcmp_eq_zero_iff]
    exact hfile
  unfold isDeclSymbol
  by_cases heq : symbol = m.declSymbol
  · simp [heq]
  · simp [heq, hline, hcolumn, hq]

theorem isDeclSymbol_same_position_witness :
    (6 : SymPtr) ≠ (sampleMatcher 4).declSymbol
      ∧ isDeclSymbol (sampleMatcher 4) 0 (some 6) = some true :=
  ⟨by decide,
    isDeclSymbol_same_position (sampleMatcher 4) 0 6 (by decide) (by decide) (by decide)⟩

/-! ## Properties of the reference visitor -/

theorem except_bind_ok {ε α β : Type} (x : Except ε α) (f : α → Except ε β) (b : β)
    (h : (x >>= f) = .ok b) : ∃ a, x = .ok a ∧ f a = .ok b := by
  cases x with
  | error e => simp [bind, Except.bind] at h
  | ok a => exact ⟨a, rfl, h⟩

theorem currentContext_snd (P : Process) (firstToken : Nat) (st : State) :
    (currentContext P firstToken st).2.references = st.references
      ∧ (currentContext P firstToken st).2.results = st.results := by
  unfold currentContext
  dsimp only
  split_ifs <;> exact ⟨rfl, rfl⟩

theorem acceptedTokens_nil (P : Process) (fuel : Nat) : acceptedTokens P fuel [] = [] := rfl

theorem acceptedTokens_append (P : Process) (fuel : Nat) (rs1 rs2 : List Resolution) :
    acceptedTokens P fuel (rs1 ++ rs2) = acceptedTokens P fuel rs1 ++ acceptedTokens P fuel rs2 := by
  simp [acceptedTokens]

theorem mem_acceptedTokens (P : Process) (fuel : Nat) (rs : List Resolution) (t : Nat) :
    t ∈ acceptedTokens P fuel rs
      ↔ ∃ candidates, (t, candidates) ∈ rs
          ∧ checkCandidates P.matcher fuel candidates = some true := by
  simp [acceptedTokens]

theorem Reports.nil (P : Process) (fuel : Nat) (st : State) : Reports P fuel [] st st :=
  ⟨by simp [acceptedTokens_nil], by simp [acceptedTokens_nil], rfl⟩

theorem Reports.of_eq {P : Process} {fuel : Nat} {st1 st2 : State}
    (h1 : st2.references = st1.references) (h2 : st2.results = st1.results)
    (h3 : st2.postfixExpressionStack = st1.postfixExpressionStack) :
    Reports P fuel [] st1 st2 :=
  ⟨by simp [acceptedTokens_nil, h1], by simp [acceptedTokens_nil, h2], h3⟩

theorem Reports.append {P : Process} {fuel : Nat} {rs1 rs2 : List Resolution}
    {st1 st2 st3 : State} (h12 : Reports P fuel rs1 st1 st2) (h23 : Reports P fuel rs2 st2 st3) :
    Reports P fuel (rs1 ++ rs2) st1 st3 := by
  obtain ⟨a1, a2, a3⟩ := h12
  obtain ⟨b1, b2, b3⟩ := h23
  refine ⟨?_, ?_, ?_⟩
  · rw [b1, a1, acceptedTokens_append, List.append_assoc]
  · rw [b2, a2, acceptedTokens_append]
    by_cases hf : P.future = true <;> simp [hf]
  · rw [b3, a3]

/-- Two parts of a traversal one after the other, where the resolutions of
the second depend on the stack of postfix expressions, which the first
leaves as it was. -/
theorem Reports.andThen {P : Process} {fuel : Nat} {rs1 : List Resolution}
    (f : List AST → List Resolution) {st1 st2 st3 : State}
    (h12 : Reports P fuel rs1 st1 st2)
    (h23 : Reports P fuel (f st2.postfixExpressionStack) st2 st3) :
    Reports P fuel (rs1 ++ f st1.postfixExpressionStack) st1 st3 := by
  rw [h12.2.2] at h23
  exact Reports.append h12 h23

theorem reportResult_reports (P : Process) (fuel : Nat) (tokenIndex : Nat)
    (candidates : List (Option SymPtr)) (st st2 : State)
    (h : reportResult P fuel tokenIndex candidates st = .ok st2) :
    Reports P fuel [(tokenIndex, candidates)] st st2 := by
  unfold reportResult at h
  cases hc : checkCandidates P.matcher fuel candidates with
  | none => simp [hc] at h
  | some isStrong =>
    cases isStrong with
    | false =>
      simp [hc] at h
      rw [← h]
      refine ⟨?_, ?_, rfl⟩ <;> simp [acceptedTokens, hc]
    | true =>
      simp [hc] at h
      rw [← h]
      refine ⟨?_, ?_, rfl⟩
      · simp [acceptedTokens, hc, reportResultAt]
      · by_cases hf : P.future = true <;> simp [acceptedTokens, hc, reportResultAt, hf]

theorem currentContext_fst (P : Process) (firstToken : Nat) (st : State) :
    (currentContext P firstToken st).1
      = { symbol := P.findSymbolAt (P.getTokenStartPosition firstToken).1
            (P.getTokenStartPosition firstToken).2 } := by
  unfold currentContext
  dsimp only
  split_ifs with h
  · rw [h.2]
  · rfl

theorem currentContext_stack (P : Process) (firstToken : Nat) (st : State) :
    (currentContext P firstToken st).2.postfixExpressionStack = st.postfixExpressionStack := by
  unfold currentContext
  dsimp only
  split_ifs <;> rfl

theorem resolveAndReport_reports (P : Process) (fuel : Nat) (firstToken identifier_token : Nat)
    (name : Option NameVal) (st st2 : State)
    (h : resolveAndReport P fuel firstToken identifier_token name st = .ok st2) :
    Reports P fuel (resolveSite P firstToken identifier_token name) st st2 := by
  unfold resolveAndReport at h
  unfold resolveSite
  by_cases hid : P.identifier identifier_token = P.id
  · simp only [hid, if_true] at h ⊢
    have hctx := currentContext_snd P firstToken st
    have hstack := currentContext_stack P firstToken st
    have hfst := currentContext_fst P firstToken st
    have hr := reportResult_reports P fuel identifier_token _ _ st2 h
    rw [hfst] at hr
    exact Reports.append (Reports.of_eq hctx.1 hctx.2 hstack) hr
  · simp only [hid, if_false] at h ⊢
    cases h
    exact Reports.nil P fuel st

theorem checkExpression_reports (P : Process) (fuel : Nat) (startToken endToken : Nat)
    (st st2 : State) (h : checkExpression P fuel startToken endToken st = .ok st2) :
    Reports P fuel [(endToken, expressionCandidates P startToken endToken)] st st2 :=
  reportResult_reports P fuel endToken _ st st2 h

theorem checkUnqualifiedName_reports (P : Process) (fuel : Nat) (firstToken : Nat)
    (unqualified_name : Option AST) (st st2 : State)
    (h : checkUnqualifiedName P fuel firstToken unqualified_name st = .ok st2) :
    Reports P fuel (unqualifiedSite P firstToken unqualified_name) st st2 := by
  unfold checkUnqualifiedName at h
  unfold unqualifiedSite
  cases unqualified_name with
  | none =>
    cases h
    exact Reports.nil P fuel st
  | some unqualified =>
    simp only at h ⊢
    split at h
    · rename_i hc
      rw [if_pos hc]
      exact checkExpression_reports P fuel _ _ st st2 h
    · rename_i hc
      rw [if_neg hc]
      cases h
      exact Reports.nil P fuel st

theorem checkNestedName_reports (P : Process) (fuel : Nat) (firstToken : Nat)
    (class_or_namespace_name : Option AST) (st st2 : State)
    (h : checkNestedName P fuel firstToken class_or_namespace_name st = .ok st2) :
    Reports P fuel (nestedSite P firstToken class_or_namespace_name) st st2 := by
  unfold checkNestedName at h
  unfold nestedSite
  cases ht : nestedIdentifierToken class_or_namespace_name with
  | none =>
    simp only [ht] at h
    cases h
    exact Reports.nil P fuel st
  | some identifier_token =>
    simp only [ht] at h
    by_cases hc : P.identifier identifier_token = P.id
    · rw [if_pos hc] at h
      simp only [if_pos hc]
      exact checkExpression_reports P fuel _ _ st st2 h
    · rw [if_neg hc] at h
      simp only [if_neg hc]
      cases h
      exact Reports.nil P fuel st

theorem checkMemInitializerName_reports (P : Process) (fuel : Nat) (firstToken : Nat)
    (name : Option AST) (st st2 : State)
    (h : checkMemInitializerName P fuel firstToken name st = .ok st2) :
    Reports P fuel (memInitializerSite P firstToken name) st st2 := by
  cases name with
  | none =>
    simp only [checkMemInitializerName] at h
    simp only [memInitializerSite]
    cases h
    exact Reports.nil P fuel st
  | some simple =>
    cases hs : simpleNameToken (some simple) with
    | none =>
      simp only [checkMemInitializerName, hs] at h
      simp only [memInitializerSite, hs]
      cases h
      exact Reports.nil P fuel st
    | some identifier_token =>
      simp only [checkMemInitializerName, hs] at h
      simp only [memInitializerSite, hs]
      exact resolveAndReport_reports P fuel _ _ _ st st2 h

mutual

theorem accept_reports (P : Process) (fuel : Nat) :
    ∀ (ast : AST) (st st2 : State), accept P fuel ast st = .ok st2 →
      Reports P fuel (resolutions P st.postfixExpressionStack ast) st st2
  | .simpleName firstToken identifier_token name, st, st2, h => by
    rw [accept] at h
    rw [resolutions]
    exact resolveAndReport_reports P fuel _ _ _ st st2 h
  | .destructorName firstToken identifier_token name, st, st2, h => by
    rw [accept] at h
    rw [resolutions]
    exact resolveAndReport_reports P fuel _ _ _ st st2 h
  | .templateId firstToken identifier_token name template_arguments, st, st2, h => by
    rw [accept] at h
    rw [resolutions]
    obtain ⟨s1, h1, h2⟩ := except_bind_ok _ _ _ h
    exact Reports.andThen (fun e => resolutionsPtrList P e template_arguments)
      (resolveAndReport_reports P fuel _ _ _ st s1 h1)
      (acceptPtrList_reports P fuel template_arguments s1 st2 h2)
  | .qualifiedName firstToken nested_name_specifier unqualified_name, st, st2, h => by
    rw [accept] at h
    rw [resolutions]
    obtain ⟨s1, h1, h⟩ := except_bind_ok _ _ _ h
    obtain ⟨s2, h2, h3⟩ := except_bind_ok _ _ _ h
    exact Reports.andThen
      (fun e => templateArgumentResolutions P e unqualified_name
        ++ unqualifiedSite P firstToken unqualified_name)
      (visitNestedNameSpecifier_reports P fuel firstToken _ st s1 h1)
      (Reports.append (acceptTemplateArguments_reports P fuel unqualified_name s1 s2 h2)
        (checkUnqualifiedName_reports P fuel _ _ s2 st2 h3))
  | .memInitializer firstToken name expression, st, st2, h => by
    rw [accept] at h
    rw [resolutions]
    obtain ⟨s1, h1, h2⟩ := except_bind_ok _ _ _ h
    exact Reports.andThen (fun e => resolutionsPtr P e expression)
      (checkMemInitializerName_reports P fuel _ _ st s1 h1)
      (acceptPtr_reports P fuel expression s1 st2 h2)
  | .postfixExpression firstToken base_expression postfix_expressions, st, st2, h => by
    rw [accept] at h
    rw [resolutions]
    obtain ⟨s1, h1, h⟩ := except_bind_ok _ _ _ h
    obtain ⟨s2, h2, h3⟩ := except_bind_ok _ _ _ h
    cases h3
    have e1 := acceptPtr_reports P fuel base_expression _ s1 h1
    have e2 := acceptList_reports P fuel postfix_expressions s1 s2 h2
    obtain ⟨r1, r2, r3⟩ := Reports.andThen (fun e => resolutionsList P e postfix_expressions)
      e1 e2
    refine ⟨r1, r2, ?_⟩
    show s2.postfixExpressionStack.dropLast = st.postfixExpressionStack
    rw [r3]
    simp
  | .memberAccess _ member_name, st, st2, h => by
    rw [accept] at h
    rw [resolutions]
    cases hs : simpleNameToken member_name with
    | none =>
      simp only [hs] at h ⊢
      exact acceptPtr_reports P fuel member_name st st2 h
    | some identifier_token =>
      simp only [hs] at h ⊢
      by_cases hid : P.identifier identifier_token = P.id
      · rw [if_pos hid] at h
        rw [if_pos hid]
        unfold memberAccessSite
        cases hlast : st.postfixExpressionStack.getLast? with
        | none =>
          simp only [hlast] at h
          cases h
        | some last =>
          simp only [hlast] at h ⊢
          exact checkExpression_reports P fuel _ _ st st2 h
      · rw [if_neg hid] at h
        rw [if_neg hid]
        exact acceptPtr_reports P fuel member_name st st2 h
  | .enumerator firstToken identifier_token expression, st, st2, h => by
    rw [accept] at h
    rw [resolutions]
    obtain ⟨s1, h1, h2⟩ := except_bind_ok _ _ _ h
    exact Reports.andThen (fun e => resolutionsPtr P e expression)
      (resolveAndReport_reports P fuel _ _ _ st s1 h1)
      (acceptPtr_reports P fuel expression s1 st2 h2)
  | .declarator _ attributes ptr_operators core_declarator postfix_declarators
      post_attributes initializer, st, st2, h => by
    rw [accept] at h
    rw [resolutions]
    obtain ⟨s1, h1, h⟩ := except_bind_ok _ _ _ h
    obtain ⟨s2, h2, h⟩ := except_bind_ok _ _ _ h
    obtain ⟨s3, h3, h⟩ := except_bind_ok _ _ _ h
    obtain ⟨s4, h4, h⟩ := except_bind_ok _ _ _ h
    obtain ⟨s5, h5, h6⟩ := except_bind_ok _ _ _ h
    exact Reports.andThen
      (fun e => resolutionsList P e ptr_operators
        ++ (resolutionsPtr P e core_declarator
          ++ (resolutionsList P e postfix_declarators
            ++ (resolutionsList P e post_attributes ++ resolutionsPtr P e initializer))))
      (acceptList_reports P fuel attributes st s1 h1)
      (Reports.andThen
        (fun e => resolutionsPtr P e core_declarator
          ++ (resolutionsList P e postfix_declarators
            ++ (resolutionsList P e post_attributes ++ resolutionsPtr P e initializer)))
        (acceptList_reports P fuel ptr_operators s1 s2 h2)
        (Reports.andThen
          (fun e => resolutionsList P e postfix_declarators
            ++ (resolutionsList P e post_attributes ++ resolutionsPtr P e initializer))
          (acceptPtr_reports P fuel core_declarator s2 s3 h3)
          (Reports.andThen
            (fun e => resolutionsList P e post_attributes ++ resolutionsPtr P e initializer)
            (acceptList_reports P fuel postfix_declarators s3 s4 h4)
            (Reports.andThen (fun e => resolutionsPtr P e initializer)
              (acceptList_reports P fuel post_attributes s4 s5 h5)
              (acceptPtr_reports P fuel initializer s5 st2 h6)))))
  | .parameterDeclaration _ type_specifier declarator expression, st, st2, h => by
    rw [accept] at h
    rw [resolutions]
    obtain ⟨s1, h1, h⟩ := except_bind_ok _ _ _ h
    obtain ⟨s2, h2, h3⟩ := except_bind_ok _ _ _ h
    exact Reports.andThen
      (fun e => parameterDeclaratorResolutions P e declarator
        ++ resolutionsPtr P e expression)
      (acceptList_reports P fuel type_specifier st s1 h1)
      (Reports.andThen (fun e => resolutionsPtr P e expression)
        (acceptParameterDeclarator_reports P fuel declarator s1 s2 h2)
        (acceptPtr_reports P fuel expression s2 st2 h3))
  | .expressionOrDeclarationStatement _ _ declaration, st, st2, h => by
    rw [accept] at h
    rw [resolutions]
    exact acceptPtr_reports P fuel declaration st st2 h
  | .functionDeclarator _ parameters cv_qualifier_seq exception_specification, st, st2, h => by
    rw [accept] at h
    rw [resolutions]
    obtain ⟨s1, h1, h⟩ := except_bind_ok _ _ _ h
    obtain ⟨s2, h2, h3⟩ := except_bind_ok _ _ _ h
    exact Reports.andThen
      (fun e => resolutionsList P e cv_qualifier_seq
        ++ resolutionsPtr P e exception_specification)
      (acceptPtr_reports P fuel parameters st s1 h1)
      (Reports.andThen (fun e => resolutionsPtr P e exception_specification)
        (acceptList_reports P fuel cv_qualifier_seq s1 s2 h2)
        (acceptPtr_reports P fuel exception_specification s2 st2 h3))
  | .other _ children, st, st2, h => by
    rw [accept] at h
    rw [resolutions]
    exact acceptPtrList_reports P fuel children st st2 h

theorem acceptPtr_reports (P : Process) (fuel : Nat) :
    ∀ (ast : Option AST) (st st2 : State), acceptPtr P fuel ast st = .ok st2 →
      Reports P fuel (resolutionsPtr P st.postfixExpressionStack ast) st st2
  | none, st, st2, h => by
    rw [acceptPtr] at h
    rw [resolutionsPtr]
    cases h
    exact Reports.nil P fuel st
  | some ast, st, st2, h => by
    rw [acceptPtr] at h
    rw [resolutionsPtr]
    exact accept_reports P fuel ast st st2 h

theorem acceptPtrList_reports (P : Process) (fuel : Nat) :
    ∀ (asts : List (Option AST)) (st st2 : State), acceptPtrList P fuel asts st = .ok st2 →
      Reports P fuel (resolutionsPtrList P st.postfixExpressionStack asts) st st2
  | [], st, st2, h => by
    rw [acceptPtrList] at h
    rw [resolutionsPtrList]
    cases h
    exact Reports.nil P fuel st
  | ast :: next, st, st2, h => by
    rw [acceptPtrList] at h
    rw [resolutionsPtrList]
    obtain ⟨s1, h1, h2⟩ := except_bind_ok _ _ _ h
    exact Reports.andThen (fun e => resolutionsPtrList P e next)
      (acceptPtr_reports P fuel ast st s1 h1)
      (acceptPtrList_reports P fuel next s1 st2 h2)

theorem acceptList_reports (P : Process) (fuel : Nat) :
    ∀ (asts : List AST) (st st2 : State), acceptList P fuel asts st = .ok st2 →
      Reports P fuel (resolutionsList P st.postfixExpressionStack asts) st st2
  | [], st, st2, h => by
    rw [acceptList] at h
    rw [resolutionsList]
    cases h
    exact Reports.nil P fuel st
  | ast :: next, st, st2, h => by
    rw [acceptList] at h
    rw [resolutionsList]
    obtain ⟨s1, h1, h2⟩ := except_bind_ok _ _ _ h
    exact Reports.andThen (fun e => resolutionsList P e next)
      (accept_reports P fuel ast st s1 h1)
      (acceptList_reports P fuel next s1 st2 h2)

theorem visitNestedNameSpecifier_reports (P : Process) (fuel : Nat) (firstToken : Nat) :
    ∀ (asts : List (Option AST)) (st st2 : State),
      visitNestedNameSpecifier P fuel firstToken asts st = .ok st2 →
      Reports P fuel (nestedResolutions P firstToken st.postfixExpressionStack asts) st st2
  | [], st, st2, h => by
    rw [visitNestedNameSpecifier] at h
    rw [nestedResolutions]
    cases h
    exact Reports.nil P fuel st
  | class_or_namespace_name :: next, st, st2, h => by
    rw [visitNestedNameSpecifier] at h
    rw [nestedResolutions]
    obtain ⟨s1, h1, h⟩ := except_bind_ok _ _ _ h
    obtain ⟨s2, h2, h3⟩ := except_bind_ok _ _ _ h
    exact Reports.andThen
      (fun e => nestedSite P firstToken class_or_namespace_name
        ++ nestedResolutions P firstToken e next)
      (acceptTemplateArguments_reports P fuel class_or_namespace_name st s1 h1)
      (Reports.andThen (fun e => nestedResolutions P firstToken e next)
        (checkNestedName_reports P fuel _ _ s1 s2 h2)
        (visitNestedNameSpecifier_reports P fuel firstToken next s2 st2 h3))

theorem acceptTemplateArguments_reports (P : Process) (fuel : Nat) :
    ∀ (ast : Option AST) (st st2 : State), acceptTemplateArguments P fuel ast st = .ok st2 →
      Reports P fuel (templateArgumentResolutions P st.postfixExpressionStack ast) st st2 := by
  intro ast st st2 h
  cases ast with
  | none =>
    simp only [acceptTemplateArguments] at h
    simp only [templateArgumentResolutions]
    cases h
    exact Reports.nil P fuel st
  | some a =>
    cases a with
    | templateId t i n template_arguments =>
      simp only [acceptTemplateArguments] at h
      simp only [templateArgumentResolutions]
      exact acceptPtrList_reports P fuel template_arguments st st2 h
    | _ =>
      simp only [acceptTemplateArguments] at h
      simp only [templateArgumentResolutions]
      cases h
      exact Reports.nil P fuel st

theorem acceptParameterDeclarator_reports (P : Process) (fuel : Nat) :
    ∀ (ast : Option AST) (st st2 : State), acceptParameterDeclarator P fuel ast st = .ok st2 →
      Reports P fuel (parameterDeclaratorResolutions P st.postfixExpressionStack ast) st
        st2 := by
  intro ast st st2 h
  cases ast with
  | none =>
    simp only [acceptParameterDeclarator] at h
    simp only [parameterDeclaratorResolutions]
    cases h
    exact Reports.nil P fuel st
  | some a =>
    cases a with
    | declarator t attributes ptr_operators core postfix_declarators post_attributes
        initializer =>
      simp only [acceptParameterDeclarator] at h
      simp only [parameterDeclaratorResolutions]
      obtain ⟨s1, h1, h⟩ := except_bind_ok _ _ _ h
      obtain ⟨s2, h2, h⟩ := except_bind_ok _ _ _ h
      obtain ⟨s3, h3, h⟩ := except_bind_ok _ _ _ h
      obtain ⟨s4, h4, h5⟩ := except_bind_ok _ _ _ h
      exact Reports.andThen
        (fun e => resolutionsList P e ptr_operators
          ++ (resolutionsList P e postfix_declarators
            ++ (resolutionsList P e post_attributes ++ resolutionsPtr P e initializer)))
        (acceptList_reports P fuel attributes st s1 h1)
        (Reports.andThen
          (fun e => resolutionsList P e postfix_declarators
            ++ (resolutionsList P e post_attributes ++ resolutionsPtr P e initializer))
          (acceptList_reports P fuel ptr_operators s1 s2 h2)
          (Reports.andThen
            (fun e => resolutionsList P e post_attributes ++ resolutionsPtr P e initializer)
            (acceptList_reports P fuel postfix_declarators s2 s3 h3)
            (Reports.andThen (fun e => resolutionsPtr P e initializer)
              (acceptList_reports P fuel post_attributes s3 s4 h4)
              (acceptPtr_reports P fuel initializer s4 st2 h5))))
    | _ =>
      simp only [acceptParameterDeclarator] at h
      simp only [parameterDeclaratorResolutions]
      cases h
      exact Reports.nil P fuel st

end

theorem resolveSite_identifier (P : Process) (firstToken identifier_token : Nat)
    (name : Option NameVal) :
    ∀ r ∈ resolveSite P firstToken identifier_token name, P.identifier r.1 = P.id := by
  intro r hr
  unfold resolveSite at hr
  split at hr
  · rename_i hid
    simp only [List.mem_singleton] at hr
    rw [hr]
    exact hid
  · simp at hr

theorem memInitializerSite_identifier (P : Process) (firstToken : Nat) (name : Option AST) :
    ∀ r ∈ memInitializerSite P firstToken name, P.identifier r.1 = P.id := by
  intro r hr
  unfold memInitializerSite at hr
  split at hr
  · exact resolveSite_identifier P _ _ _ r hr
  · simp at hr

theorem unqualifiedSite_identifier (P : Process) (firstToken : Nat)
    (unqualified_name : Option AST) :
    ∀ r ∈ unqualifiedSite P firstToken unqualified_name, P.identifier r.1 = P.id := by
  intro r hr
  unfold unqualifiedSite at hr
  split at hr
  · simp at hr
  · simp only at hr
    split at hr
    · rename_i hid
      simp only [List.mem_singleton] at hr
      rw [hr]
      exact hid.2
    · simp at hr

theorem nestedSite_identifier (P : Process) (firstToken : Nat)
    (class_or_namespace_name : Option AST) :
    ∀ r ∈ nestedSite P firstToken class_or_namespace_name, P.identifier r.1 = P.id := by
  intro r hr
  unfold nestedSite at hr
  split at hr
  · split at hr
    · rename_i hid
      simp only [List.mem_singleton] at hr
      rw [hr]
      exact hid
    · simp at hr
  · simp at hr

theorem mem_append_of {α : Type} {p : α → Prop} {xs ys : List α} (hx : ∀ r ∈ xs, p r)
    (hy : ∀ r ∈ ys, p r) : ∀ r ∈ xs ++ ys, p r := by
  intro r hr
  rcases List.mem_append.mp hr with h | h
  · exact hx r h
  · exact hy r h

mutual

theorem resolutions_identifier (P : Process) :
    ∀ (ast : AST) (e : List AST), ∀ r ∈ resolutions P e ast, P.identifier r.1 = P.id
  | .simpleName firstToken identifier_token name, e => by
    rw [resolutions]
    exact resolveSite_identifier P _ _ _
  | .destructorName firstToken identifier_token name, e => by
    rw [resolutions]
    exact resolveSite_identifier P _ _ _
  | .templateId firstToken identifier_token name template_arguments, e => by
    rw [resolutions]
    exact mem_append_of (resolveSite_identifier P _ _ _)
      (resolutionsPtrList_identifier P template_arguments e)
  | .qualifiedName firstToken nested_name_specifier unqualified_name, e => by
    rw [resolutions]
    exact mem_append_of (nestedResolutions_identifier P firstToken nested_name_specifier e)
      (mem_append_of (templateArgumentResolutions_identifier P unqualified_name e)
        (unqualifiedSite_identifier P _ _))
  | .memInitializer firstToken name expression, e => by
    rw [resolutions]
    exact mem_append_of (memInitializerSite_identifier P _ _)
      (resolutionsPtr_identifier P expression e)
  | .postfixExpression firstToken base_expression postfix_expressions, e => by
    rw [resolutions]
    exact mem_append_of (resolutionsPtr_identifier P base_expression _)
      (resolutionsList_identifier P postfix_expressions _)
  | .memberAccess _ member_name, e => by
    rw [resolutions]
    split
    · split
      · rename_i hid
        unfold memberAccessSite
        split
        · simp
        · intro r hr
          simp only [List.mem_singleton] at hr
          rw [hr]
          exact hid
      · exact resolutionsPtr_identifier P member_name e
    · exact resolutionsPtr_identifier P member_name e
  | .enumerator firstToken identifier_token expression, e => by
    rw [resolutions]
    exact mem_append_of (resolveSite_identifier P _ _ _)
      (resolutionsPtr_identifier P expression e)
  | .declarator _ attributes ptr_operators core_declarator postfix_declarators
      post_attributes initializer, e => by
    rw [resolutions]
    exact mem_append_of (resolutionsList_identifier P attributes e)
      (mem_append_of (resolutionsList_identifier P ptr_operators e)
        (mem_append_of (resolutionsPtr_identifier P core_declarator e)
          (mem_append_of (resolutionsList_identifier P postfix_declarators e)
            (mem_append_of (resolutionsList_identifier P post_attributes e)
              (resolutionsPtr_identifier P initializer e)))))
  | .parameterDeclaration _ type_specifier declarator expression, e => by
    rw [resolutions]
    exact mem_append_of (resolutionsList_identifier P type_specifier e)
      (mem_append_of (parameterDeclaratorResolutions_identifier P declarator e)
        (resolutionsPtr_identifier P expression e))
  | .expressionOrDeclarationStatement _ _ declaration, e => by
    rw [resolutions]
    exact resolutionsPtr_identifier P declaration e
  | .functionDeclarator _ parameters cv_qualifier_seq exception_specification, e => by
    rw [resolutions]
    exact mem_append_of (resolutionsPtr_identifier P parameters e)
      (mem_append_of (resolutionsList_identifier P cv_qualifier_seq e)
        (resolutionsPtr_identifier P exception_specification e))
  | .other _ children, e => by
    rw [resolutions]
    exact resolutionsPtrList_identifier P children e
termination_by structural x => x

theorem resolutionsPtr_identifier (P : Process) :
    ∀ (ast : Option AST) (e : List AST), ∀ r ∈ resolutionsPtr P e ast, P.identifier r.1 = P.id
  | none, e => by
    rw [resolutionsPtr]
    simp
  | some ast, e => by
    rw [resolutionsPtr]
    exact resolutions_identifier P ast e
termination_by structural x => x

theorem resolutionsList_identifier (P : Process) :
    ∀ (asts : List AST) (e : List AST), ∀ r ∈ resolutionsList P e asts, P.identifier r.1 = P.id
  | [], e => by
    rw [resolutionsList]
    simp
  | ast :: next, e => by
    rw [resolutionsList]
    exact mem_append_of (resolutions_identifier P ast e) (resolutionsList_identifier P next e)
termination_by structural x => x

theorem resolutionsPtrList_identifier (P : Process) :
    ∀ (asts : List (Option AST)) (e : List AST),
      ∀ r ∈ resolutionsPtrList P e asts, P.identifier r.1 = P.id
  | [], e => by
    rw [resolutionsPtrList]
    simp
  | ast :: next, e => by
    rw [resolutionsPtrList]
    exact mem_append_of (resolutionsPtr_identifier P ast e)
      (resolutionsPtrList_identifier P next e)
termination_by structural x => x

theorem nestedResolutions_identifier (P : Process) (firstToken : Nat) :
    ∀ (asts : List (Option AST)) (e : List AST),
      ∀ r ∈ nestedResolutions P firstToken e asts, P.identifier r.1 = P.id
  | [], e => by
    rw [nestedResolutions]
    simp
  | class_or_namespace_name :: next, e => by
    rw [nestedResolutions]
    exact mem_append_of (templateArgumentResolutions_identifier P class_or_namespace_name e)
      (mem_append_of (nestedSite_identifier P _ _)
        (nestedResolutions_identifier P firstToken next e))
termination_by structural x => x

theorem templateArgumentResolutions_identifier (P : Process) :
    ∀ (ast : Option AST) (e : List AST),
      ∀ r ∈ templateArgumentResolutions P e ast, P.identifier r.1 = P.id
  | none, e => by
    simp [templateArgumentResolutions]
  | some (.templateId _ _ _ template_arguments), e => by
    simp only [templateArgumentResolutions]
    exact resolutionsPtrList_identifier P template_arguments e
  | some (.simpleName _ _ _), e => by simp [templateArgumentResolutions]
  | some (.destructorName _ _ _), e => by simp [templateArgumentResolutions]
  | some (.qualifiedName _ _ _), e => by simp [templateArgumentResolutions]
  | some (.memInitializer _ _ _), e => by simp [templateArgumentResolutions]
  | some (.postfixExpression _ _ _), e => by simp [templateArgumentResolutions]
  | some (.memberAccess _ _), e => by simp [templateArgumentResolutions]
  | some (.enumerator _ _ _), e => by simp [templateArgumentResolutions]
  | some (.declarator _ _ _ _ _ _ _), e => by simp [templateArgumentResolutions]
  | some (.parameterDeclaration _ _ _ _), e => by simp [templateArgumentResolutions]
  | some (.expressionOrDeclarationStatement _ _ _), e => by
    simp [templateArgumentResolutions]
  | some (.functionDeclarator _ _ _ _), e => by simp [templateArgumentResolutions]
  | some (.other _ _), e => by simp [templateArgumentResolutions]
termination_by structural x => x

theorem parameterDeclaratorResolutions_identifier (P : Process) :
    ∀ (ast : Option AST) (e : List AST),
      ∀ r ∈ parameterDeclaratorResolutions P e ast, P.identifier r.1 = P.id
  | none, e => by
    simp [parameterDeclaratorResolutions]
  | some (.declarator _ attributes ptr_operators _ postfix_declarators post_attributes
      initializer), e => by
    simp only [parameterDeclaratorResolutions]
    exact mem_append_of (resolutionsList_identifier P attributes e)
      (mem_append_of (resolutionsList_identifier P ptr_operators e)
        (mem_append_of (resolutionsList_identifier P postfix_declarators e)
          (mem_append_of (resolutionsList_identifier P post_attributes e)
            (resolutionsPtr_identifier P initializer e))))
  | some (.simpleName _ _ _), e => by simp [parameterDeclaratorResolutions]
  | some (.destructorName _ _ _), e => by simp [parameterDeclaratorResolutions]
  | some (.templateId _ _ _ _), e => by simp [parameterDeclaratorResolutions]
  | some (.qualifiedName _ _ _), e => by simp [parameterDeclaratorResolutions]
  | some (.memInitializer _ _ _), e => by simp [parameterDeclaratorResolutions]
  | some (.postfixExpression _ _ _), e => by simp [parameterDeclaratorResolutions]
  | some (.memberAccess _ _), e => by simp [parameterDeclaratorResolutions]
  | some (.enumerator _ _ _), e => by simp [parameterDeclaratorResolutions]
  | some (.parameterDeclaration _ _ _ _), e => by simp [parameterDeclaratorResolutions]
  | some (.expressionOrDeclarationStatement _ _ _), e => by
    simp [parameterDeclaratorResolutions]
  | some (.functionDeclarator _ _ _ _), e => by simp [parameterDeclaratorResolutions]
  | some (.other _ _), e => by simp [parameterDeclaratorResolutions]
termination_by structural x => x

end

/-- C5: the list `Process::operator()` returns is the list of the tokens the
visitor resolves in the tree, in the order of the traversal, whose candidate
list, resolved at the node of the token, `checkCandidates` accepts.  So every
token index of the list is a token whose identifier is the searched one and
whose candidate list resolved at that token was accepted, and no token is
recorded in another case; the list is `_references`, and the results
reported are those of the tokens of the list, one each in the same order when
there is a future, none when there is not. -/
theorem operatorCall_recorded (P : Process) (fuel : Nat) (symbol : SymPtr)
    (id : Option IdPtr) (ast : Option AST) (st st2 : State) (refs : List Nat)
    (h : operatorCall P fuel symbol id ast st = .ok (refs, st2)) :
    refs = acceptedTokens (P.setTarget symbol id) fuel
        (resolutionsPtr (P.setTarget symbol id) st.postfixExpressionStack ast)
      ∧ (∀ tokenIndex ∈ refs,
          P.identifier tokenIndex = id
            ∧ ∃ candidates : List (Option SymPtr),
                (tokenIndex, candidates)
                    ∈ resolutionsPtr (P.setTarget symbol id) st.postfixExpressionStack ast
                  ∧ checkCandidates (P.setTarget symbol id).matcher fuel candidates
                    = some true)
      ∧ st2.references = refs
      ∧ st2.results
          = st.results ++ (if P.future then refs.map (searchResultAt P) else []) := by
  unfold operatorCall at h
  obtain ⟨s1, h1, h2⟩ := except_bind_ok _ _ _ h
  have hrefs : s1.references = refs := by
    cases h2
    rfl
  have hst : s1 = st2 := by
    cases h2
    rfl
  obtain ⟨r1, r2, _⟩ := acceptPtr_reports (P.setTarget symbol id) fuel ast _ s1 h1
  have heq : refs = acceptedTokens (P.setTarget symbol id) fuel
      (resolutionsPtr (P.setTarget symbol id) st.postfixExpressionStack ast) := by
    rw [← hrefs, r1]
    simp
  subst hst
  refine ⟨heq, ?_, hrefs, ?_⟩
  · intro t ht
    rw [heq, mem_acceptedTokens] at ht
    obtain ⟨candidates, hmem, hc⟩ := ht
    exact ⟨resolutionsPtr_identifier (P.setTarget symbol id) ast _ _ hmem,
      candidates, hmem, hc⟩
  · rw [heq]
    exact r2

theorem operatorCall_recorded_witness :
    [2, 4] = acceptedTokens (sampleProcess.setTarget 1 (some 1)) 0
        (resolutionsPtr (sampleProcess.setTarget 1 (some 1))
          sampleState.postfixExpressionStack (some sampleAST))
      ∧ (∀ tokenIndex ∈ [2, 4],
          sampleProcess.identifier tokenIndex = some 1
            ∧ ∃ candidates : List (Option SymPtr),
                (tokenIndex, candidates)
                    ∈ resolutionsPtr (sampleProcess.setTarget 1 (some 1))
                      sampleState.postfixExpressionStack (some sampleAST)
                  ∧ checkCandidates (sampleProcess.setTarget 1 (some 1)).matcher 0 candidates
                    = some true)
      ∧ sampleFinalState.references = [2, 4]
      ∧ sampleFinalState.results
          = sampleState.results
            ++ (if sampleProcess.future then [2, 4].map (searchResultAt sampleProcess) else []) :=
  operatorCall_recorded sampleProcess 0 1 (some 1) (some sampleAST) sampleState
    sampleFinalState [2, 4] rfl

/-- On the sample tree the visitor resolves the tokens 2, 4 and 10; the
candidates of the token 10, resolved for the expression of the member access,
are not accepted, and the token is not recorded. -/
theorem operatorCall_sample :
    resolutionsPtr (sampleProcess.setTarget 1 (some 1)) [] (some sampleAST)
        = [(2, [some 1]), (4, [some 1]), (10, [some 4])]
      ∧ checkCandidates (sampleProcess.setTarget 1 (some 1)).matcher 0 [some 4] = some false
      ∧ operatorCall sampleProcess 0 1 (some 1) (some sampleAST) sampleState
        = .ok ([2, 4], sampleFinalState) :=
  ⟨by decide, by decide, rfl⟩

/-! ## Properties of the entry points and of the search -/

/-- C6, evaluated on the code: for a symbol without an identifier,
`renameUsages` does nothing, and `findUsages` starts a new search and runs
`find_helper` on the symbol in the background, where the assertion
`symbolId != 0` fails. -/
theorem findUsages_without_identifier :
    (sampleHeap 7).identifier = none
      ∧ renameUsages sampleHeap 7 = []
      ∧ findUsages 7
          = [.startNewSearch .SearchOnly, .connectActivated, .popup, .runFindHelper 7,
              .setFuture, .addTask, .connectClicked]
      ∧ startedSearches (findUsages 7) = [7]
      ∧ find_helper sampleEnv (sampleHeap 7) = none := by
  refine ⟨rfl, rfl, rfl, rfl, rfl⟩

theorem findIdentifier_isSome (doc : Document) (chars : String) :
    (findIdentifier doc chars).isSome = true ↔ chars ∈ doc.identifiers := by
  unfold findIdentifier
  by_cases h : chars ∈ doc.identifiers <;> simp [h]

theorem findIdentifier_eq_none (doc : Document) (chars : String) :
    findIdentifier doc chars = none ↔ chars ∉ doc.identifiers := by
  unfold findIdentifier
  by_cases h : chars ∈ doc.identifiers <;> simp [h]

theorem appendDocumentsWithIdentifier_eq (sourceFile symbolId : String)
    (docs : List (String × Document)) (files : List String) :
    appendDocumentsWithIdentifier sourceFile symbolId docs files
      = files ++ ((docs.map Prod.snd).filter
          (fun doc => decide (doc.fileName ≠ sourceFile ∧ symbolId ∈ doc.identifiers))).map
          Document.fileName := by
  induction docs generalizing files with
  | nil => simp [appendDocumentsWithIdentifier]
  | cons d rest ih =>
    obtain ⟨key, doc⟩ := d
    unfold appendDocumentsWithIdentifier
    by_cases h1 : doc.fileName = sourceFile
    · simp [h1, ih]
    · by_cases h2 : symbolId ∈ doc.identifiers
      · have h3 : (findIdentifier doc symbolId).isSome = true :=
          (findIdentifier_isSome doc symbolId).mpr h2
        simp [h1, h2, h3, ih]
      · have h3 : (findIdentifier doc symbolId).isSome = false := by
          rw [Bool.eq_false_iff]
          intro h
          exact h2 ((findIdentifier_isSome doc symbolId).mp h)
        simp [h1, h2, h3, ih]

theorem candidateFiles_eq_spec (env : SearchEnv) (symbol : Symbol) (symbolId : String) :
    candidateFiles env symbol symbolId = candidateFilesSpec env symbol symbolId := by
  unfold candidateFiles candidateFilesSpec
  by_cases h : symbol.isClass = true ∨ symbol.isForwardClassDeclaration = true
  · have hb : (symbol.isClass || symbol.isForwardClassDeclaration) = true := by
      simpa using h
    simp only [hb, if_true, h]
    rw [appendDocumentsWithIdentifier_eq]
    rfl
  · have hb : (symbol.isClass || symbol.isForwardClassDeclaration) = false := by
      simpa using h
    simp [hb, h]

theorem find_helper_eq (env : SearchEnv) (symbol : Symbol) (symbolId : String)
    (hid : symbol.identifier = some symbolId) :
    find_helper env symbol
      = some
          { files := candidateFiles env symbol symbolId
            events :=
              Event.setProgressRange 0 (candidateFiles env symbol symbolId).length ::
                searchLoop env symbolId 0 (candidateFiles env symbol symbolId)
                ++ [Event.setProgressValue (candidateFiles env symbol symbolId).length] } := by
  simp only [find_helper, hid]

/-- C7: for a target symbol with an identifier, `find_helper` runs, and the
declaring file of the symbol is the first element of its list of files,
whatever the kind of the symbol and whatever the snapshot and its dependency
relation hold. -/
theorem find_helper_files_head (env : SearchEnv) (symbol : Symbol) (symbolId : String)
    (hid : symbol.identifier = some symbolId) :
    ∃ run, find_helper env symbol = some run
      ∧ run.files.head? = some symbol.fileName
      ∧ symbol.fileName ∈ run.files := by
  refine ⟨_, find_helper_eq env symbol symbolId hid, ?_, ?_⟩
  · simp only [candidateFiles_eq_spec]
    rfl
  · simp only [candidateFiles_eq_spec]
    simp [candidateFilesSpec]

theorem find_helper_files_head_witness :
    ∃ run, find_helper sampleEnv helperA = some run
      ∧ run.files.head? = some helperA.fileName
      ∧ helperA.fileName ∈ run.files :=
  find_helper_files_head sampleEnv helperA "helper" rfl

/-- C8: for a target symbol with an identifier, the list of files of
`find_helper` is the declaring file followed, for a class or a class forward
declaration, by the file names of the documents of the snapshot, in its order,
that are not the declaring file and whose identifier table has the spelling
of the target, and for another symbol by the files `dependsOn` gives for the
declaring file. -/
theorem find_helper_files_eq (env : SearchEnv) (symbol : Symbol) (symbolId : String)
    (hid : symbol.identifier = some symbolId) :
    ∃ run, find_helper env symbol = some run
      ∧ run.files
          = symbol.fileName ::
            (if symbol.isClass = true ∨ symbol.isForwardClassDeclaration = true then
              ((env.snapshot.map Prod.snd).filter
                (fun doc =>
                  decide (doc.fileName ≠ symbol.fileName ∧ symbolId ∈ doc.identifiers))).map
                Document.fileName
            else env.dependsOn symbol.fileName) := by
  refine ⟨_, find_helper_eq env symbol symbolId hid, ?_⟩
  simp only [candidateFiles_eq_spec]
  rfl

theorem find_helper_files_eq_witness :
    ∃ run, find_helper sampleEnv fwdFoo = some run
      ∧ run.files
          = fwdFoo.fileName ::
            (if fwdFoo.isClass = true ∨ fwdFoo.isForwardClassDeclaration = true then
              ((sampleEnv.snapshot.map Prod.snd).filter
                (fun doc =>
                  decide (doc.fileName ≠ fwdFoo.fileName ∧ "Foo" ∈ doc.identifiers))).map
                Document.fileName
            else sampleEnv.dependsOn fwdFoo.fileName) :=
  find_helper_files_eq sampleEnv fwdFoo "Foo" rfl

theorem searchLoop_mem (env : SearchEnv) (symbolId : String) (e : Event) :
    ∀ (files : List String) (i : Nat), e ∈ searchLoop env symbolId i files →
      ∃ j fileName, fileName ∈ files ∧ e ∈ processFile env symbolId j fileName
  | [], i, h => by simp [searchLoop] at h
  | f :: rest, i, h => by
    unfold searchLoop at h
    by_cases hc : env.isCanceled i = true
    · simp [hc] at h
    · simp only [hc, if_false] at h
      rcases List.mem_append.mp h with h1 | h2
      · exact ⟨i, f, List.mem_cons_self _ _, h1⟩
      · obtain ⟨j, g, hg, he⟩ := searchLoop_mem env symbolId e rest (i + 1) h2
        exact ⟨j, g, List.mem_cons_of_mem _ hg, he⟩

/-- The events of one iteration that are work on a file are work on the file
of the iteration, and there are none when the document of the snapshot for
the file lacks the identifier. -/
theorem processFile_isWorkOn (env : SearchEnv) (symbolId : String) (i : Nat)
    (fileName other : String) (e : Event) (he : e ∈ processFile env symbolId i fileName)
    (hw : e.isWorkOn other = true) :
    other = fileName
      ∧ ∀ previousDoc, env.snapshotValue fileName = some previousDoc →
          symbolId ∈ previousDoc.identifiers := by
  unfold processFile at he
  have hprev : ∀ (skip : Bool),
      skip = (match env.snapshotValue fileName with
        | some previousDoc => (findIdentifier previousDoc symbolId).isNone
        | none => false) →
      skip = false →
      ∀ previousDoc, env.snapshotValue fileName = some previousDoc →
          symbolId ∈ previousDoc.identifiers := by
    intro skip hs hf previousDoc hp
    rw [hp] at hs
    simp only at hs
    rw [hf] at hs
    by_contra hn
    rw [(findIdentifier_eq_none previousDoc symbolId).mpr hn] at hs
    simp at hs
  generalize hskip : (match env.snapshotValue fileName with
        | some previousDoc => (findIdentifier previousDoc symbolId).isNone
        | none => false) = skip at he
  cases skip with
  | true =>
    simp at he
    subst he
    simp [Event.isWorkOn] at hw
  | false =>
    refine ⟨?_, hprev false hskip.symm rfl⟩
    simp only [Bool.false_eq_true, if_false] at he
    have hopening : ∀ e2 ∈ (match env.wl.lookup fileName with
        | some _ => []
        | none => [Event.openFile fileName (env.readFile fileName).isSome]),
        e2.isWorkOn other = true → other = fileName := by
      intro e2 h2 hw2
      split at h2
      · simp at h2
      · simp at h2
        subst h2
        simpa [Event.isWorkOn, eq_comm] using hw2
    cases hsrc : readSource env fileName with
    | none =>
      rw [hsrc] at he
      simp only [List.mem_cons] at he
      rcases he with he | he
      · subst he
        simp [Event.isWorkOn] at hw
      · exact hopening e he hw
    | some source =>
      rw [hsrc] at he
      simp only at he
      cases hfind : findIdentifier (env.documentFromSource source fileName) symbolId with
      | none =>
        rw [hfind] at he
        simp only [List.mem_cons, List.mem_append, List.mem_singleton, List.not_mem_nil,
          or_false] at he
        rcases he with (he | he) | he
        · subst he
          simp [Event.isWorkOn] at hw
        · exact hopening e he hw
        · subst he
          simpa [Event.isWorkOn, eq_comm] using hw
      | some id =>
        rw [hfind] at he
        simp only [List.mem_cons, List.mem_append, List.mem_map, List.mem_singleton,
          List.not_mem_nil, or_false] at he
        rcases he with ((he | he) | (he | he)) | he
        · subst he
          simp [Event.isWorkOn] at hw
        · exact hopening e he hw
        · subst he
          simpa [Event.isWorkOn, eq_comm] using hw
        · subst he
          simpa [Event.isWorkOn, eq_comm] using hw
        · obtain ⟨r, _, hr⟩ := he
          subst hr
          simpa [Event.isWorkOn, eq_comm] using hw

/-- The events of one iteration that are a run of the visitor or a result are
for the file of the iteration, whose source was read and has the identifier
among its tokens. -/
theorem processFile_isVisitOf (env : SearchEnv) (symbolId : String) (i : Nat)
    (fileName other : String) (e : Event) (he : e ∈ processFile env symbolId i fileName)
    (hv : e.isVisitOf other = true) :
    other = fileName
      ∧ ∃ source, readSource env fileName = some source ∧ symbolId ∈ env.tokenize source := by
  unfold processFile at he
  generalize (match env.snapshotValue fileName with
        | some previousDoc => (findIdentifier previousDoc symbolId).isNone
        | none => false) = skip at he
  cases skip with
  | true =>
    simp at he
    subst he
    simp [Event.isVisitOf] at hv
  | false =>
    simp only [Bool.false_eq_true, if_false] at he
    have hopening : ∀ e2 ∈ (match env.wl.lookup fileName with
        | some _ => []
        | none => [Event.openFile fileName (env.readFile fileName).isSome]),
        e2.isVisitOf other = false := by
      intro e2 h2
      split at h2
      · simp at h2
      · simp at h2
        subst h2
        rfl
    cases hsrc : readSource env fileName with
    | none =>
      rw [hsrc] at he
      simp only [List.mem_cons] at he
      rcases he with he | he
      · subst he
        simp [Event.isVisitOf] at hv
      · rw [hopening e he] at hv
        cases hv
    | some source =>
      rw [hsrc] at he
      simp only at he
      cases hfind : findIdentifier (env.documentFromSource source fileName) symbolId with
      | none =>
        rw [hfind] at he
        simp only [List.mem_cons, List.mem_append, List.mem_singleton, List.not_mem_nil,
          or_false] at he
        rcases he with (he | he) | he
        · subst he
          simp [Event.isVisitOf] at hv
        · rw [hopening e he] at hv
          cases hv
        · subst he
          simp [Event.isVisitOf] at hv
      | some id =>
        have hmem : symbolId ∈ env.tokenize source := by
          have h := (findIdentifier_isSome (env.documentFromSource source fileName) symbolId).mp
            (by rw [hfind]; rfl)
          exact h
        rw [hfind] at he
        simp only [List.mem_cons, List.mem_append, List.mem_map, List.mem_singleton,
          List.not_mem_nil, or_false] at he
        rcases he with ((he | he) | (he | he)) | he
        · subst he
          simp [Event.isVisitOf] at hv
        · rw [hopening e he] at hv
          cases hv
        · subst he
          simp [Event.isVisitOf] at hv
        · subst he
          exact ⟨by simpa [Event.isVisitOf, eq_comm] using hv, source, rfl, hmem⟩
        · obtain ⟨r, _, hr⟩ := he
          subst hr
          exact ⟨by simpa [Event.isVisitOf, eq_comm] using hv, source, rfl, hmem⟩

theorem find_helper_events_mem (env : SearchEnv) (symbolId : String) (files : List String)
    (e : Event)
    (he : e ∈ Event.setProgressRange 0 files.length :: searchLoop env symbolId 0 files
      ++ [Event.setProgressValue files.length]) :
    e = Event.setProgressRange 0 files.length ∨ e = Event.setProgressValue files.length
      ∨ ∃ j fileName, fileName ∈ files ∧ e ∈ processFile env symbolId j fileName := by
  simp only [List.mem_cons, List.mem_append, List.mem_singleton, List.not_mem_nil,
    or_false] at he
  rcases he with (he | he) | he
  · exact Or.inl he
  · exact Or.inr (Or.inr (searchLoop_mem env symbolId e files 0 he))
  · exact Or.inr (Or.inl he)

/-- C9: in a run of `find_helper`, a file whose document in the snapshot does
not have the identifier of the target in its identifier table is not opened,
its source is not tokenized, the visitor is not run on it and no result is
reported for it; and for a file whose source, once read, lacks the identifier
among its tokens, the visitor is not run and no result is reported. -/
theorem find_helper_skips (env : SearchEnv) (symbol : Symbol) (symbolId : String)
    (hid : symbol.identifier = some symbolId) :
    ∃ run, find_helper env symbol = some run
      ∧ (∀ fileName previousDoc, env.snapshotValue fileName = some previousDoc →
          symbolId ∉ previousDoc.identifiers →
          ∀ e ∈ run.events, e.isWorkOn fileName = false)
      ∧ (∀ fileName source, readSource env fileName = some source →
          symbolId ∉ env.tokenize source →
          ∀ e ∈ run.events, e.isVisitOf fileName = false) := by
  refine ⟨_, find_helper_eq env symbol symbolId hid, ?_, ?_⟩
  · intro fileName previousDoc hprev hnot e he
    rcases find_helper_events_mem env symbolId _ e he with h | h | ⟨j, f, _, h⟩
    · subst h
      rfl
    · subst h
      rfl
    · cases hw : e.isWorkOn fileName with
      | false => rfl
      | true =>
        obtain ⟨hf, hp⟩ := processFile_isWorkOn env symbolId j f fileName e h hw
        subst hf
        exact absurd (hp previousDoc hprev) hnot
  · intro fileName source hread hnot e he
    rcases find_helper_events_mem env symbolId _ e he with h | h | ⟨j, f, _, h⟩
    · subst h
      rfl
    · subst h
      rfl
    · cases hv : e.isVisitOf fileName with
      | false => rfl
      | true =>
        obtain ⟨hf, src, hsrc, hmem⟩ := processFile_isVisitOf env symbolId j f fileName e h hv
        subst hf
        rw [hread] at hsrc
        cases hsrc
        exact absurd hmem hnot

theorem find_helper_skips_witness :
    ∃ run, find_helper sampleEnv helperA = some run
      ∧ (∀ e ∈ run.events, e.isWorkOn "c.cpp" = false)
      ∧ (∀ e ∈ run.events, e.isVisitOf "b.cpp" = false) := by
  obtain ⟨run, h1, h2, h3⟩ := find_helper_skips sampleEnv helperA "helper" rfl
  exact ⟨run, h1, h2 "c.cpp" docC rfl (by decide), h3 "b.cpp" "Foo f;".data rfl (by decide)⟩

/-- C10 as stated fails: `c.cpp` is a candidate file of the search for
`helper`, its working copy is read as its source and has `helper` among its
tokens, and the search is not cancelled; the document of the snapshot for
`c.cpp` lacks the identifier, and `find_helper` does no work on the file. -/
theorem find_helper_skips_stale_document :
    ∃ run, find_helper sampleEnv helperA = some run
      ∧ "c.cpp" ∈ run.files
      ∧ (∀ i, sampleEnv.isCanceled i = false)
      ∧ sampleEnv.wl.lookup "c.cpp" = some "int g; helper();"
      ∧ readSource sampleEnv "c.cpp" = some "int g; helper();".data
      ∧ "helper" ∈ sampleEnv.tokenize "int g; helper();".data
      ∧ Event.runProcess "c.cpp" "int g; helper();".data ∉ run.events
      ∧ ∀ e ∈ run.events, e.isWorkOn "c.cpp" = false := by
  refine ⟨_, rfl, by decide, fun _ => rfl, rfl, rfl, by decide, by decide, by decide⟩

theorem processFile_runs (env : SearchEnv) (symbolId : String) (i : Nat) (fileName : String)
    (source : List Char) (hread : readSource env fileName = some source)
    (htok : symbolId ∈ env.tokenize source)
    (hprev : ∀ previousDoc, env.snapshotValue fileName = some previousDoc →
      symbolId ∈ previousDoc.identifiers) :
    ∃ id, findIdentifier (env.documentFromSource source fileName) symbolId = some id
      ∧ Event.tokenize fileName source ∈ processFile env symbolId i fileName
      ∧ Event.runProcess fileName source ∈ processFile env symbolId i fileName
      ∧ ∀ r ∈ env.process (env.documentFromSource source fileName) id,
          Event.reportResult fileName r ∈ processFile env symbolId i fileName := by
  have hskip : (match env.snapshotValue fileName with
        | some previousDoc => (findIdentifier previousDoc symbolId).isNone
        | none => false) = false := by
    cases hp : env.snapshotValue fileName with
    | none => rfl
    | some previousDoc =>
      have h := (findIdentifier_isSome previousDoc symbolId).mpr (hprev previousDoc hp)
      simp only
      cases hf : findIdentifier previousDoc symbolId with
      | none => rw [hf] at h; cases h
      | some _ => rfl
  have hsome : (findIdentifier (env.documentFromSource source fileName) symbolId).isSome
      = true :=
    (findIdentifier_isSome (env.documentFromSource source fileName) symbolId).mpr htok
  cases hfind : findIdentifier (env.documentFromSource source fileName) symbolId with
  | none => rw [hfind] at hsome; cases hsome
  | some id =>
    refine ⟨id, rfl, ?_, ?_, ?_⟩
    · unfold processFile
      simp [hskip, hread, hfind]
    · unfold processFile
      simp [hskip, hread, hfind]
    · intro r hr
      unfold processFile
      simp only [hskip, hread, hfind, Bool.false_eq_true, if_false]
      exact List.mem_append_right _ (List.mem_map_of_mem _ hr)

theorem searchLoop_processFile (env : SearchEnv) (symbolId : String)
    (hcancel : ∀ i, env.isCanceled i = false) (fileName : String) :
    ∀ (files : List String) (i : Nat), fileName ∈ files →
      ∃ j, ∀ e ∈ processFile env symbolId j fileName, e ∈ searchLoop env symbolId i files
  | [], _, h => by simp at h
  | f :: rest, i, h => by
    rcases List.mem_cons.mp h with h1 | h2
    · subst h1
      refine ⟨i, ?_⟩
      intro e he
      unfold searchLoop
      simp only [hcancel i, Bool.false_eq_true, if_false]
      exact List.mem_append_left _ he
    · obtain ⟨j, hj⟩ := searchLoop_processFile env symbolId hcancel fileName rest (i + 1) h2
      refine ⟨j, ?_⟩
      intro e he
      unfold searchLoop
      simp only [hcancel i, Bool.false_eq_true, if_false]
      exact List.mem_append_right _ (hj e he)

/-- C10, amended: when the search is not cancelled, for every candidate file
whose source can be read (the working copy when there is one, else the file)
and has the identifier of the target among its tokens, and for which the
snapshot has no document or a document with the identifier in its table,
`find_helper` tokenizes that source, runs the visitor on the document built
from it and reports the results of the run. -/
theorem find_helper_visits (env : SearchEnv) (symbol : Symbol) (symbolId : String)
    (hid : symbol.identifier = some symbolId)
    (hcancel : ∀ i, env.isCanceled i = false) :
    ∃ run, find_helper env symbol = some run
      ∧ ∀ fileName ∈ run.files, ∀ source, readSource env fileName = some source →
          symbolId ∈ env.tokenize source →
          (∀ previousDoc, env.snapshotValue fileName = some previousDoc →
            symbolId ∈ previousDoc.identifiers) →
          Event.tokenize fileName source ∈ run.events
            ∧ Event.runProcess fileName source ∈ run.events
            ∧ ∃ id, findIdentifier (env.documentFromSource source fileName) symbolId = some id
                ∧ ∀ r ∈ env.process (env.documentFromSource source fileName) id,
                    Event.reportResult fileName r ∈ run.events := by
  refine ⟨_, find_helper_eq env symbol symbolId hid, ?_⟩
  intro fileName hfile source hread htok hprev
  obtain ⟨j, hj⟩ := searchLoop_processFile env symbolId hcancel fileName _ 0 hfile
  obtain ⟨id, hfind, h1, h2, h3⟩ := processFile_runs env symbolId j fileName source hread htok hprev
  have hsub : ∀ e ∈ processFile env symbolId j fileName,
      e ∈ Event.setProgressRange 0 (candidateFiles env symbol symbolId).length ::
        searchLoop env symbolId 0 (candidateFiles env symbol symbolId)
        ++ [Event.setProgressValue (candidateFiles env symbol symbolId).length] := by
    intro e he
    exact List.mem_append_left _ (List.mem_cons_of_mem _ (hj e he))
  exact ⟨hsub _ h1, hsub _ h2, id, hfind, fun r hr => hsub _ (h3 r hr)⟩

theorem find_helper_visits_witness :
    ∃ run, find_helper sampleEnv fwdFoo = some run
      ∧ Event.tokenize "b.cpp" "Foo f;".data ∈ run.events
      ∧ Event.runProcess "b.cpp" "Foo f;".data ∈ run.events
      ∧ ∃ id, findIdentifier (sampleEnv.documentFromSource "Foo f;".data "b.cpp") "Foo" = some id
          ∧ ∀ r ∈ sampleEnv.process (sampleEnv.documentFromSource "Foo f;".data "b.cpp") id,
              Event.reportResult "b.cpp" r ∈ run.events := by
  obtain ⟨run, h1, h2⟩ := find_helper_visits sampleEnv fwdFoo "Foo" rfl (fun _ => rfl)
  have hfiles : "b.cpp" ∈ run.files := by
    have h : run = _ := (Option.some.inj h1).symm
    subst h
    decide
  exact ⟨run, h1, h2 "b.cpp" hfiles "Foo f;".data rfl (by decide)
    (by
      intro previousDoc hp
      have h : previousDoc = docB := (Option.some.inj hp).symm
      subst h
      decide)⟩

/-! ## Cancellation of the search -/

theorem occurrences_append (a b : List Event) :
    occurrences (a ++ b) = occurrences a ++ occurrences b := by
  induction a with
  | nil => rfl
  | cons e rest ih =>
    cases e <;> simp [occurrences, ih]

theorem iterations_cons (env : SearchEnv) (symbolId : String) (i : Nat) (fileName : String)
    (files : List String) :
    iterations env symbolId i (fileName :: files)
      = processFile env symbolId i fileName ++ iterations env symbolId (i + 1) files := by
  simp [iterations, List.enumFrom]

theorem iterations_nil (env : SearchEnv) (symbolId : String) (i : Nat) :
    iterations env symbolId i [] = [] := by
  simp [iterations]

theorem searchLoop_never (env : SearchEnv) (symbolId : String)
    (hnever : ∀ j, env.isCanceled j = false) :
    ∀ (files : List String) (i : Nat),
      searchLoop env symbolId i files = iterations env symbolId i files
  | [], i => by simp [searchLoop, iterations_nil]
  | f :: rest, i => by
    rw [iterations_cons, searchLoop]
    simp only [hnever i, Bool.false_eq_true, if_false]
    rw [searchLoop_never env symbolId hnever rest (i + 1)]

theorem searchLoop_cancelled (env : SearchEnv) (symbolId : String) (k : Nat)
    (hk : env.isCanceled k = true) :
    ∀ (files : List String) (i : Nat), i ≤ k →
      (∀ j, i ≤ j → j < k → env.isCanceled j = false) →
      searchLoop env symbolId i files = iterations env symbolId i (files.take (k - i))
  | [], i, _, _ => by simp [searchLoop, iterations_nil]
  | f :: rest, i, hik, hbefore => by
    rw [searchLoop]
    by_cases hi : i = k
    · subst hi
      simp [hk, iterations_nil]
    · have hlt : i < k := Nat.lt_of_le_of_ne hik hi
      have hsucc : k - i = (k - (i + 1)) + 1 := by omega
      rw [hsucc, List.take_succ_cons, iterations_cons]
      simp only [hbefore i (Nat.le_refl i) hlt, Bool.false_eq_true, if_false]
      rw [searchLoop_cancelled env symbolId k hk rest (i + 1) (by omega)
        (fun j hj1 hj2 => hbefore j (by omega) hj2)]

theorem iterations_append (env : SearchEnv) (symbolId : String) :
    ∀ (a : List String) (i : Nat) (b : List String),
      iterations env symbolId i (a ++ b)
        = iterations env symbolId i a ++ iterations env symbolId (i + a.length) b
  | [], i, b => by simp [iterations_nil]
  | f :: rest, i, b => by
    rw [List.cons_append, iterations_cons, iterations_cons,
      iterations_append env symbolId rest (i + 1) b, List.append_assoc]
    have h : i + 1 + rest.length = i + (f :: rest).length := by
      simp only [List.length_cons]
      omega
    rw [h]

/-- C11: when `isCanceled` is true at the start of the iteration for the file
of index `k` and false before, the events of `find_helper` between the two
calls on the progress are those of the iterations for the files of the
indexes below `k`, nothing is done for a file of the index `k` or above, and
the results reported are those of these iterations: a prefix of the results
the search reports when it is never cancelled. -/
theorem find_helper_cancelled (env : SearchEnv) (symbol : Symbol) (symbolId : String)
    (hid : symbol.identifier = some symbolId) (k : Nat)
    (hk : env.isCanceled k = true) (hbefore : ∀ j, j < k → env.isCanceled j = false) :
    ∃ run full, find_helper env symbol = some run
      ∧ find_helper env.neverCanceled symbol = some full
      ∧ run.files = full.files
      ∧ run.events
          = Event.setProgressRange 0 run.files.length ::
              iterations env symbolId 0 (run.files.take k)
            ++ [Event.setProgressValue run.files.length]
      ∧ full.events
          = Event.setProgressRange 0 run.files.length ::
              (iterations env symbolId 0 (run.files.take k)
                ++ iterations env symbolId k (run.files.drop k))
            ++ [Event.setProgressValue run.files.length]
      ∧ occurrences run.events = occurrences (iterations env symbolId 0 (run.files.take k))
      ∧ occurrences run.events <+: occurrences full.events := by
  have hfiles : candidateFiles env.neverCanceled symbol symbolId
      = candidateFiles env symbol symbolId := rfl
  have hloop : searchLoop env symbolId 0 (candidateFiles env symbol symbolId)
      = iterations env symbolId 0 ((candidateFiles env symbol symbolId).take k) := by
    have h := searchLoop_cancelled env symbolId k hk (candidateFiles env symbol symbolId) 0
      (Nat.zero_le k) (fun j _ hj => hbefore j hj)
    simpa using h
  have hfull : searchLoop env.neverCanceled symbolId 0 (candidateFiles env symbol symbolId)
      = iterations env symbolId 0 ((candidateFiles env symbol symbolId).take k)
        ++ iterations env symbolId k ((candidateFiles env symbol symbolId).drop k) := by
    rw [searchLoop_never env.neverCanceled symbolId (fun _ => rfl)]
    have h := iterations_append env symbolId ((candidateFiles env symbol symbolId).take k) 0
      ((candidateFiles env symbol symbolId).drop k)
    rw [List.take_append_drop] at h
    by_cases hlen : k ≤ (candidateFiles env symbol symbolId).length
    · rw [List.length_take, Nat.min_eq_left hlen, Nat.zero_add] at h
      exact h
    · have hdrop : (candidateFiles env symbol symbolId).drop k = [] :=
        List.drop_eq_nil_of_le (by omega)
      rw [hdrop, iterations_nil] at h
      rw [hdrop, iterations_nil]
      exact h
  refine ⟨_, _, find_helper_eq env symbol symbolId hid,
    find_helper_eq env.neverCanceled symbol symbolId hid, rfl, ?_, ?_, ?_, ?_⟩
  · simp only [hloop]
  · simp only [hfiles, hfull]
  · simp only [hloop]
    simp [occurrences_append, occurrences]
  · simp only [hloop, hfiles, hfull]
    have h1 : ∀ (a : List Event) (n : Nat),
        occurrences (Event.setProgressRange 0 n :: a ++ [Event.setProgressValue n])
          = occurrences a := by
      intro a n
      simp [occurrences_append, occurrences]
    rw [h1, h1, occurrences_append]
    exact List.prefix_append _ _

theorem find_helper_cancelled_witness :
    ∃ run full, find_helper sampleEnvCancelled helperA = some run
      ∧ find_helper sampleEnvCancelled.neverCanceled helperA = some full
      ∧ run.files = ["a.h", "b.cpp", "a.h", "b.cpp", "a.h"]
      ∧ occurrences run.events
          = occurrences (iterations sampleEnvCancelled "helper" 0 ["a.h"])
      ∧ (occurrences run.events).length = 1
      ∧ (occurrences full.events).length = 5
      ∧ occurrences run.events <+: occurrences full.events := by
  obtain ⟨run, full, h1, h2, _, _, _, h6, h7⟩ :=
    find_helper_cancelled sampleEnvCancelled helperA "helper" rfl 1 (by decide)
      (by
        intro j hj
        have h0 : j = 0 := by omega
        subst h0
        decide)
  have hrun : run = _ := (Option.some.inj h1).symm
  have hfull : full = _ := (Option.some.inj h2).symm
  refine ⟨run, full, h1, h2, ?_, ?_, ?_, ?_, h7⟩
  · subst hrun
    decide
  · rw [h6]
    subst hrun
    rfl
  · subst hrun
    decide
  · subst hfull
    decide

/-! ## The walk of `checkScope` -/

theorem enclosing_none (heap : Heap) (k : Nat) : enclosing heap k none = none := by
  cases k <;> rfl

theorem not_chainsMeet_none_left (heap : Heap) (isEqualTo : NameVal → NameVal → Bool)
    (b : Option SymPtr) : ¬ ChainsMeet heap isEqualTo none b := by
  rintro ⟨k, x, y, hx, _⟩
  rw [enclosing_none] at hx
  cases hx

theorem not_chainsMeet_none_right (heap : Heap) (isEqualTo : NameVal → NameVal → Bool)
    (a : Option SymPtr) : ¬ ChainsMeet heap isEqualTo a none := by
  rintro ⟨k, x, y, _, hy, _⟩
  rw [enclosing_none] at hy
  cases hy

/-- The chains of two symbols with different scopes meet exactly when their
names match and the chains of their enclosing symbols meet. -/
theorem chainsMeet_step (heap : Heap) (isEqualTo : NameVal → NameVal → Bool) (a b : SymPtr)
    (hscope : (heap a).scope ≠ (heap b).scope) :
    ChainsMeet heap isEqualTo (some a) (some b)
      ↔ namesMatch heap isEqualTo a b = true
        ∧ ChainsMeet heap isEqualTo (heap a).enclosingSymbol (heap b).enclosingSymbol := by
  constructor
  · rintro ⟨k, x, y, hx, hy, hs, hnames⟩
    cases k with
    | zero =>
      simp only [enclosing] at hx hy
      cases hx
      cases hy
      exact absurd hs hscope
    | succ k =>
      refine ⟨hnames 0 (Nat.succ_pos k) a b rfl rfl, k, x, y, hx, hy, hs, ?_⟩
      intro j hj u v hu hv
      exact hnames (j + 1) (Nat.succ_lt_succ hj) u v hu hv
  · rintro ⟨hn, k, x, y, hx, hy, hs, hnames⟩
    refine ⟨k + 1, x, y, hx, hy, hs, ?_⟩
    intro j hj u v hu hv
    cases j with
    | zero =>
      simp only [enclosing] at hu hv
      cases hu
      cases hv
      exact hn
    | succ j => exact hnames j (Nat.lt_of_succ_lt_succ hj) u v hu hv

theorem checkScope_some_some (heap : Heap) (isEqualTo : NameVal → NameVal → Bool)
    (fuel : Nat) (a b : SymPtr) :
    checkScope heap isEqualTo (fuel + 1) (some a) (some b)
      = if (heap a).scope = (heap b).scope then some true
        else if namesMatch heap isEqualTo a b = true then
          checkScope heap isEqualTo fuel (heap a).enclosingSymbol (heap b).enclosingSymbol
        else some false := by
  by_cases hs : (heap a).scope = (heap b).scope
  · simp [checkScope, hs]
  · cases ha : (heap a).name with
    | none => cases hb : (heap b).name <;> simp [checkScope, namesMatch, hs, ha, hb]
    | some n =>
      cases hb : (heap b).name with
      | none => simp [checkScope, namesMatch, hs, ha, hb]
      | some m => cases he : isEqualTo n m <;> simp [checkScope, namesMatch, hs, ha, hb, he]

theorem checkScope_zero_some_some (heap : Heap) (isEqualTo : NameVal → NameVal → Bool)
    (a b : SymPtr) :
    checkScope heap isEqualTo 0 (some a) (some b)
      = if (heap a).scope = (heap b).scope then some true
        else if namesMatch heap isEqualTo a b = true then none
        else some false := by
  by_cases hs : (heap a).scope = (heap b).scope
  · simp [checkScope, hs]
  · cases ha : (heap a).name with
    | none => cases hb : (heap b).name <;> simp [checkScope, namesMatch, hs, ha, hb]
    | some n =>
      cases hb : (heap b).name with
      | none => simp [checkScope, namesMatch, hs, ha, hb]
      | some m => cases he : isEqualTo n m <;> simp [checkScope, namesMatch, hs, ha, hb, he]

theorem checkScope_none_left (heap : Heap) (isEqualTo : NameVal → NameVal → Bool)
    (fuel : Nat) (b : Option SymPtr) : checkScope heap isEqualTo fuel none b = some false := by
  cases fuel <;> simp [checkScope]

theorem checkScope_none_right (heap : Heap) (isEqualTo : NameVal → NameVal → Bool)
    (fuel : Nat) (a : Option SymPtr) : checkScope heap isEqualTo fuel a none = some false := by
  cases fuel <;> cases a <;> simp [checkScope]

theorem checkScope_of_finite (heap : Heap) (isEqualTo : NameVal → NameVal → Bool) :
    ∀ (n : Nat) (a b : Option SymPtr),
      enclosing heap n a = none ∨ enclosing heap n b = none →
      ∀ fuel, n ≤ fuel →
        ∃ r, checkScope heap isEqualTo fuel a b = some r
          ∧ (r = true ↔ ChainsMeet heap isEqualTo a b)
  | n, none, b, _, fuel, _ =>
    ⟨false, checkScope_none_left heap isEqualTo fuel b,
      by simpa using not_chainsMeet_none_left heap isEqualTo b⟩
  | n, some a, none, _, fuel, _ =>
    ⟨false, checkScope_none_right heap isEqualTo fuel (some a),
      by simpa using not_chainsMeet_none_right heap isEqualTo (some a)⟩
  | 0, some a, some b, h, _, _ => by
    simp [enclosing] at h
  | n + 1, some a, some b, h, fuel, hfuel => by
    obtain ⟨fuel, rfl⟩ : ∃ f, fuel = f + 1 := ⟨fuel - 1, by omega⟩
    rw [checkScope_some_some]
    by_cases hs : (heap a).scope = (heap b).scope
    · refine ⟨true, by simp [hs], ?_⟩
      simp only [true_iff]
      exact ⟨0, a, b, rfl, rfl, hs, fun j hj => absurd hj (Nat.not_lt_zero j)⟩
    · simp only [hs, if_false]
      by_cases hn : namesMatch heap isEqualTo a b = true
      · simp only [hn, if_true]
        obtain ⟨r, hr, hiff⟩ := checkScope_of_finite heap isEqualTo n
          (heap a).enclosingSymbol (heap b).enclosingSymbol h fuel (by omega)
        refine ⟨r, hr, ?_⟩
        rw [hiff, chainsMeet_step heap isEqualTo a b hs]
        simp [hn]
      · simp only [hn, if_false]
        refine ⟨false, rfl, ?_⟩
        rw [chainsMeet_step heap isEqualTo a b hs]
        simp [hn]

/-- C15: for two symbols one of whose chains of enclosing symbols ends,
`checkScope` returns with every fuel from the length of that chain on, and it
returns true exactly when at some level the enclosing symbols of both exist
and have the identical scope while at every level below their names are
equal or both missing; so it returns false for a null symbol and for a chain
that ends before such a level. -/
theorem checkScope_iff_chainsMeet (heap : Heap) (isEqualTo : NameVal → NameVal → Bool)
    (a b : Option SymPtr) (n : Nat)
    (hfinite : enclosing heap n a = none ∨ enclosing heap n b = none) :
    ∀ fuel, n ≤ fuel →
      ∃ r, checkScope heap isEqualTo fuel a b = some r
        ∧ (r = true
            ↔ ∃ k x y, enclosing heap k a = some x ∧ enclosing heap k b = some y
                ∧ (heap x).scope = (heap y).scope
                ∧ ∀ j, j < k → ∀ u v, enclosing heap j a = some u →
                    enclosing heap j b = some v → namesMatch heap isEqualTo u v = true) :=
  checkScope_of_finite heap isEqualTo n a b hfinite

theorem checkScope_iff_chainsMeet_witness :
    (∃ r, checkScope nestedHeap (fun a b => a == b) 3 (some 1) (some 2) = some r
        ∧ (r = true
            ↔ ∃ k x y, enclosing nestedHeap k (some 1) = some x
                ∧ enclosing nestedHeap k (some 2) = some y
                ∧ (nestedHeap x).scope = (nestedHeap y).scope
                ∧ ∀ j, j < k → ∀ u v, enclosing nestedHeap j (some 1) = some u →
                    enclosing nestedHeap j (some 2) = some v →
                    namesMatch nestedHeap (fun a b => a == b) u v = true))
      ∧ checkScope nestedHeap (fun a b => a == b) 3 (some 1) (some 2) = some true
      ∧ checkScope nestedHeap (fun a b => a == b) 3 (some 1) (some 7) = some false :=
  ⟨checkScope_iff_chainsMeet nestedHeap (fun a b => a == b) (some 1) (some 2) 3
      (Or.inl (by decide)) 3 (Nat.le_refl 3),
    by decide, by decide⟩

/-! ## The line of a token -/

theorem lineBegin_le (source : List Char) :
    ∀ i, byteAt source i ≠ '\n' → lineBegin source i ≤ i
  | 0, h => by simp [lineBegin, h]
  | i + 1, h => by
    rw [lineBegin]
    simp only [h, if_false]
    by_cases hi : byteAt source i = '\n'
    · cases i with
      | zero => simp [lineBegin, hi]
      | succ i => simp [lineBegin, hi]
    · exact Nat.le_succ_of_le (lineBegin_le source i hi)

theorem lineBegin_no_newline (source : List Char) :
    ∀ i, byteAt source i ≠ '\n' →
      ∀ j, lineBegin source i ≤ j → j ≤ i → byteAt source j ≠ '\n'
  | 0, h, j, _, hj => by
    have : j = 0 := by omega
    subst this
    exact h
  | i + 1, h, j, hb, hj => by
    rw [lineBegin] at hb
    simp only [h, if_false] at hb
    by_cases hji : j = i + 1
    · subst hji
      exact h
    · by_cases hi : byteAt source i = '\n'
      · exfalso
        cases i with
        | zero =>
          simp [lineBegin, hi] at hb
          omega
        | succ i =>
          simp [lineBegin, hi] at hb
          omega
      · exact lineBegin_no_newline source i hi j hb (by omega)

theorem lineBegin_after_newline (source : List Char) :
    ∀ i, lineBegin source i = 0 ∨ byteAt source (lineBegin source i - 1) = '\n'
  | 0 => by
    by_cases h : byteAt source 0 = '\n'
    · right
      simp [lineBegin, h]
    · left
      simp [lineBegin, h]
  | i + 1 => by
    rw [lineBegin]
    by_cases h : byteAt source (i + 1) = '\n'
    · right
      simp [h]
    · simp only [h, if_false]
      exact lineBegin_after_newline source i

theorem scanLine_spec :
    ∀ (rest : List Char),
      scanLine rest ≤ rest.length
        ∧ (∀ j, j < scanLine rest → rest.getD j (Char.ofNat 0) ≠ '\n')
        ∧ (scanLine rest = rest.length
            ∨ rest.getD (scanLine rest) (Char.ofNat 0) = '\n'
            ∨ rest.getD (scanLine rest) (Char.ofNat 0) = Char.ofNat 0)
  | [] => by simp [scanLine]
  | c :: rest => by
    obtain ⟨h1, h2, h3⟩ := scanLine_spec rest
    by_cases hc : c = Char.ofNat 0 ∨ c = '\n'
    · rw [scanLine]
      simp only [hc, if_true]
      refine ⟨Nat.zero_le _, fun j hj => absurd hj (Nat.not_lt_zero j), ?_⟩
      right
      rcases hc with hc | hc
      · right
        simp [hc]
      · left
        simp [hc]
    · rw [scanLine]
      simp only [hc, if_false]
      refine ⟨by simp; omega, ?_, ?_⟩
      · intro j hj
        cases j with
        | zero =>
          simp only [List.getD_cons_zero]
          intro h
          exact hc (Or.inr h)
        | succ j =>
          simp only [List.getD_cons_succ]
          exact h2 j (by omega)
      · rcases h3 with h3 | h3 | h3
        · left
          simp [h3]
        · right
          left
          simpa using h3
        · right
          right
          simpa using h3

theorem byteAt_drop (source : List Char) (m j : Nat) :
    (source.drop m).getD j (Char.ofNat 0) = byteAt source (m + j) := by
  simp [byteAt, List.getD_eq_getElem?_getD, List.getElem?_drop]

theorem byteAt_ne_nul (source : List Char) (hnul : ∀ c ∈ source, c ≠ Char.ofNat 0) (j : Nat)
    (hj : j < source.length) : byteAt source j ≠ Char.ofNat 0 := by
  have h : byteAt source j = source[j] := by
    simp [byteAt, List.getD_eq_getElem?_getD, List.getElem?_eq_getElem hj]
  rw [h]
  exact hnul _ (List.getElem_mem _)

theorem mem_drop_take (source : List Char) (b n : Nat) (c : Char)
    (hc : c ∈ (source.drop b).take n) : ∃ j, b ≤ j ∧ j < b + n ∧ byteAt source j = c ∧
      j < source.length := by
  obtain ⟨k, hk, hget⟩ := List.mem_iff_getElem.mp hc
  have hk2 : k < n ∧ k < (source.drop b).length := by
    simpa [List.length_take] using hk
  rw [List.getElem_take, List.getElem_drop] at hget
  have hlen : b + k < source.length := by
    have := hk2.2
    simp at this
    omega
  refine ⟨b + k, by omega, by omega, ?_, hlen⟩
  simp [byteAt, List.getD_eq_getElem?_getD, List.getElem?_eq_getElem hlen, hget]

/-- C16: for a source buffer without NUL and a token whose offset is inside
it, on a byte that is not a newline, `matchingLine` returns the bytes from
`b` to `e`, where `b` is 0 or just behind a newline, `e` is the end of the
buffer or on a newline, there is no newline from `b` to `e`, and the offset
lies from `b` to `e`: the line of the token, without a newline. -/
theorem matchingLine_line (source : List Char) (tk : Token)
    (hnul : ∀ c ∈ source, c ≠ Char.ofNat 0) (hin : tk.offset < source.length)
    (hnl : byteAt source tk.offset ≠ '\n') :
    ∃ b e, b ≤ tk.offset ∧ tk.offset < e ∧ e ≤ source.length
      ∧ matchingLine source tk = (source.drop b).take (e - b)
      ∧ (matchingLine source tk).length = e - b
      ∧ (b = 0 ∨ byteAt source (b - 1) = '\n')
      ∧ (e = source.length ∨ byteAt source e = '\n')
      ∧ (∀ j, b ≤ j → j < e → byteAt source j ≠ '\n')
      ∧ '\n' ∉ matchingLine source tk := by
  obtain ⟨h1, h2, h3⟩ := scanLine_spec (source.drop (lineBegin source tk.offset + 1))
  have hb := lineBegin_le source tk.offset hnl
  have hno := lineBegin_no_newline source tk.offset hnl
  have hlen : (source.drop (lineBegin source tk.offset + 1)).length
      = source.length - (lineBegin source tk.offset + 1) := by simp
  rw [hlen] at h1 h3
  simp only [byteAt_drop] at h2 h3
  have he : tk.offset
      < lineBegin source tk.offset + 1
        + scanLine (source.drop (lineBegin source tk.offset + 1)) := by
    by_contra hcon
    have hle : lineBegin source tk.offset + 1
        + scanLine (source.drop (lineBegin source tk.offset + 1)) ≤ tk.offset := by omega
    rcases h3 with h3 | h3 | h3
    · omega
    · exact hno _ (by omega) hle h3
    · exact byteAt_ne_nul source hnul _ (by omega) h3
  have hnone : ∀ j, lineBegin source tk.offset ≤ j →
      j < lineBegin source tk.offset + 1
        + scanLine (source.drop (lineBegin source tk.offset + 1)) →
      byteAt source j ≠ '\n' := by
    intro j hj1 hj2
    by_cases hjo : j ≤ tk.offset
    · exact hno j hj1 hjo
    · have h := h2 (j - (lineBegin source tk.offset + 1)) (by omega)
      have hidx : lineBegin source tk.offset + 1 + (j - (lineBegin source tk.offset + 1)) = j := by
        omega
      rw [hidx] at h
      exact h
  have hml : matchingLine source tk
      = (source.drop (lineBegin source tk.offset)).take
          (lineBegin source tk.offset + 1
            + scanLine (source.drop (lineBegin source tk.offset + 1))
            - lineBegin source tk.offset) := rfl
  refine ⟨lineBegin source tk.offset,
    lineBegin source tk.offset + 1
      + scanLine (source.drop (lineBegin source tk.offset + 1)),
    hb, he, by omega, hml, ?_, lineBegin_after_newline source tk.offset, ?_, hnone, ?_⟩
  · rw [hml, List.length_take, List.length_drop]
    omega
  · rcases h3 with h3 | h3 | h3
    · left
      omega
    · right
      exact h3
    · left
      by_contra hcon
      exact byteAt_ne_nul source hnul _ (by omega) h3
  · intro hmem
    rw [hml] at hmem
    obtain ⟨j, hj1, hj2, hj3, _⟩ := mem_drop_take source _ _ _ hmem
    exact hnone j hj1 (by omega) hj3

theorem matchingLine_line_witness :
    ∃ b e, b ≤ (sampleTokenAt 4).offset ∧ (sampleTokenAt 4).offset < e
      ∧ e ≤ sampleSource.length
      ∧ matchingLine sampleSource (sampleTokenAt 4) = (sampleSource.drop b).take (e - b)
      ∧ (matchingLine sampleSource (sampleTokenAt 4)).length = e - b
      ∧ (b = 0 ∨ byteAt sampleSource (b - 1) = '\n')
      ∧ (e = sampleSource.length ∨ byteAt sampleSource e = '\n')
      ∧ (∀ j, b ≤ j → j < e → byteAt sampleSource j ≠ '\n')
      ∧ '\n' ∉ matchingLine sampleSource (sampleTokenAt 4) :=
  matchingLine_line sampleSource (sampleTokenAt 4) (by decide) (by decide) (by decide)

theorem matchingLine_sample :
    matchingLine sampleSource (sampleTokenAt 4) = "Foo *p;".data
      ∧ matchingLine sampleSource (sampleTokenAt 10) = "p->Foo();".data := by
  decide

/-! ## The result reported for a token -/

/-- C17: for a token whose candidates are accepted, `reportResult` appends the
token index once to the references, with or without a future, and reports to
the future, when there is one, one result whose line is the start line of the
token, whose start of match is the start column less one for a positive
column and 0 for the column 0, and whose length of match is the length of the
token. -/
theorem reportResult_accepted (P : Process) (fuel : Nat) (tokenIndex : Nat)
    (candidates : List (Option SymPtr)) (st : State)
    (h : checkCandidates P.matcher fuel candidates = some true) :
    ∃ st2, reportResult P fuel tokenIndex candidates st = .ok st2
      ∧ st2.references = st.references ++ [tokenIndex]
      ∧ (P.future = true → st2.results = st.results ++ [searchResultAt P tokenIndex])
      ∧ (P.future = false → st2.results = st.results)
      ∧ (searchResultAt P tokenIndex).lineNumber = (P.getTokenStartPosition tokenIndex).1
      ∧ ((P.getTokenStartPosition tokenIndex).2 = 0 →
          (searchResultAt P tokenIndex).matchStart = 0)
      ∧ (0 < (P.getTokenStartPosition tokenIndex).2 →
          (searchResultAt P tokenIndex).matchStart + 1 = (P.getTokenStartPosition tokenIndex).2)
      ∧ (searchResultAt P tokenIndex).matchLength = (P.tokenAt tokenIndex).length := by
  refine ⟨reportResultAt P tokenIndex st, by simp [reportResult, h], rfl, ?_, ?_, rfl, ?_, ?_,
    rfl⟩
  · intro hf
    simp [reportResultAt, hf]
  · intro hf
    simp [reportResultAt, hf]
  · intro hc
    simp [searchResultAt, hc]
  · intro hc
    have hne : (P.getTokenStartPosition tokenIndex).2 ≠ 0 := by omega
    simp only [searchResultAt, hne, ne_eq, not_false_eq_true, if_true]
    omega

theorem reportResult_accepted_witness :
    ∃ st2, reportResult (sampleProcess.setTarget 1 (some 1)) 0 2 [some 1] sampleState = .ok st2
      ∧ st2.references = sampleState.references ++ [2]
      ∧ ((sampleProcess.setTarget 1 (some 1)).future = true →
          st2.results
            = sampleState.results ++ [searchResultAt (sampleProcess.setTarget 1 (some 1)) 2])
      ∧ ((sampleProcess.setTarget 1 (some 1)).future = false →
          st2.results = sampleState.results)
      ∧ (searchResultAt (sampleProcess.setTarget 1 (some 1)) 2).lineNumber
          = ((sampleProcess.setTarget 1 (some 1)).getTokenStartPosition 2).1
      ∧ (((sampleProcess.setTarget 1 (some 1)).getTokenStartPosition 2).2 = 0 →
          (searchResultAt (sampleProcess.setTarget 1 (some 1)) 2).matchStart = 0)
      ∧ (0 < ((sampleProcess.setTarget 1 (some 1)).getTokenStartPosition 2).2 →
          (searchResultAt (sampleProcess.setTarget 1 (some 1)) 2).matchStart + 1
            = ((sampleProcess.setTarget 1 (some 1)).getTokenStartPosition 2).2)
      ∧ (searchResultAt (sampleProcess.setTarget 1 (some 1)) 2).matchLength
          = ((sampleProcess.setTarget 1 (some 1)).tokenAt 2).length :=
  reportResult_accepted (sampleProcess.setTarget 1 (some 1)) 0 2 [some 1] sampleState
    (by decide)

theorem searchResultAt_sample :
    searchResultAt sampleProcess 2
        = { fileName := "a.h", lineNumber := 1, matchingLine := "class Foo;".data
            matchStart := 6, matchLength := 3 }
      ∧ (searchResultAt sampleProcess 11).matchStart = 0 := by
  decide

/-! ## The traversal of tree items by level -/

theorem levelMinusOne_of_ne (level : Int) (h : level ≠ INT_MIN) :
    levelMinusOne level = some (level - 1) := by
  unfold levelMinusOne
  rw [if_neg h]

theorem heightEach_cons (item : TreeItem) (rest : List TreeItem) :
    item.height + 1 ≤ heightEach (item :: rest) ∧ heightEach rest ≤ heightEach (item :: rest) := by
  rw [heightEach]
  exact ⟨Nat.le_max_left _ _, Nat.le_max_right _ _⟩

mutual

theorem forChildrenAtLevel_of_lt_one :
    ∀ (item : TreeItem) (level : Int), level < 1 → (item.height : Int) ≤ level - INT_MIN →
      forChildrenAtLevel item level = some []
  | .mk _ m_children, level, h, hh => by
    rw [forChildrenAtLevel]
    have hne : level ≠ 1 := by omega
    simp only [hne, if_false]
    rw [TreeItem.height] at hh
    exact forChildrenAtLevelEach_of_lt_one m_children level h hh

theorem forChildrenAtLevelEach_of_lt_one :
    ∀ (items : List TreeItem) (level : Int), level < 1 →
      (heightEach items : Int) ≤ level - INT_MIN →
      forChildrenAtLevelEach items level = some []
  | [], level, _, _ => by rw [forChildrenAtLevelEach]
  | item :: rest, level, h, hh => by
    obtain ⟨h1, h2⟩ := heightEach_cons item rest
    have hne : level ≠ INT_MIN := by omega
    rw [forChildrenAtLevelEach, levelMinusOne_of_ne level hne]
    simp only
    rw [forChildrenAtLevel_of_lt_one item (level - 1) (by omega) (by omega),
      forChildrenAtLevelEach_of_lt_one rest level h (by omega)]
    rfl

end

mutual

theorem forChildrenAtLevel_succ :
    ∀ (item : TreeItem) (k : Nat),
      forChildrenAtLevel item ((k : Int) + 1) = some (descendantsAt (k + 1) item)
  | .mk _ m_children, 0 => by
    rw [forChildrenAtLevel]
    simp [descendantsAt, TreeItem.children]
  | .mk _ m_children, k + 1 => by
    rw [forChildrenAtLevel]
    have hne : ((k + 1 : Nat) : Int) + 1 ≠ 1 := by omega
    simp only [hne, if_false]
    rw [forChildrenAtLevelEach_succ m_children k]
    rfl

theorem forChildrenAtLevelEach_succ :
    ∀ (items : List TreeItem) (k : Nat),
      forChildrenAtLevelEach items (((k + 1 : Nat) : Int) + 1)
        = some (items.flatMap (descendantsAt (k + 1)))
  | [], k => by
    rw [forChildrenAtLevelEach]
    rfl
  | item :: rest, k => by
    have hne : ((k + 1 : Nat) : Int) + 1 ≠ INT_MIN := by
      unfold INT_MIN
      omega
    have hlevel : ((k + 1 : Nat) : Int) + 1 - 1 = (k : Int) + 1 := by omega
    rw [forChildrenAtLevelEach, levelMinusOne_of_ne _ hne]
    simp only
    rw [hlevel, forChildrenAtLevel_succ item k, forChildrenAtLevelEach_succ rest k]
    simp

end

mutual

theorem findChildAtLevel_of_lt_one (pred : TreeItem → Bool) :
    ∀ (item : TreeItem) (level : Int), level < 1 → (item.height : Int) ≤ level - INT_MIN →
      findChildAtLevel pred item level = some none
  | .mk _ m_children, level, h, hh => by
    rw [findChildAtLevel]
    have hne : level ≠ 1 := by omega
    simp only [hne, if_false]
    rw [TreeItem.height] at hh
    exact findChildAtLevelEach_of_lt_one pred m_children level h hh

theorem findChildAtLevelEach_of_lt_one (pred : TreeItem → Bool) :
    ∀ (items : List TreeItem) (level : Int), level < 1 →
      (heightEach items : Int) ≤ level - INT_MIN →
      findChildAtLevelEach pred items level = some none
  | [], level, _, _ => by rw [findChildAtLevelEach]
  | item :: rest, level, h, hh => by
    obtain ⟨h1, h2⟩ := heightEach_cons item rest
    have hne : level ≠ INT_MIN := by omega
    rw [findChildAtLevelEach, levelMinusOne_of_ne level hne]
    simp only
    rw [findChildAtLevel_of_lt_one pred item (level - 1) (by omega) (by omega)]
    simp only
    exact findChildAtLevelEach_of_lt_one pred rest level h (by omega)

end

mutual

theorem findChildAtLevel_succ (pred : TreeItem → Bool) :
    ∀ (item : TreeItem) (k : Nat),
      findChildAtLevel pred item ((k : Int) + 1)
        = some ((descendantsAt (k + 1) item).find? pred)
  | .mk _ m_children, 0 => by
    rw [findChildAtLevel]
    simp [descendantsAt, TreeItem.children]
  | .mk _ m_children, k + 1 => by
    rw [findChildAtLevel]
    have hne : ((k + 1 : Nat) : Int) + 1 ≠ 1 := by omega
    simp only [hne, if_false]
    rw [findChildAtLevelEach_succ pred m_children k]
    rfl

theorem findChildAtLevelEach_succ (pred : TreeItem → Bool) :
    ∀ (items : List TreeItem) (k : Nat),
      findChildAtLevelEach pred items (((k + 1 : Nat) : Int) + 1)
        = some ((items.flatMap (descendantsAt (k + 1))).find? pred)
  | [], k => by
    rw [findChildAtLevelEach]
    rfl
  | item :: rest, k => by
    have hne : ((k + 1 : Nat) : Int) + 1 ≠ INT_MIN := by
      unfold INT_MIN
      omega
    have hlevel : ((k + 1 : Nat) : Int) + 1 - 1 = (k : Int) + 1 := by omega
    rw [findChildAtLevelEach, levelMinusOne_of_ne _ hne]
    simp only
    rw [hlevel, findChildAtLevel_succ pred item k]
    simp only [List.flatMap_cons, List.find?_append]
    cases hf : (descendantsAt (k + 1) item).find? pred with
    | some found => rfl
    | none =>
      simp only [Option.none_or]
      exact findChildAtLevelEach_succ pred rest k

end

/-- C18, counterexample: at the level `INT_MIN`, an `int` below 1, the
subtraction `level - 1` overflows at the first child of the root of the
sample tree, in `forChildrenAtLevel` and in `findChildAtLevel`, and nothing is
returned; an item without children computes no `level - 1` and applies `pred`
to no item. -/
theorem forChildrenAtLevel_overflow :
    INT_MIN < 1
      ∧ (forChildrenAtLevel sampleTree INT_MIN).isSome = false
      ∧ (findChildAtLevel (fun _ => true) sampleTree INT_MIN).isSome = false
      ∧ (forChildrenAtLevel sampleTree (INT_MIN + 2)).isSome = false
      ∧ (forChildrenAtLevel (.mk 0 []) INT_MIN).map (List.map TreeItem.id) = some [] := by
  decide

/-- C18 (amended): levels are counted from 1.  For every item and every `int`
level that is at least 1, or that lies at least the height of the tree of the
item above `INT_MIN`, so that no `level - 1` overflows, `forChildrenAtLevel`
returns and applies `pred` to the descendants of the item at the depth
`level`, each once, from left to right, for a level from 1 on, and to no item
for a level below 1; `findChildAtLevel` returns the first of these
descendants for which `pred` holds, and null when there is none or the level
is below 1. -/
theorem forChildrenAtLevel_eq (pred : TreeItem → Bool) (item : TreeItem) (level : Int)
    (hrange : INT_MIN ≤ level ∧ level ≤ INT_MAX)
    (hsafe : 1 ≤ level ∨ (item.height : Int) ≤ level - INT_MIN) :
    forChildrenAtLevel item level
        = some (if 1 ≤ level then descendantsAt level.toNat item else [])
      ∧ findChildAtLevel pred item level
        = some (if 1 ≤ level then (descendantsAt level.toNat item).find? pred else none)
      ∧ descendantsAt 1 item = item.children := by
  refine ⟨?_, ?_, by simp [descendantsAt]⟩
  · by_cases h : 1 ≤ level
    · obtain ⟨k, hk⟩ : ∃ k : Nat, level = (k : Int) + 1 := ⟨(level - 1).toNat, by omega⟩
      subst hk
      simp only [h, if_true]
      rw [forChildrenAtLevel_succ]
      congr 1
    · simp only [h, if_false]
      exact forChildrenAtLevel_of_lt_one item level (by omega) (by omega)
  · by_cases h : 1 ≤ level
    · obtain ⟨k, hk⟩ : ∃ k : Nat, level = (k : Int) + 1 := ⟨(level - 1).toNat, by omega⟩
      subst hk
      simp only [h, if_true]
      rw [findChildAtLevel_succ]
      congr 1
    · simp only [h, if_false]
      exact findChildAtLevel_of_lt_one pred item level (by omega) (by omega)

theorem forChildrenAtLevel_eq_witness :
    forChildrenAtLevel sampleTree 2
        = some (if (1 : Int) ≤ 2 then descendantsAt (2 : Int).toNat sampleTree else [])
      ∧ findChildAtLevel (fun t => decide (3 < t.id)) sampleTree 2
        = some (if (1 : Int) ≤ 2 then
            (descendantsAt (2 : Int).toNat sampleTree).find? (fun t => decide (3 < t.id))
          else none)
      ∧ descendantsAt 1 sampleTree = sampleTree.children :=
  forChildrenAtLevel_eq (fun t => decide (3 < t.id)) sampleTree 2 (by decide)
    (Or.inl (by decide))

theorem forChildrenAtLevel_sample :
    (forChildrenAtLevel sampleTree 1).map (List.map TreeItem.id) = some [1, 2]
      ∧ (forChildrenAtLevel sampleTree 2).map (List.map TreeItem.id) = some [3, 4, 5]
      ∧ (forChildrenAtLevel sampleTree 3).map (List.map TreeItem.id) = some [6]
      ∧ (forChildrenAtLevel sampleTree 0).map (List.map TreeItem.id) = some []
      ∧ (forChildrenAtLevel sampleTree (-2)).map (List.map TreeItem.id) = some []
      ∧ (findChildAtLevel (fun t => decide (3 < t.id)) sampleTree 2).map
          (Option.map TreeItem.id) = some (some 4)
      ∧ (findChildAtLevel (fun t => decide (7 < t.id)) sampleTree 2).map
          (Option.map TreeItem.id) = some none
      ∧ sampleTree.height = 3
      ∧ (sampleTree.height : Int) ≤ -2 - INT_MIN := by
  decide

/-! ## The symmetry of the matcher -/

theorem namesMatch_comm (heap : Heap) (isEqualTo : NameVal → NameVal → Bool)
    (hsymm : ∀ n m, isEqualTo n m = isEqualTo m n) (a b : SymPtr) :
    namesMatch heap isEqualTo a b = namesMatch heap isEqualTo b a := by
  unfold namesMatch
  cases (heap a).name <;> cases (heap b).name <;> simp [hsymm]

theorem checkScope_comm (heap : Heap) (isEqualTo : NameVal → NameVal → Bool)
    (hsymm : ∀ n m, isEqualTo n m = isEqualTo m n) :
    ∀ (fuel : Nat) (a b : Option SymPtr),
      checkScope heap isEqualTo fuel a b = checkScope heap isEqualTo fuel b a
  | fuel, none, b => by
    rw [checkScope_none_left, checkScope_none_right]
  | fuel, some a, none => by
    rw [checkScope_none_left, checkScope_none_right]
  | 0, some a, some b => by
    rw [checkScope_zero_some_some, checkScope_zero_some_some,
      namesMatch_comm heap isEqualTo hsymm a b]
    by_cases hs : (heap a).scope = (heap b).scope
    · simp [hs]
    · have hs2 : ¬ (heap b).scope = (heap a).scope := fun h => hs h.symm
      simp [hs, hs2]
  | fuel + 1, some a, some b => by
    rw [checkScope_some_some, checkScope_some_some,
      namesMatch_comm heap isEqualTo hsymm a b,
      checkScope_comm heap isEqualTo hsymm fuel (heap a).enclosingSymbol
        (heap b).enclosingSymbol]
    by_cases hs : (heap a).scope = (heap b).scope
    · simp [hs]
    · have hs2 : ¬ (heap b).scope = (heap a).scope := fun h => hs h.symm
      simp [hs, hs2]

/-- C19: when `isEqualTo` is symmetric, `checkScope` gives the same for two
symbols in both orders, and `isDeclSymbol` on a symbol `a` with the target `b`
gives the same as on `b` with the target `a`, with the same fuel. -/
theorem isDeclSymbol_comm (m : Matcher) (hsymm : ∀ n k, m.isEqualTo n k = m.isEqualTo k n)
    (fuel : Nat) (a b : SymPtr) :
    checkScope m.heap m.isEqualTo fuel (some a) (some b)
        = checkScope m.heap m.isEqualTo fuel (some b) (some a)
      ∧ isDeclSymbol { m with declSymbol := b } fuel (some a)
        = isDeclSymbol { m with declSymbol := a } fuel (some b) := by
  have hcs := checkScope_comm m.heap m.isEqualTo hsymm fuel (some a) (some b)
  refine ⟨hcs, ?_⟩
  unfold isDeclSymbol
  simp only
  by_cases hab : a = b
  · subst hab
    simp
  · have hba : ¬ b = a := fun h => hab h.symm
    rw [if_neg hab, if_neg hba]
    by_cases hpos : (m.heap a).line = (m.heap b).line ∧ (m.heap a).column = (m.heap b).column
    · have hpos2 : (m.heap b).line = (m.heap a).line
          ∧ (m.heap b).column = (m.heap a).column := ⟨hpos.1.symm, hpos.2.symm⟩
      rw [if_pos hpos, if_pos hpos2]
      by_cases hf : (m.heap a).fileName = (m.heap b).fileName
      · have h1 := (qstrcmp_eq_zero_iff _ _).mpr hf
        have h2 := (qstrcmp_eq_zero_iff _ _).mpr hf.symm
        rw [if_pos h1, if_pos h2]
      · have h1 : ¬ qstrcmp (m.heap a).fileName (m.heap b).fileName = 0 :=
          fun h => hf ((qstrcmp_eq_zero_iff _ _).mp h)
        have h2 : ¬ qstrcmp (m.heap b).fileName (m.heap a).fileName = 0 :=
          fun h => hf ((qstrcmp_eq_zero_iff _ _).mp h).symm
        rw [if_neg h1, if_neg h2]
    · have hpos2 : ¬ ((m.heap b).line = (m.heap a).line
          ∧ (m.heap b).column = (m.heap a).column) := fun h => hpos ⟨h.1.symm, h.2.symm⟩
      rw [if_neg hpos, if_neg hpos2, ← hcs]
      cases (m.heap a).isForwardClassDeclaration <;>
        cases (m.heap b).isForwardClassDeclaration <;>
        cases (m.heap a).isClass <;> cases (m.heap b).isClass <;> simp

theorem isDeclSymbol_comm_witness :
    checkScope nestedHeap (fun a b => a == b) 3 (some 1) (some 2)
        = checkScope nestedHeap (fun a b => a == b) 3 (some 2) (some 1)
      ∧ isDeclSymbol { sampleMatcher 0 with heap := nestedHeap, declSymbol := 2 } 3 (some 1)
        = isDeclSymbol { sampleMatcher 0 with heap := nestedHeap, declSymbol := 1 } 3 (some 2) :=
  isDeclSymbol_comm { sampleMatcher 0 with heap := nestedHeap }
    (by
      intro n k
      show (n == k) = (k == n)
      exact Bool.beq_comm)
    3 1 2

/-! ## The discipline of the postfix expression stack -/

theorem Except.map_ok_withStack (e : List AST) (st : State) :
    Except.map (State.withStack e) (Except.ok st : Except Failure State)
      = .ok (State.withStack e st) := rfl

theorem bind_withStack {x x2 : Except Failure State} {f f2 : State → Except Failure State}
    (e e2 : List AST) (hx : x2 = Except.map (State.withStack e) x)
    (hf : ∀ a, f2 (State.withStack e a) = Except.map (State.withStack e2) (f a)) :
    (x2 >>= f2) = Except.map (State.withStack e2) (x >>= f) := by
  subst hx
  cases x with
  | error err => rfl
  | ok a => exact hf a

theorem reportResult_withStack (P : Process) (fuel : Nat) (tokenIndex : Nat)
    (candidates : List (Option SymPtr)) (e : List AST) (st : State) :
    reportResult P fuel tokenIndex candidates (State.withStack e st)
      = Except.map (State.withStack e) (reportResult P fuel tokenIndex candidates st) := by
  unfold reportResult
  cases checkCandidates P.matcher fuel candidates with
  | none => rfl
  | some b => cases b <;> rfl

theorem resolveAndReport_withStack (P : Process) (fuel : Nat) (firstToken identifier_token : Nat)
    (name : Option NameVal) (e : List AST) (st : State) :
    resolveAndReport P fuel firstToken identifier_token name (State.withStack e st)
      = Except.map (State.withStack e)
          (resolveAndReport P fuel firstToken identifier_token name st) := by
  unfold resolveAndReport
  by_cases hid : P.identifier identifier_token = P.id
  · simp only [hid, if_true]
    have hctx : currentContext P firstToken (State.withStack e st)
        = ((currentContext P firstToken st).1,
            State.withStack e (currentContext P firstToken st).2) := by
      unfold currentContext
      dsimp only [State.withStack]
      split_ifs <;> rfl
    rw [hctx]
    exact reportResult_withStack P fuel _ _ e _
  · simp only [hid, if_false]
    rfl

theorem checkExpression_withStack (P : Process) (fuel : Nat) (startToken endToken : Nat)
    (e : List AST) (st : State) :
    checkExpression P fuel startToken endToken (State.withStack e st)
      = Except.map (State.withStack e) (checkExpression P fuel startToken endToken st) :=
  reportResult_withStack P fuel _ _ e st

theorem checkUnqualifiedName_withStack (P : Process) (fuel : Nat) (firstToken : Nat)
    (unqualified_name : Option AST) (e : List AST) (st : State) :
    checkUnqualifiedName P fuel firstToken unqualified_name (State.withStack e st)
      = Except.map (State.withStack e)
          (checkUnqualifiedName P fuel firstToken unqualified_name st) := by
  unfold checkUnqualifiedName
  cases unqualified_name with
  | none => rfl
  | some unqualified =>
    simp only
    split_ifs
    · exact checkExpression_withStack P fuel _ _ e st
    · rfl

theorem checkNestedName_withStack (P : Process) (fuel : Nat) (firstToken : Nat)
    (class_or_namespace_name : Option AST) (e : List AST) (st : State) :
    checkNestedName P fuel firstToken class_or_namespace_name (State.withStack e st)
      = Except.map (State.withStack e)
          (checkNestedName P fuel firstToken class_or_namespace_name st) := by
  unfold checkNestedName
  cases nestedIdentifierToken class_or_namespace_name with
  | none => rfl
  | some identifier_token =>
    simp only
    split_ifs
    · exact checkExpression_withStack P fuel _ _ e st
    · rfl

theorem checkMemInitializerName_withStack (P : Process) (fuel : Nat) (firstToken : Nat)
    (name : Option AST) (e : List AST) (st : State) :
    checkMemInitializerName P fuel firstToken name (State.withStack e st)
      = Except.map (State.withStack e)
          (checkMemInitializerName P fuel firstToken name st) := by
  unfold checkMemInitializerName
  split
  · exact resolveAndReport_withStack P fuel _ _ _ e st
  · rfl

mutual

theorem accept_withStack (P : Process) (fuel : Nat) :
    ∀ (ast : AST) (e : List AST) (st : State),
      accept P fuel ast (State.withStack e st)
        = Except.map (State.withStack e) (acceptEnclosed P fuel e ast st)
  | .simpleName firstToken identifier_token name, e, st => by
    rw [accept, acceptEnclosed]
    exact resolveAndReport_withStack P fuel _ _ _ e st
  | .destructorName firstToken identifier_token name, e, st => by
    rw [accept, acceptEnclosed]
    exact resolveAndReport_withStack P fuel _ _ _ e st
  | .templateId firstToken identifier_token name template_arguments, e, st => by
    rw [accept, acceptEnclosed]
    refine bind_withStack e e ?_ ?_
    · exact resolveAndReport_withStack P fuel _ _ _ e st
    · intro a
      exact acceptPtrList_withStack P fuel template_arguments e a
  | .qualifiedName firstToken nested_name_specifier unqualified_name, e, st => by
    rw [accept, acceptEnclosed]
    refine bind_withStack e e ?_ ?_
    · exact visitNestedNameSpecifier_withStack P fuel firstToken nested_name_specifier e st
    · intro a
      refine bind_withStack e e ?_ ?_
      · exact acceptTemplateArguments_withStack P fuel unqualified_name e a
      · intro b
        exact checkUnqualifiedName_withStack P fuel _ _ e b
  | .memInitializer firstToken name expression, e, st => by
    rw [accept, acceptEnclosed]
    refine bind_withStack e e ?_ ?_
    · exact checkMemInitializerName_withStack P fuel _ _ e st
    · intro a
      exact acceptPtr_withStack P fuel expression e a
  | .postfixExpression firstToken base_expression postfix_expressions, e, st => by
    rw [accept, acceptEnclosed]
    have hpush : ({ State.withStack e st with
        postfixExpressionStack := (State.withStack e st).postfixExpressionStack
          ++ [.postfixExpression firstToken base_expression postfix_expressions] } : State)
        = State.withStack
            (e ++ [.postfixExpression firstToken base_expression postfix_expressions]) st :=
      rfl
    rw [hpush]
    refine bind_withStack
      (e ++ [.postfixExpression firstToken base_expression postfix_expressions]) e ?_ ?_
    · exact acceptPtr_withStack P fuel base_expression _ st
    · intro a
      rw [acceptList_withStack P fuel postfix_expressions _ a]
      cases acceptListEnclosed P fuel
        (e ++ [.postfixExpression firstToken base_expression postfix_expressions])
        postfix_expressions a with
      | error err => rfl
      | ok b =>
        show Except.ok _ = Except.ok _
        congr 1
        simp [State.withStack]
  | .memberAccess t member_name, e, st => by
    rw [accept, acceptEnclosed]
    cases simpleNameToken member_name with
    | none => exact acceptPtr_withStack P fuel member_name e st
    | some identifier_token =>
      simp only
      split_ifs
      · have hstack : (State.withStack e st).postfixExpressionStack = e := rfl
        rw [hstack]
        cases e.getLast? with
        | none => rfl
        | some last => exact checkExpression_withStack P fuel _ _ e st
      · exact acceptPtr_withStack P fuel member_name e st
  | .enumerator firstToken identifier_token expression, e, st => by
    rw [accept, acceptEnclosed]
    refine bind_withStack e e ?_ ?_
    · exact resolveAndReport_withStack P fuel _ _ _ e st
    · intro a
      exact acceptPtr_withStack P fuel expression e a
  | .declarator _ attributes ptr_operators core_declarator postfix_declarators
      post_attributes initializer, e, st => by
    rw [accept, acceptEnclosed]
    refine bind_withStack e e ?_ ?_
    · exact acceptList_withStack P fuel attributes e st
    · intro a
      refine bind_withStack e e ?_ ?_
      · exact acceptList_withStack P fuel ptr_operators e a
      · intro b
        refine bind_withStack e e ?_ ?_
        · exact acceptPtr_withStack P fuel core_declarator e b
        · intro c
          refine bind_withStack e e ?_ ?_
          · exact acceptList_withStack P fuel postfix_declarators e c
          · intro d
            refine bind_withStack e e ?_ ?_
            · exact acceptList_withStack P fuel post_attributes e d
            · intro g
              exact acceptPtr_withStack P fuel initializer e g
  | .parameterDeclaration _ type_specifier declarator expression, e, st => by
    rw [accept, acceptEnclosed]
    refine bind_withStack e e ?_ ?_
    · exact acceptList_withStack P fuel type_specifier e st
    · intro a
      refine bind_withStack e e ?_ ?_
      · exact acceptParameterDeclarator_withStack P fuel declarator e a
      · intro b
        exact acceptPtr_withStack P fuel expression e b
  | .expressionOrDeclarationStatement _ _ declaration, e, st => by
    rw [accept, acceptEnclosed]
    exact acceptPtr_withStack P fuel declaration e st
  | .functionDeclarator _ parameters cv_qualifier_seq exception_specification, e, st => by
    rw [accept, acceptEnclosed]
    refine bind_withStack e e ?_ ?_
    · exact acceptPtr_withStack P fuel parameters e st
    · intro a
      refine bind_withStack e e ?_ ?_
      · exact acceptList_withStack P fuel cv_qualifier_seq e a
      · intro b
        exact acceptPtr_withStack P fuel exception_specification e b
  | .other _ children, e, st => by
    rw [accept, acceptEnclosed]
    exact acceptPtrList_withStack P fuel children e st
termination_by structural x => x

theorem acceptPtr_withStack (P : Process) (fuel : Nat) :
    ∀ (ast : Option AST) (e : List AST) (st : State),
      acceptPtr P fuel ast (State.withStack e st)
        = Except.map (State.withStack e) (acceptPtrEnclosed P fuel e ast st)
  | none, e, st => by
    rw [acceptPtr, acceptPtrEnclosed]
    rfl
  | some ast, e, st => by
    rw [acceptPtr, acceptPtrEnclosed]
    exact accept_withStack P fuel ast e st
termination_by structural x => x

theorem acceptList_withStack (P : Process) (fuel : Nat) :
    ∀ (asts : List AST) (e : List AST) (st : State),
      acceptList P fuel asts (State.withStack e st)
        = Except.map (State.withStack e) (acceptListEnclosed P fuel e asts st)
  | [], e, st => by
    rw [acceptList, acceptListEnclosed]
    rfl
  | ast :: next, e, st => by
    rw [acceptList, acceptListEnclosed]
    refine bind_withStack e e ?_ ?_
    · exact accept_withStack P fuel ast e st
    · intro a
      exact acceptList_withStack P fuel next e a
termination_by structural x => x

theorem acceptPtrList_withStack (P : Process) (fuel : Nat) :
    ∀ (asts : List (Option AST)) (e : List AST) (st : State),
      acceptPtrList P fuel asts (State.withStack e st)
        = Except.map (State.withStack e) (acceptPtrListEnclosed P fuel e asts st)
  | [], e, st => by
    rw [acceptPtrList, acceptPtrListEnclosed]
    rfl
  | ast :: next, e, st => by
    rw [acceptPtrList, acceptPtrListEnclosed]
    refine bind_withStack e e ?_ ?_
    · exact acceptPtr_withStack P fuel ast e st
    · intro a
      exact acceptPtrList_withStack P fuel next e a
termination_by structural x => x

theorem visitNestedNameSpecifier_withStack (P : Process) (fuel : Nat) (firstToken : Nat) :
    ∀ (asts : List (Option AST)) (e : List AST) (st : State),
      visitNestedNameSpecifier P fuel firstToken asts (State.withStack e st)
        = Except.map (State.withStack e)
            (visitNestedNameSpecifierEnclosed P fuel firstToken e asts st)
  | [], e, st => by
    rw [visitNestedNameSpecifier, visitNestedNameSpecifierEnclosed]
    rfl
  | class_or_namespace_name :: next, e, st => by
    rw [visitNestedNameSpecifier, visitNestedNameSpecifierEnclosed]
    refine bind_withStack e e ?_ ?_
    · exact acceptTemplateArguments_withStack P fuel class_or_namespace_name e st
    · intro a
      refine bind_withStack e e ?_ ?_
      · exact checkNestedName_withStack P fuel _ _ e a
      · intro b
        exact visitNestedNameSpecifier_withStack P fuel firstToken next e b
termination_by structural x => x

theorem acceptTemplateArguments_withStack (P : Process) (fuel : Nat) :
    ∀ (ast : Option AST) (e : List AST) (st : State),
      acceptTemplateArguments P fuel ast (State.withStack e st)
        = Except.map (State.withStack e) (acceptTemplateArgumentsEnclosed P fuel e ast st) := by
  intro ast e st
  cases ast with
  | none =>
    simp only [acceptTemplateArguments, acceptTemplateArgumentsEnclosed]
    rfl
  | some a =>
    cases a with
    | templateId t i n template_arguments =>
      simp only [acceptTemplateArguments, acceptTemplateArgumentsEnclosed]
      exact acceptPtrList_withStack P fuel template_arguments e st
    | _ =>
      simp only [acceptTemplateArguments, acceptTemplateArgumentsEnclosed]
      rfl
termination_by structural x => x

theorem acceptParameterDeclarator_withStack (P : Process) (fuel : Nat) :
    ∀ (ast : Option AST) (e : List AST) (st : State),
      acceptParameterDeclarator P fuel ast (State.withStack e st)
        = Except.map (State.withStack e)
            (acceptParameterDeclaratorEnclosed P fuel e ast st) := by
  intro ast e st
  cases ast with
  | none =>
    simp only [acceptParameterDeclarator, acceptParameterDeclaratorEnclosed]
    rfl
  | some a =>
    cases a with
    | declarator t attributes ptr_operators core postfix_declarators post_attributes
        initializer =>
      simp only [acceptParameterDeclarator, acceptParameterDeclaratorEnclosed]
      refine bind_withStack e e ?_ ?_
      · exact acceptList_withStack P fuel attributes e st
      · intro a
        refine bind_withStack e e ?_ ?_
        · exact acceptList_withStack P fuel ptr_operators e a
        · intro b
          refine bind_withStack e e ?_ ?_
          · exact acceptList_withStack P fuel postfix_declarators e b
          · intro c
            refine bind_withStack e e ?_ ?_
            · exact acceptList_withStack P fuel post_attributes e c
            · intro d
              exact acceptPtr_withStack P fuel initializer e d
    | _ =>
      simp only [acceptParameterDeclarator, acceptParameterDeclaratorEnclosed]
      rfl
termination_by structural x => x

end

theorem bind_ne_assertionFailed {x : Except Failure State} {f : State → Except Failure State}
    (hx : x ≠ .error .assertionFailed) (hf : ∀ a, f a ≠ .error .assertionFailed) :
    (x >>= f) ≠ .error .assertionFailed := by
  cases x with
  | error err =>
    intro h
    exact hx h
  | ok a => exact hf a

theorem reportResult_ne_assertionFailed (P : Process) (fuel : Nat) (tokenIndex : Nat)
    (candidates : List (Option SymPtr)) (st : State) :
    reportResult P fuel tokenIndex candidates st ≠ .error .assertionFailed := by
  unfold reportResult
  cases checkCandidates P.matcher fuel candidates with
  | none => simp
  | some b => cases b <;> simp

theorem resolveAndReport_ne_assertionFailed (P : Process) (fuel : Nat)
    (firstToken identifier_token : Nat) (name : Option NameVal) (st : State) :
    resolveAndReport P fuel firstToken identifier_token name st ≠ .error .assertionFailed := by
  unfold resolveAndReport
  split_ifs
  · exact reportResult_ne_assertionFailed P fuel _ _ _
  · simp

theorem checkExpression_ne_assertionFailed (P : Process) (fuel : Nat)
    (startToken endToken : Nat) (st : State) :
    checkExpression P fuel startToken endToken st ≠ .error .assertionFailed :=
  reportResult_ne_assertionFailed P fuel _ _ _

theorem checkUnqualifiedName_ne_assertionFailed (P : Process) (fuel : Nat) (firstToken : Nat)
    (unqualified_name : Option AST) (st : State) :
    checkUnqualifiedName P fuel firstToken unqualified_name st ≠ .error .assertionFailed := by
  unfold checkUnqualifiedName
  cases unqualified_name with
  | none => simp
  | some unqualified =>
    simp only
    split_ifs
    · exact checkExpression_ne_assertionFailed P fuel _ _ _
    · simp

theorem checkNestedName_ne_assertionFailed (P : Process) (fuel : Nat) (firstToken : Nat)
    (class_or_namespace_name : Option AST) (st : State) :
    checkNestedName P fuel firstToken class_or_namespace_name st
      ≠ .error .assertionFailed := by
  unfold checkNestedName
  cases nestedIdentifierToken class_or_namespace_name with
  | none => simp
  | some identifier_token =>
    simp only
    split_ifs
    · exact checkExpression_ne_assertionFailed P fuel _ _ _
    · simp

theorem checkMemInitializerName_ne_assertionFailed (P : Process) (fuel : Nat)
    (firstToken : Nat) (name : Option AST) (st : State) :
    checkMemInitializerName P fuel firstToken name st ≠ .error .assertionFailed := by
  unfold checkMemInitializerName
  split
  · exact resolveAndReport_ne_assertionFailed P fuel _ _ _ _
  · simp

mutual

theorem acceptEnclosed_ne_assertionFailed (P : Process) (fuel : Nat) :
    ∀ (ast : AST) (inside : Bool) (e : List AST) (st : State),
      memberAccessInside inside ast = true → (inside = true → e ≠ []) →
      acceptEnclosed P fuel e ast st ≠ .error .assertionFailed
  | .simpleName firstToken identifier_token name, inside, e, st, _, _ => by
    rw [acceptEnclosed]
    exact resolveAndReport_ne_assertionFailed P fuel _ _ _ _
  | .destructorName firstToken identifier_token name, inside, e, st, _, _ => by
    rw [acceptEnclosed]
    exact resolveAndReport_ne_assertionFailed P fuel _ _ _ _
  | .templateId firstToken identifier_token name template_arguments, inside, e, st, h, he => by
    rw [memberAccessInside] at h
    rw [acceptEnclosed]
    refine bind_ne_assertionFailed ?_ ?_
    · exact resolveAndReport_ne_assertionFailed P fuel _ _ _ _
    · intro a
      exact acceptPtrListEnclosed_ne_assertionFailed P fuel template_arguments inside e _ h he
  | .qualifiedName firstToken nested_name_specifier unqualified_name, inside, e, st, h, he => by
    rw [memberAccessInside] at h
    simp only [Bool.and_eq_true] at h
    rw [acceptEnclosed]
    refine bind_ne_assertionFailed ?_ ?_
    · exact visitNestedNameSpecifierEnclosed_ne_assertionFailed P fuel firstToken nested_name_specifier inside e _ h.1 he
    · intro a
      refine bind_ne_assertionFailed ?_ ?_
      · exact acceptTemplateArgumentsEnclosed_ne_assertionFailed P fuel unqualified_name inside e _ h.2 he
      · intro b
        exact checkUnqualifiedName_ne_assertionFailed P fuel _ _ _
  | .memInitializer firstToken name expression, inside, e, st, h, he => by
    rw [memberAccessInside] at h
    simp only [Bool.and_eq_true] at h
    rw [acceptEnclosed]
    refine bind_ne_assertionFailed ?_ ?_
    · exact checkMemInitializerName_ne_assertionFailed P fuel _ _ _
    · intro a
      exact acceptPtrEnclosed_ne_assertionFailed P fuel expression inside e _ h.2 he
  | .postfixExpression firstToken base_expression postfix_expressions, inside, e, st, h, _ => by
    rw [memberAccessInside] at h
    simp only [Bool.and_eq_true] at h
    rw [acceptEnclosed]
    refine bind_ne_assertionFailed ?_ ?_
    · exact acceptPtrEnclosed_ne_assertionFailed P fuel base_expression true _ _ h.1
        (fun _ => by simp)
    · intro a
      exact acceptListEnclosed_ne_assertionFailed P fuel postfix_expressions true _ _ h.2
        (fun _ => by simp)
  | .memberAccess t member_name, inside, e, st, h, he => by
    rw [memberAccessInside] at h
    simp only [Bool.and_eq_true] at h
    rw [acceptEnclosed]
    cases simpleNameToken member_name with
    | none => exact acceptPtrEnclosed_ne_assertionFailed P fuel member_name inside e _ h.2 he
    | some identifier_token =>
      simp only
      split_ifs
      · cases hlast : e.getLast? with
        | none =>
          exfalso
          exact he h.1 (List.getLast?_eq_none_iff.mp hlast)
        | some last => exact checkExpression_ne_assertionFailed P fuel _ _ _
      · exact acceptPtrEnclosed_ne_assertionFailed P fuel member_name inside e _ h.2 he
  | .enumerator firstToken identifier_token expression, inside, e, st, h, he => by
    rw [memberAccessInside] at h
    rw [acceptEnclosed]
    refine bind_ne_assertionFailed ?_ ?_
    · exact resolveAndReport_ne_assertionFailed P fuel _ _ _ _
    · intro a
      exact acceptPtrEnclosed_ne_assertionFailed P fuel expression inside e _ h he
  | .declarator _ attributes ptr_operators core_declarator postfix_declarators
      post_attributes initializer, inside, e, st, h, he => by
    rw [memberAccessInside] at h
    simp only [Bool.and_eq_true] at h
    obtain ⟨⟨⟨⟨⟨h1, h2⟩, h3⟩, h4⟩, h5⟩, h6⟩ := h
    rw [acceptEnclosed]
    refine bind_ne_assertionFailed ?_ ?_
    · exact acceptListEnclosed_ne_assertionFailed P fuel attributes inside e _ h1 he
    · intro a
      refine bind_ne_assertionFailed ?_ ?_
      · exact acceptListEnclosed_ne_assertionFailed P fuel ptr_operators inside e _ h2 he
      · intro b
        refine bind_ne_assertionFailed ?_ ?_
        · exact acceptPtrEnclosed_ne_assertionFailed P fuel core_declarator inside e _ h3 he
        · intro c
          refine bind_ne_assertionFailed ?_ ?_
          · exact acceptListEnclosed_ne_assertionFailed P fuel postfix_declarators inside e _ h4 he
          · intro d
            refine bind_ne_assertionFailed ?_ ?_
            · exact acceptListEnclosed_ne_assertionFailed P fuel post_attributes inside e _ h5 he
            · intro g
              exact acceptPtrEnclosed_ne_assertionFailed P fuel initializer inside e _ h6 he
  | .parameterDeclaration _ type_specifier declarator expression, inside, e, st, h, he => by
    rw [memberAccessInside] at h
    simp only [Bool.and_eq_true] at h
    obtain ⟨⟨h1, h2⟩, h3⟩ := h
    rw [acceptEnclosed]
    refine bind_ne_assertionFailed ?_ ?_
    · exact acceptListEnclosed_ne_assertionFailed P fuel type_specifier inside e _ h1 he
    · intro a
      refine bind_ne_assertionFailed ?_ ?_
      · exact acceptParameterDeclaratorEnclosed_ne_assertionFailed P fuel declarator inside e _ h2 he
      · intro b
        exact acceptPtrEnclosed_ne_assertionFailed P fuel expression inside e _ h3 he
  | .expressionOrDeclarationStatement _ _ declaration, inside, e, st, h, he => by
    rw [memberAccessInside] at h
    simp only [Bool.and_eq_true] at h
    rw [acceptEnclosed]
    exact acceptPtrEnclosed_ne_assertionFailed P fuel declaration inside e _ h.2 he
  | .functionDeclarator _ parameters cv_qualifier_seq exception_specification, inside, e, st,
      h, he => by
    rw [memberAccessInside] at h
    simp only [Bool.and_eq_true] at h
    obtain ⟨⟨h1, h2⟩, h3⟩ := h
    rw [acceptEnclosed]
    refine bind_ne_assertionFailed ?_ ?_
    · exact acceptPtrEnclosed_ne_assertionFailed P fuel parameters inside e _ h1 he
    · intro a
      refine bind_ne_assertionFailed ?_ ?_
      · exact acceptListEnclosed_ne_assertionFailed P fuel cv_qualifier_seq inside e _ h2 he
      · intro b
        exact acceptPtrEnclosed_ne_assertionFailed P fuel exception_specification inside e _ h3 he
  | .other _ children, inside, e, st, h, he => by
    rw [memberAccessInside] at h
    rw [acceptEnclosed]
    exact acceptPtrListEnclosed_ne_assertionFailed P fuel children inside e _ h he
termination_by structural x => x

theorem acceptPtrEnclosed_ne_assertionFailed (P : Process) (fuel : Nat) :
    ∀ (ast : Option AST) (inside : Bool) (e : List AST) (st : State),
      memberAccessInsidePtr inside ast = true → (inside = true → e ≠ []) →
      acceptPtrEnclosed P fuel e ast st ≠ .error .assertionFailed
  | none, inside, e, st, _, _ => by
    rw [acceptPtrEnclosed]
    simp
  | some ast, inside, e, st, h, he => by
    rw [memberAccessInsidePtr] at h
    rw [acceptPtrEnclosed]
    exact acceptEnclosed_ne_assertionFailed P fuel ast inside e st h he
termination_by structural x => x

theorem acceptListEnclosed_ne_assertionFailed (P : Process) (fuel : Nat) :
    ∀ (asts : List AST) (inside : Bool) (e : List AST) (st : State),
      memberAccessInsideList inside asts = true → (inside = true → e ≠ []) →
      acceptListEnclosed P fuel e asts st ≠ .error .assertionFailed
  | [], inside, e, st, _, _ => by
    rw [acceptListEnclosed]
    simp
  | ast :: next, inside, e, st, h, he => by
    rw [memberAccessInsideList] at h
    simp only [Bool.and_eq_true] at h
    rw [acceptListEnclosed]
    refine bind_ne_assertionFailed ?_ ?_
    · exact acceptEnclosed_ne_assertionFailed P fuel ast inside e _ h.1 he
    · intro a
      exact acceptListEnclosed_ne_assertionFailed P fuel next inside e _ h.2 he
termination_by structural x => x

theorem acceptPtrListEnclosed_ne_assertionFailed (P : Process) (fuel : Nat) :
    ∀ (asts : List (Option AST)) (inside : Bool) (e : List AST) (st : State),
      memberAccessInsidePtrList inside asts = true → (inside = true → e ≠ []) →
      acceptPtrListEnclosed P fuel e asts st ≠ .error .assertionFailed
  | [], inside, e, st, _, _ => by
    rw [acceptPtrListEnclosed]
    simp
  | ast :: next, inside, e, st, h, he => by
    rw [memberAccessInsidePtrList] at h
    simp only [Bool.and_eq_true] at h
    rw [acceptPtrListEnclosed]
    refine bind_ne_assertionFailed ?_ ?_
    · exact acceptPtrEnclosed_ne_assertionFailed P fuel ast inside e _ h.1 he
    · intro a
      exact acceptPtrListEnclosed_ne_assertionFailed P fuel next inside e _ h.2 he
termination_by structural x => x

theorem visitNestedNameSpecifierEnclosed_ne_assertionFailed (P : Process) (fuel : Nat)
    (firstToken : Nat) :
    ∀ (asts : List (Option AST)) (inside : Bool) (e : List AST) (st : State),
      memberAccessInsidePtrList inside asts = true → (inside = true → e ≠ []) →
      visitNestedNameSpecifierEnclosed P fuel firstToken e asts st ≠ .error .assertionFailed
  | [], inside, e, st, _, _ => by
    rw [visitNestedNameSpecifierEnclosed]
    simp
  | class_or_namespace_name :: next, inside, e, st, h, he => by
    rw [memberAccessInsidePtrList] at h
    simp only [Bool.and_eq_true] at h
    rw [visitNestedNameSpecifierEnclosed]
    refine bind_ne_assertionFailed ?_ ?_
    · exact acceptTemplateArgumentsEnclosed_ne_assertionFailed P fuel class_or_namespace_name inside e _ h.1 he
    · intro a
      refine bind_ne_assertionFailed ?_ ?_
      · exact checkNestedName_ne_assertionFailed P fuel _ _ _
      · intro b
        exact visitNestedNameSpecifierEnclosed_ne_assertionFailed P fuel firstToken next inside e _ h.2 he
termination_by structural x => x

theorem acceptTemplateArgumentsEnclosed_ne_assertionFailed (P : Process) (fuel : Nat) :
    ∀ (ast : Option AST) (inside : Bool) (e : List AST) (st : State),
      memberAccessInsidePtr inside ast = true → (inside = true → e ≠ []) →
      acceptTemplateArgumentsEnclosed P fuel e ast st ≠ .error .assertionFailed := by
  intro ast inside e st h he
  cases ast with
  | none =>
    simp only [acceptTemplateArgumentsEnclosed]
    simp
  | some a =>
    cases a with
    | templateId t i n template_arguments =>
      rw [memberAccessInsidePtr, memberAccessInside] at h
      simp only [acceptTemplateArgumentsEnclosed]
      exact acceptPtrListEnclosed_ne_assertionFailed P fuel template_arguments inside e st h he
    | _ =>
      simp only [acceptTemplateArgumentsEnclosed]
      simp
termination_by structural x => x

theorem acceptParameterDeclaratorEnclosed_ne_assertionFailed (P : Process) (fuel : Nat) :
    ∀ (ast : Option AST) (inside : Bool) (e : List AST) (st : State),
      memberAccessInsidePtr inside ast = true → (inside = true → e ≠ []) →
      acceptParameterDeclaratorEnclosed P fuel e ast st ≠ .error .assertionFailed := by
  intro ast inside e st h he
  cases ast with
  | none =>
    simp only [acceptParameterDeclaratorEnclosed]
    simp
  | some a =>
    cases a with
    | declarator t attributes ptr_operators core postfix_declarators post_attributes
        initializer =>
      rw [memberAccessInsidePtr, memberAccessInside] at h
      simp only [Bool.and_eq_true] at h
      obtain ⟨⟨⟨⟨⟨h1, h2⟩, _⟩, h4⟩, h5⟩, h6⟩ := h
      simp only [acceptParameterDeclaratorEnclosed]
      refine bind_ne_assertionFailed ?_ ?_
      · exact acceptListEnclosed_ne_assertionFailed P fuel attributes inside e _ h1 he
      · intro a
        refine bind_ne_assertionFailed ?_ ?_
        · exact acceptListEnclosed_ne_assertionFailed P fuel ptr_operators inside e _ h2 he
        · intro b
          refine bind_ne_assertionFailed ?_ ?_
          · exact acceptListEnclosed_ne_assertionFailed P fuel postfix_declarators inside e _ h4 he
          · intro c
            refine bind_ne_assertionFailed ?_ ?_
            · exact acceptListEnclosed_ne_assertionFailed P fuel post_attributes inside e _ h5 he
            · intro d
              exact acceptPtrEnclosed_ne_assertionFailed P fuel initializer inside e _ h6 he
    | _ =>
      simp only [acceptParameterDeclaratorEnclosed]
      simp
termination_by structural x => x

end

/-- C20: the traversal with `_postfixExpressionStack` is the traversal that is
told, at every node, the list of the postfix expressions being visited
around the node, the outermost first, behind the stack at the start: a
postfix expression is pushed before its children and popped after them, a
member access reads the innermost postfix expression around it as the last
element, and a traversal that returns leaves the stack as it was at the
start, so empty when it was empty.  In a tree whose member accesses are all
beneath a postfix expression the assertion of `visit(MemberAccessAST *)`
does not fail. -/
theorem postfixExpressionStack_discipline (P : Process) (fuel : Nat) (ast : AST) (st : State) :
    accept P fuel ast st
        = Except.map (State.withStack st.postfixExpressionStack)
            (acceptEnclosed P fuel st.postfixExpressionStack ast st)
      ∧ (∀ st2, accept P fuel ast st = .ok st2 →
          st2.postfixExpressionStack = st.postfixExpressionStack)
      ∧ (∀ symbol id refs st2, operatorCall P fuel symbol id (some ast) st = .ok (refs, st2) →
          st2.postfixExpressionStack = st.postfixExpressionStack)
      ∧ (memberAccessInside false ast = true →
          accept P fuel ast st ≠ .error .assertionFailed) := by
  have hmain : ∀ (Q : Process) (s : State), accept Q fuel ast s
      = Except.map (State.withStack s.postfixExpressionStack)
          (acceptEnclosed Q fuel s.postfixExpressionStack ast s) :=
    fun Q s => accept_withStack Q fuel ast s.postfixExpressionStack s
  have hkeep : ∀ (Q : Process) (s s2 : State), accept Q fuel ast s = .ok s2 →
      s2.postfixExpressionStack = s.postfixExpressionStack := by
    intro Q s s2 h
    rw [hmain Q s] at h
    cases hr : acceptEnclosed Q fuel s.postfixExpressionStack ast s with
    | error err =>
      rw [hr] at h
      cases h
    | ok r =>
      rw [hr] at h
      cases h
      rfl
  refine ⟨hmain P st, hkeep P st, ?_, ?_⟩
  · intro symbol id refs st2 h
    unfold operatorCall at h
    obtain ⟨s1, h1, h2⟩ := except_bind_ok _ _ _ h
    cases h2
    rw [acceptPtr] at h1
    have hk := hkeep (P.setTarget symbol id) _ _ h1
    exact hk
  · intro hinside
    rw [hmain P st]
    intro h
    cases hr : acceptEnclosed P fuel st.postfixExpressionStack ast st with
    | error err =>
      rw [hr] at h
      cases h
      exact acceptEnclosed_ne_assertionFailed P fuel ast false _ st hinside
        (fun hf => by cases hf) hr
    | ok r =>
      rw [hr] at h
      cases h

theorem postfixExpressionStack_discipline_witness :
    memberAccessInside false sampleAST = true
      ∧ accept (sampleProcess.setTarget 1 (some 1)) 0 sampleAST sampleState
          ≠ .error .assertionFailed
      ∧ sampleFinalState.postfixExpressionStack = sampleState.postfixExpressionStack :=
  ⟨by decide,
    (postfixExpressionStack_discipline (sampleProcess.setTarget 1 (some 1)) 0 sampleAST
      sampleState).2.2.2 (by decide),
    (postfixExpressionStack_discipline sampleProcess 0 sampleAST sampleState).2.2.1 1 (some 1)
      [2, 4] sampleFinalState rfl⟩

theorem accept_memberAccess_outside :
    memberAccessInside false (.memberAccess 9 (some (.simpleName 10 10 (some 7)))) = false
      ∧ accept (sampleProcess.setTarget 1 (some 1)) 0
          (.memberAccess 9 (some (.simpleName 10 10 (some 7)))) sampleState
        = .error .assertionFailed := by
  constructor
  · decide
  · rfl

/-! ## The replacement of spans -/

/-- The characters from the index `i` on, with the spans replaced and the
new text of a span that starts at the end. -/
theorem replaced_eq (text new : List Char) (spans : List (Nat × Nat)) :
    replaced text new spans
      = replacedBody new spans 0 text ++ (if startsAt spans text.length then new else []) :=
  rfl

theorem startsAt_iff (spans : List (Nat × Nat)) (i : Nat) :
    startsAt spans i = true ↔ ∃ s ∈ spans, s.1 = i := by
  simp [startsAt]

theorem covers_iff (spans : List (Nat × Nat)) (i : Nat) :
    covers spans i = true ↔ ∃ s ∈ spans, s.1 ≤ i ∧ i < s.1 + s.2 := by
  simp [covers]

theorem replacedBody_append (new : List Char) (spans : List (Nat × Nat)) :
    ∀ (xs : List Char) (i : Nat) (ys : List Char),
      replacedBody new spans i (xs ++ ys)
        = replacedBody new spans i xs ++ replacedBody new spans (i + xs.length) ys
  | [], i, ys => by simp [replacedBody]
  | c :: xs, i, ys => by
    have h : i + 1 + xs.length = i + (c :: xs).length := by
      simp only [List.length_cons]
      omega
    rw [List.cons_append, replacedBody, replacedBody,
      replacedBody_append new spans xs (i + 1) ys, h]
    simp only [List.append_assoc]

theorem replacedBody_congr (new : List Char) (spans spans2 : List (Nat × Nat)) :
    ∀ (cs : List Char) (i j : Nat),
      (∀ k, k < cs.length → startsAt spans (i + k) = startsAt spans2 (j + k)
        ∧ covers spans (i + k) = covers spans2 (j + k)) →
      replacedBody new spans i cs = replacedBody new spans2 j cs
  | [], _, _, _ => rfl
  | c :: cs, i, j, h => by
    have h0 := h 0 (by simp)
    simp only [Nat.add_zero] at h0
    rw [replacedBody, replacedBody, h0.1, h0.2,
      replacedBody_congr new spans spans2 cs (i + 1) (j + 1)]
    intro k hk
    have hk2 := h (k + 1) (by simp; omega)
    have e1 : i + 1 + k = i + (k + 1) := by omega
    have e2 : j + 1 + k = j + (k + 1) := by omega
    rw [e1, e2]
    exact hk2

theorem replacedBody_untouched (new : List Char) (spans : List (Nat × Nat)) :
    ∀ (cs : List Char) (i : Nat),
      (∀ k, k < cs.length → startsAt spans (i + k) = false ∧ covers spans (i + k) = false) →
      replacedBody new spans i cs = cs
  | [], _, _ => rfl
  | c :: cs, i, h => by
    have h0 := h 0 (by simp)
    simp only [Nat.add_zero] at h0
    rw [replacedBody, h0.1, h0.2, replacedBody_untouched new spans cs (i + 1)]
    · simp
    · intro k hk
      have hk2 := h (k + 1) (by simp; omega)
      have e1 : i + 1 + k = i + (k + 1) := by omega
      rw [e1]
      exact hk2

theorem replacedBody_covered (new : List Char) (spans : List (Nat × Nat)) :
    ∀ (cs : List Char) (i : Nat),
      (∀ k, k < cs.length → startsAt spans (i + k) = false ∧ covers spans (i + k) = true) →
      replacedBody new spans i cs = []
  | [], _, _ => rfl
  | c :: cs, i, h => by
    have h0 := h 0 (by simp)
    simp only [Nat.add_zero] at h0
    rw [replacedBody, h0.1, h0.2, replacedBody_covered new spans cs (i + 1)]
    · simp
    · intro k hk
      have hk2 := h (k + 1) (by simp; omega)
      have e1 : i + 1 + k = i + (k + 1) := by omega
      rw [e1]
      exact hk2

theorem replacedFrom_append (new : List Char) (spans : List (Nat × Nat)) (xs : List Char)
    (i : Nat) (ys : List Char) :
    replacedFrom new spans i (xs ++ ys)
      = replacedBody new spans i xs ++ replacedFrom new spans (i + xs.length) ys := by
  unfold replacedFrom
  rw [replacedBody_append, List.length_append, List.append_assoc, Nat.add_assoc]

theorem replacedFrom_congr (new : List Char) (spans spans2 : List (Nat × Nat))
    (cs : List Char) (i j : Nat)
    (hs : ∀ k, k ≤ cs.length → startsAt spans (i + k) = startsAt spans2 (j + k))
    (hc : ∀ k, k < cs.length → covers spans (i + k) = covers spans2 (j + k)) :
    replacedFrom new spans i cs = replacedFrom new spans2 j cs := by
  unfold replacedFrom
  rw [replacedBody_congr new spans spans2 cs i j
    (fun k hk => ⟨hs k (Nat.le_of_lt hk), hc k hk⟩), hs cs.length (Nat.le_refl _)]

theorem startsAt_cons (s : Nat × Nat) (spans : List (Nat × Nat)) (i : Nat) :
    startsAt (s :: spans) i = (decide (s.1 = i) || startsAt spans i) := by
  simp [startsAt]

theorem covers_cons (s : Nat × Nat) (spans : List (Nat × Nat)) (i : Nat) :
    covers (s :: spans) i = (decide (s.1 ≤ i ∧ i < s.1 + s.2) || covers spans i) := by
  simp [covers]

theorem replacedFrom_nil (new : List Char) (spans : List (Nat × Nat)) (i : Nat) :
    replacedFrom new spans i [] = if startsAt spans i then new else [] := by
  simp [replacedFrom, replacedBody]

theorem replacedFrom_cons (new : List Char) (spans : List (Nat × Nat)) (i : Nat) (c : Char)
    (cs : List Char) :
    replacedFrom new spans i (c :: cs)
      = (if startsAt spans i then new else []) ++ (if covers spans i then [] else [c])
        ++ replacedFrom new spans (i + 1) cs := by
  unfold replacedFrom
  have e : i + (c :: cs).length = i + 1 + cs.length := by
    simp only [List.length_cons]
    omega
  rw [replacedBody, e]
  simp only [List.append_assoc]

/-- The part of a text from a span on, with the span and other spans
replaced: the new text, then the part behind the span with the other spans
replaced, when no other span starts or covers an index from the start of
the span to its end. -/
theorem replacedFrom_span (new : List Char) (a l : Nat) (R : List (Nat × Nat))
    (mid post : List Char) (hmid : mid.length = l)
    (hfree : ∀ i, a ≤ i → i ≤ a + l → startsAt R i = false ∧ covers R i = false) :
    replacedBody new ((a, l) :: R) a mid ++ replacedFrom new ((a, l) :: R) (a + l) post
      = new ++ replacedFrom new R (a + l) post := by
  have hbehind : ∀ (cs : List Char) (i : Nat), a < i → a + l ≤ i →
      replacedFrom new ((a, l) :: R) i cs = replacedFrom new R i cs := by
    intro cs i hi1 hi2
    apply replacedFrom_congr
    · intro k _
      rw [startsAt_cons]
      have : decide (a = i + k) = false := by simp; omega
      simp [this]
    · intro k _
      rw [covers_cons]
      have : decide (a ≤ i + k ∧ i + k < a + l) = false := by simp; omega
      simp [this]
  have hstart : startsAt ((a, l) :: R) a = true := by simp [startsAt_cons]
  have hfa := hfree a (Nat.le_refl a) (by omega)
  cases mid with
  | nil =>
    simp only [List.length_nil] at hmid
    subst hmid
    simp only [replacedBody, List.nil_append, Nat.add_zero]
    have hcov : covers ((a, 0) :: R) a = false := by
      rw [covers_cons, hfa.2]
      simp
    cases post with
    | nil =>
      rw [replacedFrom_nil, replacedFrom_nil, hstart, hfa.1]
      simp
    | cons c post =>
      rw [replacedFrom_cons, replacedFrom_cons, hstart, hcov, hfa.1, hfa.2,
        hbehind post (a + 1) (by omega) (by omega)]
      simp
  | cons c mid =>
    simp only [List.length_cons] at hmid
    have hcov : replacedBody new ((a, l) :: R) (a + 1) mid = [] := by
      apply replacedBody_covered
      intro k hk
      have hf := hfree (a + 1 + k) (by omega) (by omega)
      rw [startsAt_cons, covers_cons, hf.1, hf.2]
      have h1 : decide (a = a + 1 + k) = false := by simp; omega
      have h2 : decide (a ≤ a + 1 + k ∧ a + 1 + k < a + l) = true := by simp; omega
      simp [h1, h2]
    have h0 : covers ((a, l) :: R) a = true := by
      rw [covers_cons]
      have : decide (a ≤ a ∧ a < a + l) = true := by simp; omega
      rw [this]
      rfl
    rw [replacedBody, hcov, hstart, h0, hbehind post (a + l) (by omega) (Nat.le_refl _)]
    simp

theorem shiftSpan_before (a l m : Nat) (r : Nat × Nat) (h : r.1 + r.2 < a) :
    shiftSpan a l m r = r := by
  simp [shiftSpan, h]

theorem shiftSpan_after (a l m : Nat) (r : Nat × Nat) (h : a + l < r.1) :
    shiftSpan a l m r = (r.1 - l + m, r.2) := by
  have : ¬ r.1 + r.2 < a := by omega
  simp [shiftSpan, this]

theorem startsAt_map_iff (f : Nat × Nat → Nat × Nat) (R : List (Nat × Nat)) (i : Nat) :
    startsAt (R.map f) i = true ↔ ∃ r ∈ R, (f r).1 = i := by
  simp [startsAt]

theorem covers_map_iff (f : Nat × Nat → Nat × Nat) (R : List (Nat × Nat)) (i : Nat) :
    covers (R.map f) i = true ↔ ∃ r ∈ R, (f r).1 ≤ i ∧ i < (f r).1 + (f r).2 := by
  simp [covers]

/-- No span apart from the span from `a` with `l` characters starts at or
covers an index from `a` to `a + l`. -/
theorem apart_free (a l : Nat) (R : List (Nat × Nat)) (hR : ∀ r ∈ R, Apart r (a, l)) :
    ∀ i, a ≤ i → i ≤ a + l → startsAt R i = false ∧ covers R i = false := by
  intro i h1 h2
  constructor
  · rw [Bool.eq_false_iff, Ne, startsAt_iff]
    rintro ⟨r, hr, hri⟩
    rcases hR r hr with h | h <;> simp only at h <;> omega
  · rw [Bool.eq_false_iff, Ne, covers_iff]
    rintro ⟨r, hr, hri⟩
    rcases hR r hr with h | h <;> simp only at h <;> omega

/-- Before `a` the shifted spans start and cover as the spans do. -/
theorem shifted_before (a l m : Nat) (R : List (Nat × Nat)) (hR : ∀ r ∈ R, Apart r (a, l))
    (i : Nat) (hi : i < a) :
    startsAt (R.map (shiftSpan a l m)) i = startsAt R i
      ∧ covers (R.map (shiftSpan a l m)) i = covers R i := by
  constructor
  · rw [Bool.eq_iff_iff, startsAt_map_iff, startsAt_iff]
    constructor
    · rintro ⟨r, hr, hri⟩
      refine ⟨r, hr, ?_⟩
      rcases hR r hr with h | h <;> simp only at h
      · rw [shiftSpan_before a l m r h] at hri
        exact hri
      · rw [shiftSpan_after a l m r h] at hri
        simp only at hri
        omega
    · rintro ⟨r, hr, hri⟩
      refine ⟨r, hr, ?_⟩
      rcases hR r hr with h | h <;> simp only at h
      · rw [shiftSpan_before a l m r h]
        exact hri
      · omega
  · rw [Bool.eq_iff_iff, covers_map_iff, covers_iff]
    constructor
    · rintro ⟨r, hr, hri⟩
      refine ⟨r, hr, ?_⟩
      rcases hR r hr with h | h <;> simp only at h
      · rw [shiftSpan_before a l m r h] at hri
        exact hri
      · rw [shiftSpan_after a l m r h] at hri
        simp only at hri
        omega
    · rintro ⟨r, hr, hri⟩
      refine ⟨r, hr, ?_⟩
      rcases hR r hr with h | h <;> simp only at h
      · rw [shiftSpan_before a l m r h]
        exact hri
      · omega

/-- Behind the new text the shifted spans start and cover as the spans do
behind the replaced span. -/
theorem shifted_behind (a l m : Nat) (R : List (Nat × Nat)) (hR : ∀ r ∈ R, Apart r (a, l))
    (k : Nat) :
    startsAt (R.map (shiftSpan a l m)) (a + m + k) = startsAt R (a + l + k)
      ∧ covers (R.map (shiftSpan a l m)) (a + m + k) = covers R (a + l + k) := by
  constructor
  · rw [Bool.eq_iff_iff, startsAt_map_iff, startsAt_iff]
    constructor
    · rintro ⟨r, hr, hri⟩
      refine ⟨r, hr, ?_⟩
      rcases hR r hr with h | h <;> simp only at h
      · rw [shiftSpan_before a l m r h] at hri
        omega
      · rw [shiftSpan_after a l m r h] at hri
        simp only at hri
        omega
    · rintro ⟨r, hr, hri⟩
      refine ⟨r, hr, ?_⟩
      rcases hR r hr with h | h <;> simp only at h
      · omega
      · rw [shiftSpan_after a l m r h]
        simp only
        omega
  · rw [Bool.eq_iff_iff, covers_map_iff, covers_iff]
    constructor
    · rintro ⟨r, hr, hri⟩
      refine ⟨r, hr, ?_⟩
      rcases hR r hr with h | h <;> simp only at h
      · rw [shiftSpan_before a l m r h] at hri
        omega
      · rw [shiftSpan_after a l m r h] at hri
        simp only at hri
        omega
    · rintro ⟨r, hr, hri⟩
      refine ⟨r, hr, ?_⟩
      rcases hR r hr with h | h <;> simp only at h
      · omega
      · rw [shiftSpan_after a l m r h]
        simp only
        omega

/-- No shifted span starts at or covers an index of the new text. -/
theorem shifted_free (a l m : Nat) (R : List (Nat × Nat)) (hR : ∀ r ∈ R, Apart r (a, l))
    (i : Nat) (h1 : a ≤ i) (h2 : i < a + m) :
    startsAt (R.map (shiftSpan a l m)) i = false
      ∧ covers (R.map (shiftSpan a l m)) i = false := by
  constructor
  · rw [Bool.eq_false_iff, Ne, startsAt_map_iff]
    rintro ⟨r, hr, hri⟩
    rcases hR r hr with h | h <;> simp only at h
    · rw [shiftSpan_before a l m r h] at hri
      omega
    · rw [shiftSpan_after a l m r h] at hri
      simp only at hri
      omega
  · rw [Bool.eq_false_iff, Ne, covers_map_iff]
    rintro ⟨r, hr, hri⟩
    rcases hR r hr with h | h <;> simp only at h
    · rw [shiftSpan_before a l m r h] at hri
      omega
    · rw [shiftSpan_after a l m r h] at hri
      simp only at hri
      omega

theorem replaced_eq_replacedFrom (text new : List Char) (spans : List (Nat × Nat)) :
    replaced text new spans = replacedFrom new spans 0 text := by
  simp [replaced, replacedFrom]

/-- The replacement of a span and of spans apart from it is the replacement
of the shifted spans in the text with the span replaced. -/
theorem replaced_step (text new : List Char) (a l : Nat) (R : List (Nat × Nat))
    (hal : a + l ≤ text.length) (hR : ∀ r ∈ R, Apart r (a, l)) :
    replaced (text.take a ++ new ++ text.drop (a + l)) new (R.map (shiftSpan a l new.length))
      = replaced text new ((a, l) :: R) := by
  have htext : text = text.take a ++ ((text.drop a).take l ++ text.drop (a + l)) := by
    rw [← List.drop_drop, List.take_append_drop, List.take_append_drop]
  have hpre : (text.take a).length = a := by
    rw [List.length_take]
    omega
  have hmid : ((text.drop a).take l).length = l := by
    rw [List.length_take, List.length_drop]
    omega
  have hleft : replaced (text.take a ++ new ++ text.drop (a + l)) new
      (R.map (shiftSpan a l new.length))
      = replacedBody new R 0 (text.take a) ++ (new ++ replacedFrom new R (a + l)
          (text.drop (a + l))) := by
    rw [replaced_eq_replacedFrom, List.append_assoc, replacedFrom_append, replacedFrom_append,
      hpre, Nat.zero_add]
    congr 1
    · apply replacedBody_congr
      intro k hk
      rw [hpre] at hk
      simp only [Nat.zero_add]
      exact shifted_before a l new.length R hR k hk
    · congr 1
      · apply replacedBody_untouched
        intro k hk
        exact shifted_free a l new.length R hR (a + k) (by omega) (by omega)
      · apply replacedFrom_congr
        · intro k _
          exact (shifted_behind a l new.length R hR k).1
        · intro k _
          exact (shifted_behind a l new.length R hR k).2
  have hright : replaced text new ((a, l) :: R)
      = replacedBody new R 0 (text.take a) ++ (new ++ replacedFrom new R (a + l)
          (text.drop (a + l))) := by
    have h : replaced text new ((a, l) :: R)
        = replacedFrom new ((a, l) :: R) 0
            (text.take a ++ ((text.drop a).take l ++ text.drop (a + l))) := by
      rw [← htext, replaced_eq_replacedFrom]
    rw [h, replacedFrom_append, replacedFrom_append, hpre, hmid, Nat.zero_add,
      replacedFrom_span new a l R _ _ hmid (apart_free a l R hR)]
    congr 1
    apply replacedBody_congr
    intro k hk
    rw [hpre] at hk
    simp only [Nat.zero_add]
    rw [startsAt_cons, covers_cons]
    have h1 : decide (a = k) = false := by simp; omega
    have h2 : decide (a ≤ k ∧ k < a + l) = false := by simp; omega
    simp [h1, h2]
  rw [hleft, hright]

theorem replaced_nil (text new : List Char) : replaced text new [] = text := by
  unfold replaced
  rw [replacedBody_untouched new [] text 0 (fun k _ => ⟨rfl, rfl⟩)]
  simp [startsAt]

theorem apart_symm {a b : Nat × Nat} (h : Apart a b) : Apart b a :=
  Or.symm h

/-- The adjustment of a cursor that selects a span apart from the replaced
span: the cursor that selects the shifted span. -/
theorem adjust_toCursor (a l m : Nat) (r : Nat × Nat) (h : Apart r (a, l)) :
    TextCursor.adjust (adjustReplaced a l m) (toCursor r) = toCursor (shiftSpan a l m r) := by
  obtain ⟨r1, r2⟩ := r
  rcases h with h | h <;> simp only at h
  · rw [shiftSpan_before a l m (r1, r2) h]
    have h1 : r1 < a := by omega
    simp [TextCursor.adjust, toCursor, adjustReplaced, adjustRemoved, adjustInserted, h, h1]
  · rw [shiftSpan_after a l m (r1, r2) h]
    have h1 : ¬ r1 < a := by omega
    have h2 : ¬ r1 < a + l := by omega
    have h3 : ¬ r1 + r2 < a := by omega
    have h4 : ¬ r1 + r2 < a + l := by omega
    have h5 : ¬ r1 - l < a := by omega
    have h6 : ¬ r1 + r2 - l < a := by omega
    simp only [TextCursor.adjust, toCursor, adjustReplaced, adjustRemoved, adjustInserted, h1,
      h2, h3, h4, h5, h6, if_false, TextCursor.mk.injEq]
    refine ⟨trivial, ?_⟩
    omega

theorem insertText_toCursor (text new : List Char) (s : Nat × Nat) :
    insertText text new (toCursor s) = text.take s.1 ++ new ++ text.drop (s.1 + s.2) := by
  simp [insertText, toCursor, TextCursor.selectionStart, TextCursor.selectionLength]

theorem apart_shift (a l m : Nat) (r r2 : Nat × Nat) (h1 : Apart r (a, l))
    (h2 : Apart r2 (a, l)) (h : Apart r r2) :
    Apart (shiftSpan a l m r) (shiftSpan a l m r2) := by
  rcases h1 with h1 | h1 <;> rcases h2 with h2 | h2 <;> simp only at h1 h2
  · rw [shiftSpan_before a l m r h1, shiftSpan_before a l m r2 h2]
    exact h
  · rw [shiftSpan_before a l m r h1, shiftSpan_after a l m r2 h2]
    left
    simp only
    omega
  · rw [shiftSpan_after a l m r h1, shiftSpan_before a l m r2 h2]
    right
    simp only
    omega
  · rw [shiftSpan_after a l m r h1, shiftSpan_after a l m r2 h2]
    rcases h with h | h
    · left
      simp only
      omega
    · right
      simp only
      omega

/-- The second loop of `applyChanges` on cursors that, adjusted, select spans
inside the text and apart from each other: the text with the spans
replaced. -/
theorem applyCursors_replaced (new : List Char) :
    ∀ (cs : List TextCursor) (ss : List (Nat × Nat)) (text : List Char) (adjust : Nat → Nat),
      cs.map (TextCursor.adjust adjust) = ss.map toCursor →
      (∀ s ∈ ss, s.1 + s.2 ≤ text.length) → ss.Pairwise Apart →
      applyCursors new text adjust cs = replaced text new ss
  | [], ss, text, adjust, hcs, _, _ => by
    have hss : ss = [] := by
      cases ss with
      | nil => rfl
      | cons s R => simp at hcs
    subst hss
    rw [replaced_nil]
    rfl
  | tc :: rest, ss, text, adjust, hcs, hvalid, hapart => by
    cases ss with
    | nil => simp at hcs
    | cons s R =>
      simp only [List.map_cons, List.cons.injEq] at hcs
      obtain ⟨htc, hrest⟩ := hcs
      rw [List.pairwise_cons] at hapart
      obtain ⟨hs, hR⟩ := hapart
      have hRs : ∀ r ∈ R, Apart r (s.1, s.2) := fun r hr => apart_symm (hs r hr)
      have hsv := hvalid s (List.mem_cons_self _ _)
      rw [applyCursors, htc, insertText_toCursor]
      have hstart : (toCursor s).selectionStart = s.1 := by
        simp [toCursor, TextCursor.selectionStart]
      have hlen : (toCursor s).selectionLength = s.2 := by
        simp [toCursor, TextCursor.selectionLength]
      rw [hstart, hlen]
      have hmap : rest.map (TextCursor.adjust
          (fun x => adjustReplaced s.1 s.2 new.length (adjust x)))
          = (R.map (shiftSpan s.1 s.2 new.length)).map toCursor := by
        have h1 : rest.map (TextCursor.adjust
            (fun x => adjustReplaced s.1 s.2 new.length (adjust x)))
            = (rest.map (TextCursor.adjust adjust)).map
                (TextCursor.adjust (adjustReplaced s.1 s.2 new.length)) := by
          rw [List.map_map]
          rfl
        rw [h1, hrest, List.map_map, List.map_map]
        apply List.map_congr_left
        intro r hr
        exact adjust_toCursor s.1 s.2 new.length r (hRs r hr)
      rw [applyCursors_replaced new rest (R.map (shiftSpan s.1 s.2 new.length)) _ _ hmap]
      · exact replaced_step text new s.1 s.2 R hsv hRs
      · intro r2 hr2
        obtain ⟨r, hr, rfl⟩ := List.mem_map.mp hr2
        have hrv := hvalid r (List.mem_cons_of_mem _ hr)
        have hl : (text.take s.1 ++ new ++ text.drop (s.1 + s.2)).length
            = s.1 + new.length + (text.length - (s.1 + s.2)) := by
          simp only [List.length_append, List.length_take, List.length_drop]
          omega
        rw [hl]
        rcases hRs r hr with h | h <;> simp only at h
        · rw [shiftSpan_before _ _ _ r h]
          omega
        · rw [shiftSpan_after _ _ _ r h]
          simp only
          omega
      · rw [List.pairwise_map]
        refine List.Pairwise.imp_of_mem ?_ hR
        intro r r2 hr hr2 h
        exact apart_shift s.1 s.2 new.length r r2 (hRs r hr) (hRs r2 hr2) h

theorem cursorForItem_of_span (text : List Char) (item : SearchResultItem) (s : Nat × Nat)
    (h : itemSpan text item = some s) (hv : s.1 + s.2 ≤ text.length) :
    cursorForItem text item = some (toCursor s) := by
  unfold itemSpan at h
  unfold cursorForItem
  by_cases h0 : item.lineNumber = 0
  · simp [h0] at h
  · rw [if_neg h0] at h
    rw [if_neg h0]
    cases hb : findBlockByNumber text (item.lineNumber - 1) with
    | none => simp [hb] at h
    | some blockPosition =>
      rw [hb] at h
      simp only [Option.map_some', Option.some.injEq] at h
      subst h
      simp only at hv
      have h1 : ¬ text.length < blockPosition + item.searchTermStart := by omega
      have h2 : ¬ text.length < blockPosition + item.searchTermStart + item.searchTermLength := by
        omega
      simp [TextCursor.setPosition, toCursor, h1, h2]

theorem filterMap_cursorForItem (text : List Char) :
    ∀ items : List SearchResultItem,
      (∀ item ∈ items, ∃ s, itemSpan text item = some s ∧ s.1 + s.2 ≤ text.length) →
      items.filterMap (cursorForItem text) = (items.filterMap (itemSpan text)).map toCursor
  | [], _ => rfl
  | item :: rest, h => by
    obtain ⟨s, hs, hv⟩ := h item (List.mem_cons_self _ _)
    rw [List.filterMap_cons_some (cursorForItem_of_span text item s hs hv),
      List.filterMap_cons_some hs, List.map_cons,
      filterMap_cursorForItem text rest (fun i hi => h i (List.mem_cons_of_mem _ hi))]

theorem map_adjust_id (cs : List TextCursor) : cs.map (TextCursor.adjust id) = cs := by
  induction cs with
  | nil => rfl
  | cons c rest ih => rw [List.map_cons, ih]; rfl

/-- The edit of `applyChanges` on items whose spans lie inside the text and
apart from each other: the text with the spans replaced. -/
theorem applyChanges_eq_replaced (text new : List Char) (items : List SearchResultItem)
    (hvalid : ∀ item ∈ items, ∃ s, itemSpan text item = some s ∧ s.1 + s.2 ≤ text.length)
    (hapart : (items.filterMap (itemSpan text)).Pairwise Apart) :
    applyChanges text new items = replaced text new (items.filterMap (itemSpan text)) := by
  unfold applyChanges
  apply applyCursors_replaced new _ _ text id
  · rw [map_adjust_id, filterMap_cursorForItem text items hvalid]
  · intro s hs
    rw [List.mem_filterMap] at hs
    obtain ⟨item, hi, his⟩ := hs
    obtain ⟨s2, hs2, hv⟩ := hvalid item hi
    rw [his] at hs2
    cases hs2
    exact hv
  · exact hapart

theorem replaced_perm (text new : List Char) (ss ss2 : List (Nat × Nat)) (h : ss2.Perm ss) :
    replaced text new ss2 = replaced text new ss := by
  rw [replaced_eq_replacedFrom, replaced_eq_replacedFrom]
  apply replacedFrom_congr
  · intro k _
    rw [Bool.eq_iff_iff, startsAt_iff, startsAt_iff]
    constructor
    · rintro ⟨s, hs, he⟩
      exact ⟨s, h.mem_iff.mp hs, he⟩
    · rintro ⟨s, hs, he⟩
      exact ⟨s, h.mem_iff.mpr hs, he⟩
  · intro k _
    rw [Bool.eq_iff_iff, covers_iff, covers_iff]
    constructor
    · rintro ⟨s, hs, he⟩
      exact ⟨s, h.mem_iff.mp hs, he⟩
    · rintro ⟨s, hs, he⟩
      exact ⟨s, h.mem_iff.mpr hs, he⟩

/-- The edit of `applyChanges` does not depend on the order of the items when
their spans lie inside the text and apart from each other. -/
theorem applyChanges_perm (text new : List Char) (items items2 : List SearchResultItem)
    (hvalid : ∀ item ∈ items, ∃ s, itemSpan text item = some s ∧ s.1 + s.2 ≤ text.length)
    (hapart : (items.filterMap (itemSpan text)).Pairwise Apart)
    (hperm : items2.Perm items) :
    applyChanges text new items2 = applyChanges text new items := by
  have hp : (items2.filterMap (itemSpan text)).Perm (items.filterMap (itemSpan text)) :=
    hperm.filterMap _
  rw [applyChanges_eq_replaced text new items hvalid hapart,
    applyChanges_eq_replaced text new items2
      (fun item hi => hvalid item (hperm.mem_iff.mp hi))
      ((hp.pairwise_iff (fun h => apart_symm h)).mpr hapart)]
  exact replaced_perm text new _ _ hp

/-- C12, counterexample: the spans `(3, 3)` and `(0, 3)` of `abcdef` are
disjoint and inside the text, and replacing both by `xy` is `xyxy`; with the
later span first in the list `applyChanges` produces `xy`, because the cursor
of the earlier span ends where the first insertion takes place and is moved
behind the inserted text, and with the earlier span first it produces
`xyxy`. -/
theorem applyChanges_adjacent_order :
    itemSpan "abcdef".data (itemAt 1 3 3) = some (3, 3)
      ∧ itemSpan "abcdef".data (itemAt 1 0 3) = some (0, 3)
      ∧ replaced "abcdef".data "xy".data [(3, 3), (0, 3)] = "xyxy".data
      ∧ applyChanges "abcdef".data "xy".data [itemAt 1 3 3, itemAt 1 0 3] = "xy".data
      ∧ applyChanges "abcdef".data "xy".data [itemAt 1 0 3, itemAt 1 3 3] = "xyxy".data := by
  decide

/-- C12 (amended): for every text, replacement text and list of occurrences
whose spans, computed on the unedited text, lie inside the text and apart
from each other (at least one character between two spans), `applyChanges`
produces the text in which each span is replaced by the replacement text and
every other character is kept, and every reordering of the list gives the
same text. -/
theorem applyChanges_apart (text new : List Char) (items : List SearchResultItem)
    (hvalid : ∀ item ∈ items, ∃ s, itemSpan text item = some s ∧ s.1 + s.2 ≤ text.length)
    (hapart : (items.filterMap (itemSpan text)).Pairwise Apart) :
    applyChanges text new items = replaced text new (items.filterMap (itemSpan text))
      ∧ ∀ items2 : List SearchResultItem, items2.Perm items →
          applyChanges text new items2 = applyChanges text new items :=
  ⟨applyChanges_eq_replaced text new items hvalid hapart,
    fun items2 h => applyChanges_perm text new items items2 hvalid hapart h⟩

theorem sampleOccurrences_valid :
    ∀ item ∈ sampleOccurrences,
      ∃ s, itemSpan sampleText item = some s ∧ s.1 + s.2 ≤ sampleText.length := by
  intro item hi
  simp only [sampleOccurrences, List.mem_cons, List.mem_singleton, List.not_mem_nil,
    or_false] at hi
  rcases hi with rfl | rfl | rfl
  · exact ⟨(6, 2), by decide, by decide⟩
  · exact ⟨(9, 2), by decide, by decide⟩
  · exact ⟨(0, 2), by decide, by decide⟩

theorem sampleOccurrences_spans :
    sampleOccurrences.filterMap (itemSpan sampleText) = [(6, 2), (9, 2), (0, 2)] := by
  decide

theorem sampleOccurrences_apart :
    (sampleOccurrences.filterMap (itemSpan sampleText)).Pairwise Apart := by
  rw [sampleOccurrences_spans]
  simp [Apart]

theorem applyChanges_apart_witness :
    applyChanges sampleText "xyz".data sampleOccurrences
        = replaced sampleText "xyz".data (sampleOccurrences.filterMap (itemSpan sampleText))
      ∧ ∀ items2 : List SearchResultItem, items2.Perm sampleOccurrences →
          applyChanges sampleText "xyz".data items2
            = applyChanges sampleText "xyz".data sampleOccurrences :=
  applyChanges_apart sampleText "xyz".data sampleOccurrences sampleOccurrences_valid
    sampleOccurrences_apart

theorem applyChanges_sample :
    applyChanges sampleText "xyz".data sampleOccurrences = "xyz cd xyz\nxyz".data
      ∧ replaced sampleText "xyz".data [(6, 2), (9, 2), (0, 2)] = "xyz cd xyz\nxyz".data := by
  decide


/-! ## The start of a line -/

theorem blockPositionFrom_zero (cs : List Char) (pos : Nat) :
    blockPositionFrom cs pos 0 = some pos := by
  cases cs <;> rfl

theorem blockPositionFrom_pos :
    ∀ (cs : List Char) (pos n : Nat),
      blockPositionFrom cs pos n = (blockPositionFrom cs 0 n).map (fun b => b + pos)
  | cs, pos, 0 => by
    rw [blockPositionFrom_zero, blockPositionFrom_zero]
    simp
  | [], pos, n + 1 => rfl
  | c :: rest, pos, n + 1 => by
    by_cases hc : c = '\n'
    · simp only [blockPositionFrom, hc, if_true]
      rw [blockPositionFrom_pos rest (pos + 1) n, blockPositionFrom_pos rest (0 + 1) n]
      cases blockPositionFrom rest 0 n with
      | none => rfl
      | some b =>
        simp only [Option.map_some', Option.some.injEq]
        omega
    · simp only [blockPositionFrom, hc, if_false]
      rw [blockPositionFrom_pos rest (pos + 1) (n + 1),
        blockPositionFrom_pos rest (0 + 1) (n + 1)]
      cases blockPositionFrom rest 0 (n + 1) with
      | none => rfl
      | some b =>
        simp only [Option.map_some', Option.some.injEq]
        omega

/-- The start of a line counted from another position: the start moves
along. -/
theorem blockPositionFrom_some (cs : List Char) (pos n b : Nat)
    (h : blockPositionFrom cs pos n = some b) :
    pos ≤ b ∧ ∀ pos2, blockPositionFrom cs pos2 n = some (pos2 + (b - pos)) := by
  rw [blockPositionFrom_pos] at h
  cases h0 : blockPositionFrom cs 0 n with
  | none => simp [h0] at h
  | some b0 =>
    rw [h0] at h
    simp only [Option.map_some', Option.some.injEq] at h
    refine ⟨by omega, fun pos2 => ?_⟩
    rw [blockPositionFrom_pos, h0]
    simp only [Option.map_some', Option.some.injEq]
    omega

theorem blockPositionFrom_none (cs : List Char) (pos n : Nat)
    (h : blockPositionFrom cs pos n = none) (pos2 : Nat) :
    blockPositionFrom cs pos2 n = none := by
  rw [blockPositionFrom_pos] at h
  rw [blockPositionFrom_pos]
  cases h0 : blockPositionFrom cs 0 n with
  | none => rfl
  | some b0 => simp [h0] at h

/-- The start of a line of a text of two parts: the start in the first part
when it has the line, else the start in the second part of the line less the
line breaks of the first. -/
theorem blockPositionFrom_append :
    ∀ (G X : List Char) (pos n : Nat),
      blockPositionFrom (G ++ X) pos n
        = match blockPositionFrom G pos n with
          | some b => some b
          | none => blockPositionFrom X (pos + G.length) (n - G.count '\n')
  | G, X, pos, 0 => by
    rw [blockPositionFrom_zero, blockPositionFrom_zero]
  | [], X, pos, n + 1 => by
    simp [blockPositionFrom]
  | c :: G, X, pos, n + 1 => by
    by_cases hc : c = '\n'
    · subst hc
      simp only [List.cons_append, blockPositionFrom, if_true, List.append_eq]
      rw [blockPositionFrom_append G X (pos + 1) n]
      have h1 : pos + 1 + G.length = pos + ('\n' :: G).length := by
        simp only [List.length_cons]
        omega
      have h2 : n - G.count '\n' = n + 1 - ('\n' :: G).count '\n' := by
        rw [List.count_cons_self]
        omega
      rw [h1, h2]
    · simp only [List.cons_append, blockPositionFrom, hc, if_false, List.append_eq]
      rw [blockPositionFrom_append G X (pos + 1) (n + 1)]
      have h1 : pos + 1 + G.length = pos + (c :: G).length := by
        simp only [List.length_cons]
        omega
      have h2 : (c :: G).count '\n' = G.count '\n' := by
        rw [List.count_cons_of_ne]
        exact fun h => hc h.symm
      rw [h1, h2]

theorem blockPositionFrom_none_count :
    ∀ (G : List Char) (pos n : Nat), blockPositionFrom G pos n = none → G.count '\n' < n
  | G, pos, 0, h => by
    rw [blockPositionFrom_zero] at h
    cases h
  | [], pos, n + 1, _ => by simp
  | c :: G, pos, n + 1, h => by
    by_cases hc : c = '\n'
    · subst hc
      simp only [blockPositionFrom, if_true] at h
      have := blockPositionFrom_none_count G (pos + 1) n h
      rw [List.count_cons_self]
      omega
    · simp only [blockPositionFrom, hc, if_false] at h
      have := blockPositionFrom_none_count G (pos + 1) (n + 1) h
      rw [List.count_cons_of_ne (fun h => hc h.symm)]
      exact this

theorem blockPositionFrom_le :
    ∀ (G : List Char) (pos n b : Nat), blockPositionFrom G pos n = some b → b ≤ pos + G.length
  | G, pos, 0, b, h => by
    rw [blockPositionFrom_zero] at h
    cases h
    omega
  | [], pos, n + 1, b, h => by cases h
  | c :: G, pos, n + 1, b, h => by
    by_cases hc : c = '\n'
    · subst hc
      simp only [blockPositionFrom, if_true] at h
      have := blockPositionFrom_le G (pos + 1) n b h
      simp only [List.length_cons]
      omega
    · simp only [blockPositionFrom, hc, if_false] at h
      have := blockPositionFrom_le G (pos + 1) (n + 1) b h
      simp only [List.length_cons]
      omega

/-- The start of a line behind the first: behind a line break. -/
theorem blockPositionFrom_break :
    ∀ (cs : List Char) (pos n b : Nat), blockPositionFrom cs pos (n + 1) = some b →
      pos < b ∧ cs[b - 1 - pos]? = some '\n'
  | [], pos, n, b, h => by cases h
  | c :: cs, pos, n, b, h => by
    by_cases hc : c = '\n'
    · subst hc
      simp only [blockPositionFrom, if_true] at h
      cases n with
      | zero =>
        rw [blockPositionFrom_zero] at h
        cases h
        simp
      | succ n =>
        obtain ⟨h1, h2⟩ := blockPositionFrom_break cs (pos + 1) n b h
        refine ⟨by omega, ?_⟩
        have h3 : b - 1 - pos = (b - 1 - (pos + 1)) + 1 := by omega
        rw [h3, List.getElem?_cons_succ]
        exact h2
    · simp only [blockPositionFrom, hc, if_false] at h
      obtain ⟨h1, h2⟩ := blockPositionFrom_break cs (pos + 1) n b h
      refine ⟨by omega, ?_⟩
      have h3 : b - 1 - pos = (b - 1 - (pos + 1)) + 1 := by omega
      rw [h3, List.getElem?_cons_succ]
      exact h2

/-- The start of a later line lies behind the start of an earlier line. -/
theorem blockPositionFrom_lt :
    ∀ (cs : List Char) (pos n1 n2 b1 b2 : Nat), n1 < n2 →
      blockPositionFrom cs pos n1 = some b1 → blockPositionFrom cs pos n2 = some b2 → b1 < b2
  | cs, pos, 0, n2 + 1, b1, b2, _, h1, h2 => by
    rw [blockPositionFrom_zero] at h1
    cases h1
    exact (blockPositionFrom_break cs pos n2 b2 h2).1
  | [], pos, n1 + 1, n2 + 1, b1, b2, _, h1, _ => by cases h1
  | c :: cs, pos, n1 + 1, n2 + 1, b1, b2, hn, h1, h2 => by
    by_cases hc : c = '\n'
    · subst hc
      simp only [blockPositionFrom, if_true] at h1 h2
      exact blockPositionFrom_lt cs (pos + 1) n1 n2 b1 b2 (by omega) h1 h2
    · simp only [blockPositionFrom, hc, if_false] at h1 h2
      exact blockPositionFrom_lt cs (pos + 1) (n1 + 1) (n2 + 1) b1 b2 hn h1 h2

theorem blockPositionFrom_word (w S : List Char) (pos n : Nat) (hw : '\n' ∉ w) (hn : 0 < n) :
    blockPositionFrom (w ++ S) pos n = blockPositionFrom S (pos + w.length) n := by
  rw [blockPositionFrom_append]
  have hcount : w.count '\n' = 0 := List.count_eq_zero.mpr hw
  cases h : blockPositionFrom w pos n with
  | none => simp only [hcount, Nat.sub_zero]
  | some b =>
    exfalso
    obtain ⟨k, rfl⟩ : ∃ k, n = k + 1 := ⟨n - 1, by omega⟩
    obtain ⟨h1, h2⟩ := blockPositionFrom_break w pos k b h
    exact hw (List.getElem?_mem h2)

/-! ## The positions after a replacement -/

theorem movedPos_ge (m : Nat) :
    ∀ (σ : List (Nat × Nat)) (j i p : Nat), j ≤ movedPos m j i σ p
  | [], j, i, p => by
    simp only [movedPos]
    omega
  | s :: R, j, i, p => by
    simp only [movedPos]
    split
    · omega
    · have := movedPos_ge m R (j + (s.1 - i) + m) (s.1 + s.2) p
      omega

theorem movedPos_mono (m : Nat) :
    ∀ (σ : List (Nat × Nat)) (j i p q : Nat), p ≤ q →
      movedPos m j i σ p ≤ movedPos m j i σ q
  | [], j, i, p, q, h => by
    simp only [movedPos]
    omega
  | s :: R, j, i, p, q, h => by
    simp only [movedPos]
    by_cases hp : p ≤ s.1
    · rw [if_pos hp]
      by_cases hq : q ≤ s.1
      · rw [if_pos hq]
        omega
      · rw [if_neg hq]
        have := movedPos_ge m R (j + (s.1 - i) + m) (s.1 + s.2) q
        omega
    · have hq : ¬ q ≤ s.1 := by omega
      rw [if_neg hp, if_neg hq]
      exact movedPos_mono m R _ _ p q h

theorem movedAsc_ge (m : Nat) :
    ∀ (σ : List (Nat × Nat)) (j i d : Nat), σ.Pairwise Behind → (∀ s ∈ σ, i + d ≤ s.1) →
      ∀ r ∈ movedAsc m j i σ, j + d ≤ r.1
  | [], _, _, _, _, _, r, hr => by
    simp [movedAsc] at hr
  | s :: R, j, i, d, hp, hd, r, hr => by
    simp only [movedAsc, List.mem_cons] at hr
    have hs := hd s (List.mem_cons_self _ _)
    rw [List.pairwise_cons] at hp
    rcases hr with rfl | hr
    · simp only
      omega
    · have := movedAsc_ge m R (j + (s.1 - i) + m) (s.1 + s.2) 0 hp.2
        (fun r2 hr2 => by have := hp.1 r2 hr2; unfold Behind at this; omega) r hr
      omega

theorem movedAsc_length (m : Nat) :
    ∀ (σ : List (Nat × Nat)) (j i : Nat), ∀ r ∈ movedAsc m j i σ, r.2 = m
  | [], _, _, r, hr => by
    simp [movedAsc] at hr
  | s :: R, j, i, r, hr => by
    simp only [movedAsc, List.mem_cons] at hr
    rcases hr with rfl | hr
    · rfl
    · exact movedAsc_length m R _ _ r hr

/-- The replaced spans of the edited text lie behind each other as the spans
of the text do. -/
theorem movedAsc_pairwise (m : Nat) :
    ∀ (σ : List (Nat × Nat)) (j i : Nat), σ.Pairwise Behind →
      (movedAsc m j i σ).Pairwise Behind
  | [], _, _, _ => by
    simp [movedAsc]
  | s :: R, j, i, hp => by
    rw [List.pairwise_cons] at hp
    simp only [movedAsc]
    rw [List.pairwise_cons]
    refine ⟨?_, movedAsc_pairwise m R _ _ hp.2⟩
    intro r hr
    have := movedAsc_ge m R (j + (s.1 - i) + m) (s.1 + s.2) 1 hp.2
      (fun r2 hr2 => by have := hp.1 r2 hr2; unfold Behind at this; omega) r hr
    unfold Behind
    simp only
    omega

/-- The replaced spans of the edited text start at the moved starts of the
spans of the text. -/
theorem movedAsc_eq_map (m : Nat) :
    ∀ (σ : List (Nat × Nat)) (j i : Nat), σ.Pairwise Behind →
      movedAsc m j i σ = σ.map (fun s => (movedPos m j i σ s.1, m))
  | [], _, _, _ => rfl
  | s :: R, j, i, hp => by
    rw [List.pairwise_cons] at hp
    simp only [movedAsc, List.map_cons, movedPos, le_refl, if_true]
    rw [movedAsc_eq_map m R _ _ hp.2]
    congr 1
    apply List.map_congr_left
    intro r hr
    have := hp.1 r hr
    unfold Behind at this
    have h2 : ¬ r.1 ≤ s.1 := by omega
    rw [if_neg h2]

theorem startsBefore_cons (s : Nat × Nat) (R : List (Nat × Nat)) (p : Nat) :
    startsBefore (s :: R) p = startsBefore R p + if s.1 < p then 1 else 0 := by
  unfold startsBefore
  rw [List.countP_cons]
  simp

theorem startsBefore_eq_zero (R : List (Nat × Nat)) (p : Nat) (h : ∀ r ∈ R, p ≤ r.1) :
    startsBefore R p = 0 := by
  unfold startsBefore
  rw [List.countP_eq_zero]
  intro r hr
  have := h r hr
  simp only [decide_eq_true_eq]
  omega

/-- The moved position of a position that lies in no span: the position
moved by the length difference of the spans that start before it. -/
theorem movedPos_formula (l m : Nat) :
    ∀ (σ : List (Nat × Nat)) (j i c p : Nat), σ.Pairwise Behind → (∀ s ∈ σ, s.2 = l) →
      (∀ s ∈ σ, i ≤ s.1) → j + c * l = i + c * m → i ≤ p →
      (∀ s ∈ σ, p ≤ s.1 ∨ s.1 + l ≤ p) →
      movedPos m j i σ p + (c + startsBefore σ p) * l = p + (c + startsBefore σ p) * m
  | [], j, i, c, p, _, _, _, hji, hip, _ => by
    simp only [movedPos, startsBefore, List.countP_nil, Nat.add_zero]
    omega
  | s :: R, j, i, c, p, hp, hl, hi, hji, hip, hcut => by
    rw [List.pairwise_cons] at hp
    have hsl := hl s (List.mem_cons_self _ _)
    have his := hi s (List.mem_cons_self _ _)
    simp only [movedPos]
    by_cases hps : p ≤ s.1
    · rw [if_pos hps]
      have h0 : startsBefore (s :: R) p = 0 := by
        apply startsBefore_eq_zero
        intro r hr
        rcases List.mem_cons.mp hr with rfl | hr
        · exact hps
        · have := hp.1 r hr
          unfold Behind at this
          omega
      rw [h0]
      simp only [Nat.add_zero]
      omega
    · rw [if_neg hps]
      have hcs := hcut s (List.mem_cons_self _ _)
      have h1 : startsBefore (s :: R) p = startsBefore R p + 1 := by
        rw [startsBefore_cons, if_pos (by omega)]
      rw [h1]
      have hji2 : j + (s.1 - i) + m + (c + 1) * l = s.1 + s.2 + (c + 1) * m := by
        rw [Nat.add_mul, Nat.add_mul, hsl, Nat.one_mul, Nat.one_mul]
        omega
      have ih := movedPos_formula l m R (j + (s.1 - i) + m) (s.1 + s.2) (c + 1) p hp.2
        (fun r hr => hl r (List.mem_cons_of_mem _ hr))
        (fun r hr => by have := hp.1 r hr; unfold Behind at this; omega) hji2 (by omega)
        (fun r hr => hcut r (List.mem_cons_of_mem _ hr))
      have h2 : c + (startsBefore R p + 1) = c + 1 + startsBefore R p := by omega
      rw [h2]
      exact ih

/-! ## The text after a replacement -/

theorem drop_split (text : List Char) (i a l : Nat) (hi : i ≤ a) :
    text.drop i
      = (text.drop i).take (a - i) ++ ((text.drop a).take l ++ text.drop (a + l)) := by
  have h1 : (text.drop a).take l ++ text.drop (a + l) = text.drop a := by
    have := List.take_append_drop l (text.drop a)
    rw [List.drop_drop] at this
    exact this
  have h2 : text.drop a = (text.drop i).drop (a - i) := by
    rw [List.drop_drop]
    congr 1
    omega
  rw [h1, h2, List.take_append_drop]

theorem replacedFrom_none (new : List Char) (i : Nat) (cs : List Char) :
    replacedFrom new [] i cs = cs := by
  unfold replacedFrom
  rw [replacedBody_untouched new [] cs i (fun k _ => ⟨rfl, rfl⟩)]
  simp [startsAt]

/-- The replacement in a text that begins with characters of no span and the
characters of the first span. -/
theorem replacedFrom_gap_span (new : List Char) (a l i : Nat) (R : List (Nat × Nat))
    (G mid post : List Char) (hG : i + G.length = a) (hmid : mid.length = l)
    (hR : ∀ r ∈ R, a + l < r.1) :
    replacedFrom new ((a, l) :: R) i (G ++ (mid ++ post))
      = G ++ (new ++ replacedFrom new R (a + l) post) := by
  have hfree : ∀ k, a ≤ k → k ≤ a + l → startsAt R k = false ∧ covers R k = false := by
    intro k _ hk2
    constructor
    · rw [Bool.eq_false_iff, Ne, startsAt_iff]
      rintro ⟨r, hr, he⟩
      have := hR r hr
      omega
    · rw [Bool.eq_false_iff, Ne, covers_iff]
      rintro ⟨r, hr, he, _⟩
      have := hR r hr
      omega
  have hgap : ∀ k, k < G.length →
      startsAt ((a, l) :: R) (i + k) = false ∧ covers ((a, l) :: R) (i + k) = false := by
    intro k hk
    constructor
    · rw [Bool.eq_false_iff, Ne, startsAt_iff]
      rintro ⟨r, hr, he⟩
      rcases List.mem_cons.mp hr with rfl | hr
      · simp only at he
        omega
      · have := hR r hr
        omega
    · rw [Bool.eq_false_iff, Ne, covers_iff]
      rintro ⟨r, hr, he, _⟩
      rcases List.mem_cons.mp hr with rfl | hr
      · simp only at he
        omega
      · have := hR r hr
        omega
  rw [replacedFrom_append, replacedBody_untouched new _ G i hgap, hG, replacedFrom_append,
    hmid, replacedFrom_span new a l R mid post hmid hfree]

/-- The text from a position before the first span on, and its replacement:
the characters before the span, the spelling, and the rest. -/
theorem replacedFrom_drop_cons (text old new : List Char) (s : Nat × Nat)
    (R : List (Nat × Nat)) (i : Nat) (his : i ≤ s.1)
    (hs : s.2 = old.length ∧ s.1 + s.2 ≤ text.length ∧ (text.drop s.1).take s.2 = old)
    (hR : ∀ r ∈ R, Behind s r) :
    ((text.drop i).take (s.1 - i)).length = s.1 - i
      ∧ text.drop i = (text.drop i).take (s.1 - i) ++ (old ++ text.drop (s.1 + s.2))
      ∧ replacedFrom new (s :: R) i (text.drop i)
        = (text.drop i).take (s.1 - i)
          ++ (new ++ replacedFrom new R (s.1 + s.2) (text.drop (s.1 + s.2))) := by
  obtain ⟨a, l⟩ := s
  simp only at his hs hR ⊢
  obtain ⟨hl, hal, hold⟩ := hs
  have hlen : ((text.drop i).take (a - i)).length = a - i := by
    rw [List.length_take, List.length_drop]
    omega
  have hsplit := drop_split text i a l his
  rw [hold] at hsplit
  refine ⟨hlen, hsplit, ?_⟩
  have h := replacedFrom_gap_span new a l i R ((text.drop i).take (a - i)) old
    (text.drop (a + l)) (by omega) hl.symm (fun r hr => hR r hr)
  rw [← hsplit] at h
  exact h

/-- Rename round trip on spans: replacing the spans that spell `old` by `new`
and then the moved spans by `old` gives the text again. -/
theorem replacedFrom_round (text old new : List Char) :
    ∀ (σ : List (Nat × Nat)) (i j : Nat), σ.Pairwise Behind → (∀ s ∈ σ, i ≤ s.1) →
      (∀ s ∈ σ, s.2 = old.length ∧ s.1 + s.2 ≤ text.length
        ∧ (text.drop s.1).take s.2 = old) →
      replacedFrom old (movedAsc new.length j i σ) j (replacedFrom new σ i (text.drop i))
        = text.drop i
  | [], i, j, _, _, _ => by
    simp only [movedAsc]
    rw [replacedFrom_none, replacedFrom_none]
  | s :: R, i, j, hp, hi, hs => by
    rw [List.pairwise_cons] at hp
    have his := hi s (List.mem_cons_self _ _)
    obtain ⟨hlen, hsplit, himage⟩ := replacedFrom_drop_cons text old new s R i his
      (hs s (List.mem_cons_self _ _)) hp.1
    have hbehind : ∀ r ∈ R, s.1 + s.2 ≤ r.1 := by
      intro r hr
      have := hp.1 r hr
      unfold Behind at this
      omega
    have hbehind1 : ∀ r ∈ R, s.1 + s.2 + 1 ≤ r.1 := by
      intro r hr
      have := hp.1 r hr
      unfold Behind at this
      omega
    rw [himage]
    simp only [movedAsc]
    rw [replacedFrom_gap_span old (j + (s.1 - i)) new.length j _ _ new _ (by omega) rfl
      (fun r hr => by
        have := movedAsc_ge new.length R (j + (s.1 - i) + new.length) (s.1 + s.2) 1 hp.2
          hbehind1 r hr
        omega)]
    rw [replacedFrom_round text old new R (s.1 + s.2) (j + (s.1 - i) + new.length) hp.2
      hbehind (fun r hr => hs r (List.mem_cons_of_mem _ hr))]
    exact hsplit.symm

/-- The moved spans lie inside the edited text. -/
theorem movedAsc_inside (text old new : List Char) :
    ∀ (σ : List (Nat × Nat)) (i j : Nat), σ.Pairwise Behind → (∀ s ∈ σ, i ≤ s.1) →
      (∀ s ∈ σ, s.2 = old.length ∧ s.1 + s.2 ≤ text.length
        ∧ (text.drop s.1).take s.2 = old) →
      ∀ r ∈ movedAsc new.length j i σ,
        r.1 + new.length ≤ j + (replacedFrom new σ i (text.drop i)).length
  | [], i, j, _, _, _, r, hr => by
    simp [movedAsc] at hr
  | s :: R, i, j, hp, hi, hs, r, hr => by
    rw [List.pairwise_cons] at hp
    have his := hi s (List.mem_cons_self _ _)
    obtain ⟨hlen, hsplit, himage⟩ := replacedFrom_drop_cons text old new s R i his
      (hs s (List.mem_cons_self _ _)) hp.1
    have hbehind : ∀ r ∈ R, s.1 + s.2 ≤ r.1 := by
      intro r hr
      have := hp.1 r hr
      unfold Behind at this
      omega
    rw [himage]
    simp only [List.length_append, hlen]
    simp only [movedAsc, List.mem_cons] at hr
    rcases hr with rfl | hr
    · simp only
      omega
    · have := movedAsc_inside text old new R (s.1 + s.2) (j + (s.1 - i) + new.length) hp.2
        hbehind (fun r hr => hs r (List.mem_cons_of_mem _ hr)) r hr
      omega

/-- The start of a line of the edited text: the moved start of the line of the
text, when neither spelling has a line break. -/
theorem blockPositionFrom_replaced (text old new : List Char) (hold : '\n' ∉ old)
    (hnew : '\n' ∉ new) :
    ∀ (σ : List (Nat × Nat)) (i j n bp : Nat), σ.Pairwise Behind → (∀ s ∈ σ, i ≤ s.1) →
      (∀ s ∈ σ, s.2 = old.length ∧ s.1 + s.2 ≤ text.length
        ∧ (text.drop s.1).take s.2 = old) →
      blockPositionFrom (text.drop i) i n = some bp →
      blockPositionFrom (replacedFrom new σ i (text.drop i)) j n
        = some (movedPos new.length j i σ bp)
  | [], i, j, n, bp, _, _, _, h => by
    rw [replacedFrom_none]
    simp only [movedPos]
    exact (blockPositionFrom_some _ i n bp h).2 j
  | s :: R, i, j, n, bp, hp, hi, hs, h => by
    rw [List.pairwise_cons] at hp
    have his := hi s (List.mem_cons_self _ _)
    obtain ⟨hlen, hsplit, himage⟩ := replacedFrom_drop_cons text old new s R i his
      (hs s (List.mem_cons_self _ _)) hp.1
    have hbehind : ∀ r ∈ R, s.1 + s.2 ≤ r.1 := by
      intro r hr
      have := hp.1 r hr
      unfold Behind at this
      omega
    have hsl := (hs s (List.mem_cons_self _ _)).1
    rw [himage, blockPositionFrom_append]
    rw [hsplit, blockPositionFrom_append] at h
    simp only [movedPos]
    cases hG : blockPositionFrom ((text.drop i).take (s.1 - i)) i n with
    | some b =>
      rw [hG] at h
      simp only [Option.some.injEq] at h
      subst h
      have hle := blockPositionFrom_le _ i n b hG
      rw [hlen] at hle
      rw [(blockPositionFrom_some _ i n b hG).2 j, if_pos (by omega)]
    | none =>
      rw [hG] at h
      simp only at h
      have hcount := blockPositionFrom_none_count _ i n hG
      rw [blockPositionFrom_none _ i n hG j]
      simp only
      rw [blockPositionFrom_word old _ _ _ hold (by omega), hlen] at h
      rw [blockPositionFrom_word new _ _ _ hnew (by omega), hlen]
      have h2 : i + (s.1 - i) + old.length = s.1 + s.2 := by omega
      rw [h2] at h
      obtain ⟨k, hk⟩ : ∃ k, n - ((text.drop i).take (s.1 - i)).count '\n' = k + 1 :=
        ⟨n - ((text.drop i).take (s.1 - i)).count '\n' - 1, by omega⟩
      rw [hk] at h ⊢
      have hlt := (blockPositionFrom_break _ _ k bp h).1
      rw [if_neg (by omega)]
      exact blockPositionFrom_replaced text old new hold hnew R (s.1 + s.2)
        (j + (s.1 - i) + new.length) (k + 1) bp hp.2 hbehind
        (fun r hr => hs r (List.mem_cons_of_mem _ hr)) h

/-! ## The occurrences of a spelling -/

/-- Spans apart from each other can be put in ascending order. -/
theorem exists_ascending (ss : List (Nat × Nat)) (h : ss.Pairwise Apart) :
    ∃ σ : List (Nat × Nat), σ.Perm ss ∧ σ.Pairwise Behind := by
  let r : Nat × Nat → Nat × Nat → Prop := fun x y => x.1 ≤ y.1
  haveI : DecidableRel r := fun x y => inferInstanceAs (Decidable (x.1 ≤ y.1))
  haveI : IsTotal (Nat × Nat) r := ⟨fun x y => Nat.le_total x.1 y.1⟩
  haveI : IsTrans (Nat × Nat) r := ⟨fun x y z hxy hyz => Nat.le_trans hxy hyz⟩
  refine ⟨ss.insertionSort r, List.perm_insertionSort r ss, ?_⟩
  have hsorted : (ss.insertionSort r).Pairwise r := List.sorted_insertionSort r ss
  have hapart : (ss.insertionSort r).Pairwise Apart :=
    ((List.perm_insertionSort r ss).pairwise_iff (fun h => apart_symm h)).mpr h
  refine (hsorted.and hapart).imp ?_
  intro x y hxy
  obtain ⟨h1, h2⟩ := hxy
  rcases h2 with h2 | h2
  · exact h2
  · have h3 : x.1 ≤ y.1 := h1
    omega

theorem behind_apart {x y : Nat × Nat} (h : Behind x y) : Apart x y :=
  Or.inl h

theorem filterMap_map_of {α β γ : Type} (f : α → Option β) (g : α → α) (f2 : α → Option γ)
    (h : β → γ) :
    ∀ items : List α, (∀ item ∈ items, ∃ s, f item = some s ∧ f2 (g item) = some (h s)) →
      (items.map g).filterMap f2 = (items.filterMap f).map h
  | [], _ => rfl
  | item :: rest, hall => by
    obtain ⟨s, hs, hs2⟩ := hall item (List.mem_cons_self _ _)
    rw [List.map_cons, List.filterMap_cons_some hs2, List.filterMap_cons_some hs,
      List.map_cons, filterMap_map_of f g f2 h rest
        (fun i hi => hall i (List.mem_cons_of_mem _ hi))]

theorem countP_filterMap_of {α β : Type} (f : α → Option β) (P : α → Bool) (Q : β → Bool) :
    ∀ items : List α, (∀ item ∈ items, ∃ s, f item = some s ∧ P item = Q s) →
      items.countP P = (items.filterMap f).countP Q
  | [], _ => rfl
  | item :: rest, hall => by
    obtain ⟨s, hs, hPQ⟩ := hall item (List.mem_cons_self _ _)
    rw [List.filterMap_cons_some hs, List.countP_cons, List.countP_cons, hPQ,
      countP_filterMap_of f P Q rest (fun i hi => hall i (List.mem_cons_of_mem _ hi))]

theorem startsBefore_split (p q : Nat) (hpq : p ≤ q) :
    ∀ σ : List (Nat × Nat),
      startsBefore σ q
        = startsBefore σ p + σ.countP (fun s => decide (p ≤ s.1 ∧ s.1 < q))
  | [] => rfl
  | s :: R => by
    rw [startsBefore_cons, startsBefore_cons, List.countP_cons, startsBefore_split p q hpq R]
    by_cases h1 : s.1 < p
    · have h2 : s.1 < q := by omega
      have h3 : ¬ p ≤ s.1 := by omega
      simp [h1, h2, h3]
      omega
    · have h3 : p ≤ s.1 := by omega
      by_cases h2 : s.1 < q
      · simp [h1, h2, h3]
        omega
      · simp [h1, h2, h3]

theorem spelled_mem (text old : List Char) (a l k : Nat) (c : Char)
    (h : (text.drop a).take l = old) (h1 : a ≤ k) (h2 : k < a + l) (hc : text[k]? = some c) :
    c ∈ old := by
  have h3 : old[k - a]? = some c := by
    rw [← h, List.getElem?_take_of_lt (by omega), List.getElem?_drop]
    have : a + (k - a) = k := by omega
    rw [this]
    exact hc
  exact List.getElem?_mem h3

/-- What an occurrence of `old` gives: the start of its line, its span, and
the spelling at the span. -/
theorem occurrence_span (text old : List Char) (item : SearchResultItem)
    (h : Occurrence text old item) :
    ∃ bp, findBlockByNumber text (item.lineNumber - 1) = some bp
      ∧ itemSpan text item = some (bp + item.searchTermStart, old.length)
      ∧ item.searchTermLength = old.length
      ∧ bp + item.searchTermStart + old.length ≤ text.length
      ∧ (text.drop (bp + item.searchTermStart)).take old.length = old
      ∧ (∀ j, bp ≤ j → j < bp + item.searchTermStart → text[j]? ≠ some '\n') := by
  obtain ⟨h0, bp, hbp, hline, hin, hsp⟩ := h
  have hlen : item.searchTermLength = old.length := by
    have := congrArg List.length hsp
    rw [List.length_take, List.length_drop] at this
    omega
  refine ⟨bp, hbp, ?_, hlen, by omega, by rw [← hlen]; exact hsp, hline⟩
  unfold itemSpan
  rw [if_neg h0, hbp, hlen]
  rfl

/-- Of two occurrences in their lines, one lies on the line of the other and
starts before it exactly when its span starts between the start of that line
and the start of the other. -/
theorem occurrence_earlier (text old : List Char) (other item : SearchResultItem)
    (ho : Occurrence text old other) (hi : Occurrence text old item)
    (bpo bp : Nat) (hbpo : findBlockByNumber text (other.lineNumber - 1) = some bpo)
    (hbp : findBlockByNumber text (item.lineNumber - 1) = some bp) :
    (other.lineNumber = item.lineNumber ∧ other.searchTermStart < item.searchTermStart)
      ↔ (bp ≤ bpo + other.searchTermStart
        ∧ bpo + other.searchTermStart < bp + item.searchTermStart) := by
  obtain ⟨ho0, bpo2, hbpo2, holine, _, _⟩ := ho
  obtain ⟨hi0, bp2, hbp2, hiline, _, _⟩ := hi
  rw [hbpo] at hbpo2
  rw [hbp] at hbp2
  cases hbpo2
  cases hbp2
  constructor
  · rintro ⟨hl, hs⟩
    rw [hl, hbp] at hbpo
    cases hbpo
    omega
  · rintro ⟨h1, h2⟩
    unfold findBlockByNumber at hbpo hbp
    rcases Nat.lt_trichotomy (other.lineNumber - 1) (item.lineNumber - 1) with hlt | heq | hgt
    · exfalso
      have hlt2 := blockPositionFrom_lt text 0 _ _ bpo bp hlt hbpo hbp
      obtain ⟨k, hk⟩ : ∃ k, item.lineNumber - 1 = k + 1 := ⟨item.lineNumber - 1 - 1, by omega⟩
      rw [hk] at hbp
      have hbr := (blockPositionFrom_break text 0 k bp hbp).2
      exact holine (bp - 1) (by omega) (by omega) hbr
    · rw [heq, hbp] at hbpo
      cases hbpo
      exact ⟨by omega, by omega⟩
    · exfalso
      have hlt2 := blockPositionFrom_lt text 0 _ _ bp bpo hgt hbp hbpo
      obtain ⟨k, hk⟩ : ∃ k, other.lineNumber - 1 = k + 1 :=
        ⟨other.lineNumber - 1 - 1, by omega⟩
      rw [hk] at hbpo
      have hbr := (blockPositionFrom_break text 0 k bpo hbpo).2
      exact hiline (bpo - 1) (by omega) (by omega) hbr

/-- The start of a line lies in no span that spells a text without a line
break. -/
theorem blockPosition_cut (text old : List Char) (hold : '\n' ∉ old) (n bp : Nat)
    (hbp : findBlockByNumber text n = some bp) (s : Nat × Nat)
    (hs : (text.drop s.1).take old.length = old) :
    bp ≤ s.1 ∨ s.1 + old.length ≤ bp := by
  by_cases h1 : bp ≤ s.1
  · exact Or.inl h1
  · right
    by_contra h2
    unfold findBlockByNumber at hbp
    cases n with
    | zero =>
      rw [blockPositionFrom_zero] at hbp
      cases hbp
      omega
    | succ k =>
      have hbr := (blockPositionFrom_break text 0 k bp hbp).2
      exact hold (spelled_mem text old s.1 old.length (bp - 1) '\n' hs (by omega) (by omega)
        hbr)

/-- The spans of occurrences of `old` have its length, lie inside the text and
spell it. -/
theorem spans_spelled (text old : List Char) (items : List SearchResultItem)
    (hocc : ∀ item ∈ items, Occurrence text old item) :
    ∀ s ∈ items.filterMap (itemSpan text),
      s.2 = old.length ∧ s.1 + s.2 ≤ text.length ∧ (text.drop s.1).take s.2 = old := by
  intro s hs
  rw [List.mem_filterMap] at hs
  obtain ⟨item, hi, his⟩ := hs
  obtain ⟨bp, _, hspan, _, hin, hsp, _⟩ := occurrence_span text old item (hocc item hi)
  rw [hspan] at his
  cases his
  exact ⟨rfl, hin, hsp⟩

/-- The span of the shifted occurrence in the edited text: the moved start of
the span of the occurrence, with the length of `new`. -/
theorem shiftItem_span (text old new : List Char) (hold : '\n' ∉ old) (hnew : '\n' ∉ new)
    (items : List SearchResultItem) (hocc : ∀ item ∈ items, Occurrence text old item)
    (hapart : (items.filterMap (itemSpan text)).Pairwise Apart)
    (σ : List (Nat × Nat)) (hperm : σ.Perm (items.filterMap (itemSpan text)))
    (hasc : σ.Pairwise Behind) (item : SearchResultItem) (hi : item ∈ items) :
    ∃ s, itemSpan text item = some s
      ∧ itemSpan (replacedFrom new σ 0 text) (shiftItem old.length new.length items item)
        = some ((fun s : Nat × Nat => (movedPos new.length 0 0 σ s.1, new.length)) s) := by
  obtain ⟨bp, hbp, hspan, hlen, hin, hsp, hline⟩ := occurrence_span text old item (hocc item hi)
  have h0 : item.lineNumber ≠ 0 := (hocc item hi).1
  refine ⟨_, hspan, ?_⟩
  have hσ : ∀ s ∈ σ,
      s.2 = old.length ∧ s.1 + s.2 ≤ text.length ∧ (text.drop s.1).take s.2 = old :=
    fun s hs => spans_spelled text old items hocc s (hperm.mem_iff.mp hs)
  have hσl : ∀ s ∈ σ, s.2 = old.length := fun s hs => (hσ s hs).1
  have hσ0 : ∀ s ∈ σ, 0 ≤ s.1 := fun s _ => Nat.zero_le _
  -- the start of the line in the edited text
  have hblock : findBlockByNumber (replacedFrom new σ 0 text) (item.lineNumber - 1)
      = some (movedPos new.length 0 0 σ bp) := by
    have h := blockPositionFrom_replaced text old new hold hnew σ 0 0 (item.lineNumber - 1) bp
      hasc hσ0 hσ (by simpa [findBlockByNumber] using hbp)
    simpa [findBlockByNumber] using h
  -- the replacements of the line before the occurrence
  have hcount : items.countP (fun other =>
        decide (other.lineNumber = item.lineNumber
          ∧ other.searchTermStart < item.searchTermStart))
      = σ.countP (fun s => decide (bp ≤ s.1 ∧ s.1 < bp + item.searchTermStart)) := by
    rw [hperm.countP_eq]
    apply countP_filterMap_of (itemSpan text)
    intro other ho
    obtain ⟨bpo, hbpo, hospan, _, _, _, _⟩ := occurrence_span text old other (hocc other ho)
    refine ⟨_, hospan, ?_⟩
    exact decide_eq_decide.mpr
      (occurrence_earlier text old other item (hocc other ho) (hocc item hi) bpo bp hbpo hbp)
  -- neither the start of the line nor the start of the occurrence lies in a span
  have hcutb : ∀ s ∈ σ, bp ≤ s.1 ∨ s.1 + old.length ≤ bp := by
    intro s hs
    have h := (hσ s hs).2.2
    rw [hσl s hs] at h
    exact blockPosition_cut text old hold (item.lineNumber - 1) bp hbp s h
  have hmem : (bp + item.searchTermStart, old.length) ∈ items.filterMap (itemSpan text) :=
    List.mem_filterMap.mpr ⟨item, hi, hspan⟩
  have hcuta : ∀ s ∈ σ,
      bp + item.searchTermStart ≤ s.1 ∨ s.1 + old.length ≤ bp + item.searchTermStart := by
    intro s hs
    by_cases he : s = (bp + item.searchTermStart, old.length)
    · left
      rw [he]
    · have hap : Apart s (bp + item.searchTermStart, old.length) :=
        hapart.forall (fun _ _ h => apart_symm h) (hperm.mem_iff.mp hs) hmem he
      have hl := hσl s hs
      rcases hap with h | h <;> simp only at h <;> omega
  have hfb := movedPos_formula old.length new.length σ 0 0 0 bp hasc hσl hσ0 (by simp)
    (Nat.zero_le _) hcutb
  have hfa := movedPos_formula old.length new.length σ 0 0 0 (bp + item.searchTermStart) hasc
    hσl hσ0 (by simp) (Nat.zero_le _) hcuta
  have hsplit := startsBefore_split bp (bp + item.searchTermStart) (by omega) σ
  have hmono := movedPos_mono new.length σ 0 0 bp (bp + item.searchTermStart) (by omega)
  rw [hsplit, ← hcount] at hfa
  simp only [Nat.zero_add, Nat.add_mul] at hfa hfb
  unfold itemSpan
  have hline2 : (shiftItem old.length new.length items item).lineNumber = item.lineNumber := rfl
  rw [hline2, if_neg h0, hblock]
  simp only [Option.map_some', Option.some.injEq, Prod.mk.injEq]
  refine ⟨?_, rfl⟩
  show movedPos new.length 0 0 σ bp
      + (item.searchTermStart
        + items.countP (fun other =>
            decide (other.lineNumber = item.lineNumber
              ∧ other.searchTermStart < item.searchTermStart)) * new.length
        - items.countP (fun other =>
            decide (other.lineNumber = item.lineNumber
              ∧ other.searchTermStart < item.searchTermStart)) * old.length)
      = movedPos new.length 0 0 σ (bp + item.searchTermStart)
  omega

/-- C13, counterexample: round trips that do not restore the text. The
occurrences `(2, 2)` and `(0, 2)` of `ab` in `abab` are disjoint; listed with
the later one first and replaced by `x` they leave `x`, and the replacement of
the shifted occurrences by `ab` gives `ab`. The occurrences of `ab` in the two
lines `ab` and `ab`, listed in ascending order and replaced by a text with a
line break, `x`, line break, `y`, leave four lines, and the replacement of the
shifted occurrences by `ab` gives the two lines `abab` and `y`. -/
theorem applyChanges_round_trip_fails :
    itemSpan "abab".data (itemAt 1 2 2) = some (2, 2)
      ∧ itemSpan "abab".data (itemAt 1 0 2) = some (0, 2)
      ∧ applyChanges "abab".data "x".data [itemAt 1 2 2, itemAt 1 0 2] = "x".data
      ∧ [itemAt 1 2 2, itemAt 1 0 2].map (shiftItem 2 1 [itemAt 1 2 2, itemAt 1 0 2])
        = [itemAt 1 1 1, itemAt 1 0 1]
      ∧ applyChanges (applyChanges "abab".data "x".data [itemAt 1 2 2, itemAt 1 0 2])
          "ab".data
          ([itemAt 1 2 2, itemAt 1 0 2].map (shiftItem 2 1 [itemAt 1 2 2, itemAt 1 0 2]))
        = "ab".data
      ∧ itemSpan "ab\nab".data (itemAt 1 0 2) = some (0, 2)
      ∧ itemSpan "ab\nab".data (itemAt 2 0 2) = some (3, 2)
      ∧ applyChanges "ab\nab".data "x\ny".data [itemAt 1 0 2, itemAt 2 0 2]
        = "x\ny\nx\ny".data
      ∧ applyChanges (applyChanges "ab\nab".data "x\ny".data [itemAt 1 0 2, itemAt 2 0 2])
          "ab".data
          ([itemAt 1 0 2, itemAt 2 0 2].map (shiftItem 2 3 [itemAt 1 0 2, itemAt 2 0 2]))
        = "abab\ny".data := by
  decide

/-- C13 (amended): rename round trip. For every text, every `old` and `new`
without a line break and every list of occurrences of `old` in their lines
whose spans lie apart from each other (at least one character between two
spans), applying the replacement with `new` and then applying the replacement
with `old` to the shifted occurrences (same lines, starts moved by the length
difference of the earlier replacements of the line, length of `new`) restores
the text. -/
theorem applyChanges_round_trip (text old new : List Char) (items : List SearchResultItem)
    (hocc : ∀ item ∈ items, Occurrence text old item)
    (hapart : (items.filterMap (itemSpan text)).Pairwise Apart)
    (hold : '\n' ∉ old) (hnew : '\n' ∉ new) :
    applyChanges (applyChanges text new items) old
        (items.map (shiftItem old.length new.length items))
      = text := by
  obtain ⟨σ, hperm, hasc⟩ := exists_ascending _ hapart
  have hσ : ∀ s ∈ σ,
      s.2 = old.length ∧ s.1 + s.2 ≤ text.length ∧ (text.drop s.1).take s.2 = old :=
    fun s hs => spans_spelled text old items hocc s (hperm.mem_iff.mp hs)
  have hσ0 : ∀ s ∈ σ, 0 ≤ s.1 := fun s _ => Nat.zero_le _
  have hvalid : ∀ item ∈ items,
      ∃ s, itemSpan text item = some s ∧ s.1 + s.2 ≤ text.length := by
    intro item hi
    obtain ⟨bp, _, hspan, _, hin, _, _⟩ := occurrence_span text old item (hocc item hi)
    exact ⟨_, hspan, hin⟩
  have h1 : applyChanges text new items = replacedFrom new σ 0 text := by
    rw [applyChanges_eq_replaced text new items hvalid hapart,
      ← replaced_perm text new _ σ hperm, replaced_eq_replacedFrom]
  rw [h1]
  have hmap := filterMap_map_of (itemSpan text) (shiftItem old.length new.length items)
    (itemSpan (replacedFrom new σ 0 text))
    (fun s : Nat × Nat => (movedPos new.length 0 0 σ s.1, new.length)) items
    (fun item hi => shiftItem_span text old new hold hnew items hocc hapart σ hperm hasc
      item hi)
  have hmoved := movedAsc_eq_map new.length σ 0 0 hasc
  have hperm2 : ((items.filterMap (itemSpan text)).map
      (fun s : Nat × Nat => (movedPos new.length 0 0 σ s.1, new.length))).Perm
      (movedAsc new.length 0 0 σ) := by
    rw [hmoved]
    exact (hperm.map _).symm
  have hinside := movedAsc_inside text old new σ 0 0 hasc hσ0 hσ
  simp only [List.drop_zero, Nat.zero_add] at hinside
  have hvalid2 : ∀ item2 ∈ items.map (shiftItem old.length new.length items),
      ∃ s, itemSpan (replacedFrom new σ 0 text) item2 = some s
        ∧ s.1 + s.2 ≤ (replacedFrom new σ 0 text).length := by
    intro item2 hi2
    obtain ⟨item, hi, rfl⟩ := List.mem_map.mp hi2
    obtain ⟨s, hs, hs2⟩ := shiftItem_span text old new hold hnew items hocc hapart σ hperm
      hasc item hi
    refine ⟨_, hs2, ?_⟩
    have hmem : (movedPos new.length 0 0 σ s.1, new.length) ∈ movedAsc new.length 0 0 σ :=
      hperm2.mem_iff.mp (List.mem_map.mpr ⟨s, List.mem_filterMap.mpr ⟨item, hi, hs⟩, rfl⟩)
    exact hinside _ hmem
  have hapart2 : ((items.map (shiftItem old.length new.length items)).filterMap
      (itemSpan (replacedFrom new σ 0 text))).Pairwise Apart := by
    rw [hmap]
    exact (hperm2.pairwise_iff (fun h => apart_symm h)).mpr
      ((movedAsc_pairwise new.length σ 0 0 hasc).imp (fun h => behind_apart h))
  rw [applyChanges_eq_replaced _ old _ hvalid2 hapart2, hmap,
    replaced_perm _ old _ _ hperm2, replaced_eq_replacedFrom]
  have hround := replacedFrom_round text old new σ 0 0 hasc hσ0 hσ
  simp only [List.drop_zero] at hround
  exact hround

theorem sampleOccurrences_occurrence :
    ∀ item ∈ sampleOccurrences, Occurrence sampleText "ab".data item := by
  intro item hi
  simp only [sampleOccurrences, List.mem_cons, List.mem_singleton, List.not_mem_nil,
    or_false] at hi
  rcases hi with rfl | rfl | rfl
  · refine ⟨by decide, 0, by decide, ?_, by decide, by decide⟩
    intro j _ h2
    have h3 : j < 6 := h2
    interval_cases j <;> decide
  · refine ⟨by decide, 9, by decide, ?_, by decide, by decide⟩
    intro j h1 h2
    have h3 : j < 9 := h2
    omega
  · refine ⟨by decide, 0, by decide, ?_, by decide, by decide⟩
    intro j _ h2
    have h3 : j < 0 := h2
    omega

theorem applyChanges_round_trip_witness :
    applyChanges (applyChanges sampleText "xyz".data sampleOccurrences) "ab".data
        (sampleOccurrences.map
          (shiftItem "ab".data.length "xyz".data.length sampleOccurrences))
      = sampleText :=
  applyChanges_round_trip sampleText "ab".data "xyz".data sampleOccurrences
    sampleOccurrences_occurrence sampleOccurrences_apart (by decide) (by decide)

theorem applyChanges_round_trip_sample :
    applyChanges sampleText "xyz".data sampleOccurrences = "xyz cd xyz\nxyz".data
      ∧ sampleOccurrences.map (shiftItem 2 3 sampleOccurrences)
        = [itemAt 1 7 3, itemAt 2 0 3, itemAt 1 0 3] := by
  decide


/-! ## The files reported after a replacement -/

theorem changeKeys_appendChange (item : SearchResultItem) :
    ∀ changes : List (String × List SearchResultItem),
      changeKeys (appendChange changes item)
        = if item.fileName ∈ changeKeys changes then changeKeys changes
          else changeKeys changes ++ [item.fileName]
  | [] => by simp [changeKeys, appendChange]
  | (fileName, items) :: rest => by
    have ih := changeKeys_appendChange item rest
    unfold changeKeys at ih ⊢
    by_cases h : fileName = item.fileName
    · simp [appendChange, h]
    · have h2 : ¬ item.fileName = fileName := fun e => h e.symm
      simp only [appendChange, h, if_false, List.map_cons, List.mem_cons, h2, false_or, ih]
      split <;> simp

theorem changeKeys_foldl :
    ∀ (items : List SearchResultItem) (changes : List (String × List SearchResultItem)),
      (changeKeys changes).Nodup →
      (changeKeys (items.foldl appendChange changes)).Nodup
        ∧ ∀ f, f ∈ changeKeys (items.foldl appendChange changes)
            ↔ f ∈ changeKeys changes ∨ ∃ item ∈ items, item.fileName = f
  | [], changes, h => by
    simp only [List.foldl_nil]
    exact ⟨h, fun f => by simp⟩
  | item :: rest, changes, h => by
    simp only [List.foldl_cons]
    have hkeys := changeKeys_appendChange item changes
    have hnodup : (changeKeys (appendChange changes item)).Nodup := by
      rw [hkeys]
      split
      · exact h
      · rename_i hmem
        rw [List.nodup_append]
        refine ⟨h, List.nodup_singleton _, ?_⟩
        intro a ha hb
        rw [List.mem_singleton] at hb
        rw [hb] at ha
        exact hmem ha
    obtain ⟨h1, h2⟩ := changeKeys_foldl rest (appendChange changes item) hnodup
    refine ⟨h1, fun f => ?_⟩
    rw [h2 f, hkeys]
    constructor
    · rintro (hf | ⟨i, hi, he⟩)
      · split at hf
        · exact Or.inl hf
        · rcases List.mem_append.mp hf with hf | hf
          · exact Or.inl hf
          · rw [List.mem_singleton] at hf
            exact Or.inr ⟨item, List.mem_cons_self _ _, hf.symm⟩
      · exact Or.inr ⟨i, List.mem_cons_of_mem _ hi, he⟩
    · rintro (hf | ⟨i, hi, he⟩)
      · left
        split
        · exact hf
        · exact List.mem_append_left _ hf
      · rcases List.mem_cons.mp hi with rfl | hi
        · left
          split
          · rename_i hmem
            rw [← he]
            exact hmem
          · rw [← he]
            exact List.mem_append_right _ (List.mem_singleton_self _)
        · exact Or.inr ⟨i, hi, he⟩

/-- The keys of `changes`: the file names of the items, each once. -/
theorem changeKeys_groupChanges (items : List SearchResultItem) :
    (changeKeys (groupChanges items)).Nodup
      ∧ ∀ f, f ∈ changeKeys (groupChanges items) ↔ ∃ item ∈ items, item.fileName = f := by
  obtain ⟨h1, h2⟩ := changeKeys_foldl items [] (by simp [changeKeys])
  refine ⟨h1, fun f => ?_⟩
  unfold groupChanges
  rw [h2 f]
  simp [changeKeys]

/-- The second loop of `onReplaceButtonClicked`: it writes the files that can
be rewritten and edits the documents of the open editors, and changes nothing
else. -/
theorem replaceInFile_foldl (env : ReplaceEnv) (text : List Char) :
    ∀ (changes : List (String × List SearchResultItem)) (out : ReplaceOutcome),
      (changes.foldl (replaceInFile env text) out).written.map Prod.fst
          = out.written.map Prod.fst ++ (changeKeys changes).filter (canRewrite env)
        ∧ (changes.foldl (replaceInFile env text) out).edited.map Prod.fst
          = out.edited.map Prod.fst ++ (changeKeys changes).filter (hasEditor env)
        ∧ (changes.foldl (replaceInFile env text) out).updated = out.updated
        ∧ (changes.foldl (replaceInFile env text) out).hidden = out.hidden
  | [], out => by simp [changeKeys]
  | entry :: rest, out => by
    simp only [List.foldl_cons]
    obtain ⟨h1, h2, h3, h4⟩ := replaceInFile_foldl env text rest (replaceInFile env text out entry)
    rw [h1, h2, h3, h4]
    unfold replaceInFile changeKeys
    cases he : env.editorDocument entry.1 with
    | some document =>
      simp [canRewrite, hasEditor, he, List.filter_cons]
    | none =>
      cases hr : env.readAll entry.1 with
      | none => simp [canRewrite, hasEditor, he, hr, List.filter_cons]
      | some plainText =>
        cases hw : env.writable entry.1 with
        | true => simp [canRewrite, hasEditor, he, hr, hw, List.filter_cons]
        | false => simp [canRewrite, hasEditor, he, hr, hw, List.filter_cons]

/-- C14, counterexample: with no open editor, `a.cpp` that cannot be opened
and `b.cpp` that can, the replacement of an occurrence in each of them writes
`b.cpp` alone and passes both file names to `updateSourceFiles`. -/
theorem onReplaceButtonClicked_reports_unchanged :
    (onReplaceButtonClicked sampleReplaceEnv "xy".data
        [itemIn "a.cpp" 1 0 3, itemIn "b.cpp" 1 0 3]).updated = some ["a.cpp", "b.cpp"]
      ∧ (onReplaceButtonClicked sampleReplaceEnv "xy".data
        [itemIn "a.cpp" 1 0 3, itemIn "b.cpp" 1 0 3]).written = [("b.cpp", "xydef".data)]
      ∧ (onReplaceButtonClicked sampleReplaceEnv "xy".data
        [itemIn "a.cpp" 1 0 3, itemIn "b.cpp" 1 0 3]).edited = []
      ∧ sampleReplaceEnv.readAll "a.cpp" = none
      ∧ sampleReplaceEnv.writable "a.cpp" = false := by
  decide

/-- C14 (amended): for a replacement text that is not empty,
`onReplaceButtonClicked` passes to `updateSourceFiles` the file names of the
occurrences, each once, whether or not the file was rewritten: the files
written are those of them on which no text editor is open and that can be
opened for reading and for writing, the documents edited are those of them on
which a text editor is open, and a file that cannot be opened is left
unchanged and reported as well. -/
theorem onReplaceButtonClicked_updated (env : ReplaceEnv) (text : List Char)
    (items : List SearchResultItem) (h : text ≠ []) :
    ∃ names : List String,
      (onReplaceButtonClicked env text items).updated = some names
        ∧ (onReplaceButtonClicked env text items).hidden = true
        ∧ names.Nodup
        ∧ (∀ f, f ∈ names ↔ ∃ item ∈ items, item.fileName = f)
        ∧ (onReplaceButtonClicked env text items).written.map Prod.fst
          = names.filter (canRewrite env)
        ∧ (onReplaceButtonClicked env text items).edited.map Prod.fst
          = names.filter (hasEditor env) := by
  have hne : text.isEmpty = false := by
    cases text with
    | nil => exact absurd rfl h
    | cons c cs => rfl
  obtain ⟨hnodup, hmem⟩ := changeKeys_groupChanges items
  obtain ⟨h1, h2, _, _⟩ := replaceInFile_foldl env text (groupChanges items)
    { edited := [], written := [], updated := none, hidden := false }
  refine ⟨changeKeys (groupChanges items), ?_, ?_, hnodup, hmem, ?_, ?_⟩
  · simp [onReplaceButtonClicked, hne, changeKeys]
  · simp [onReplaceButtonClicked, hne]
  · simp only [onReplaceButtonClicked, hne]
    simpa using h1
  · simp only [onReplaceButtonClicked, hne]
    simpa using h2

theorem onReplaceButtonClicked_updated_witness :
    ∃ names : List String,
      (onReplaceButtonClicked sampleReplaceEnv "xy".data
          [itemIn "a.cpp" 1 0 3, itemIn "b.cpp" 1 0 3, itemIn "a.cpp" 2 0 3]).updated
          = some names
        ∧ (onReplaceButtonClicked sampleReplaceEnv "xy".data
          [itemIn "a.cpp" 1 0 3, itemIn "b.cpp" 1 0 3, itemIn "a.cpp" 2 0 3]).hidden = true
        ∧ names.Nodup
        ∧ (∀ f, f ∈ names ↔
          ∃ item ∈ [itemIn "a.cpp" 1 0 3, itemIn "b.cpp" 1 0 3, itemIn "a.cpp" 2 0 3],
            item.fileName = f)
        ∧ (onReplaceButtonClicked sampleReplaceEnv "xy".data
          [itemIn "a.cpp" 1 0 3, itemIn "b.cpp" 1 0 3, itemIn "a.cpp" 2 0 3]).written.map
            Prod.fst
          = names.filter (canRewrite sampleReplaceEnv)
        ∧ (onReplaceButtonClicked sampleReplaceEnv "xy".data
          [itemIn "a.cpp" 1 0 3, itemIn "b.cpp" 1 0 3, itemIn "a.cpp" 2 0 3]).edited.map
            Prod.fst
          = names.filter (hasEditor sampleReplaceEnv) :=
  onReplaceButtonClicked_updated sampleReplaceEnv "xy".data
    [itemIn "a.cpp" 1 0 3, itemIn "b.cpp" 1 0 3, itemIn "a.cpp" 2 0 3] (by decide)

/-- With an empty replacement text `onReplaceButtonClicked` returns at once:
nothing is edited, written or reported. -/
theorem onReplaceButtonClicked_empty (env : ReplaceEnv) (items : List SearchResultItem) :
    onReplaceButtonClicked env [] items
      = { edited := [], written := [], updated := none, hidden := false } :=
  rfl

end CppFindReferences
